import Mathlib

/-!
# Mython: lexer and evaluator

A shallow embedding of the Mython interpreter (`lexer.h`, `lexer.cpp`, `runtime.h`,
`runtime.cpp`, `statement.cpp`) together with theorems about it.

Conventions of the embedding.

* The character stream `isit_ .. end_` is the list of characters that are still unread.
  Reading `*isit_` at the end of the stream yields no character (`none`), which compares
  unequal to every character the lexer tests for and is not a digit.
* `int` counters of the lexer are unbounded integers; the value handed to `std::stoi` is
  checked against the 32-bit range explicitly.
* A C++ exception is an explicit result: `Except LexerError` for functions that always
  return, `Outcome` for loops that need fuel.
-/

namespace parse

/-! ## Tokens (`lexer.h`) -/

/-- The token variant of `lexer.h`: four valued lexemes and twenty plain ones. -/
inductive Token where
  | Number (value : Int)
  | Id (value : String)
  | Char (value : Char)
  | String (value : String)
  | Class
  | Return
  | If
  | Else
  | Def
  | Newline
  | Print
  | Indent
  | Dedent
  | And
  | Or
  | Not
  | Eq
  | NotEq
  | LessOrEq
  | GreaterOrEq
  | None
  | True
  | False
  | Eof
  deriving DecidableEq, Repr

/-- The exception class `LexerError` with its message. -/
structure LexerError where
  what : String
  deriving DecidableEq, Repr

/-- Result of a lexer loop run with a bound on the number of iterations. -/
inductive Outcome (α : Type) where
  | ok (a : α)
  | error (e : LexerError)
  | outOfFuel
  deriving DecidableEq, Repr

/-- Sequencing of loop results. -/
def Outcome.bind {α β : Type} (x : Outcome α) (f : α → Outcome β) : Outcome β :=
  match x with
  | .ok a => f a
  | .error e => .error e
  | .outOfFuel => .outOfFuel

/-! ## Lexer state (`lexer.h`, private part of `Lexer`) -/

/-- The data members of `Lexer`; `isit_` holds the unread characters up to `end_`. -/
structure Lexer where
  isit_ : List Char
  curent_indent_ : Int
  tokens_ : List Token
  curent_tiken_id_ : Nat
  line_count_ : Nat
  deriving DecidableEq, Repr

/-- The table `keyword_`. -/
def keyword_ : List (String × Token) :=
  [("class", Token.Class), ("return", Token.Return), ("if", Token.If), ("else", Token.Else),
   ("def", Token.Def), ("print", Token.Print), ("or", Token.Or), ("None", Token.None),
   ("and", Token.And), ("not", Token.Not), ("True", Token.True), ("False", Token.False)]

/-- The vector `chars_`. -/
def chars_ : List Char := ['.', ',', '(', '+', ')', '-', '+', '*', '/', ':']

/-- The vector `equals_`. -/
def equals_ : List Char := ['=', '<', '>', '!']

/-- Appends a token to the buffer: `tokens_.push_back(t)`. -/
def Lexer.push (s : Lexer) (t : Token) : Lexer :=
  { s with tokens_ := s.tokens_ ++ [t] }

/-- Advances the stream by one character: `++isit_`. -/
def Lexer.advance (s : Lexer) : Lexer :=
  { s with isit_ := s.isit_.tail }

/-- The character under the iterator, `*isit_`; `none` at the end of the stream. -/
def Lexer.peek (s : Lexer) : Option Char :=
  s.isit_.head?

/-! ## Lexer operations (`lexer.cpp`) -/

/-- `Lexer::ExpectComment`: at `#`, skips up to (not including) the next newline. -/
def ExpectComment (s : Lexer) : Bool × Lexer :=
  if s.peek = some '#' then
    (true, { s with isit_ := s.isit_.dropWhile (fun c => c != '\n') })
  else
    (false, s)

/-- `Lexer::SkipSpace`: skips a run of spaces and reports whether there was one. -/
def SkipSpace (s : Lexer) : Bool × Lexer :=
  (s.peek == some ' ', { s with isit_ := s.isit_.dropWhile (fun c => c == ' ') })

/-- The loop `while (diff_indent < 0) { push Dedent; diff_indent += 2; }` of `ExpectIndent`;
the first argument bounds the number of iterations. -/
def dedentLoop : Nat → Int → List Token → List Token
  | 0, _, toks => toks
  | fuel + 1, diff_indent, toks =>
    if diff_indent < 0 then dedentLoop fuel (diff_indent + 2) (toks ++ [Token.Dedent])
    else toks

/-- `Lexer::ExpectIndent`: counts the leading spaces and compares with the current level. -/
def ExpectIndent (s : Lexer) : Bool × Lexer :=
  let indent : Int := ((s.isit_.takeWhile (fun c => c == ' ')).length : Nat)
  let s1 : Lexer := { s with isit_ := s.isit_.dropWhile (fun c => c == ' ') }
  let diff_indent : Int := indent - s.curent_indent_
  if diff_indent = 0 then
    (false, s1)
  else if diff_indent = 2 then
    (true, { s1 with curent_indent_ := s1.curent_indent_ + 2,
                     tokens_ := s1.tokens_ ++ [Token.Indent] })
  else if diff_indent < 0 ∧ Int.tmod diff_indent 2 = 0 then
    (true, { s1 with tokens_ := dedentLoop (-diff_indent).toNat diff_indent s1.tokens_,
                     curent_indent_ := indent })
  else
    (false, s1)

/-- `Lexer::ExpectKeyWord`: pushes the keyword token of `str` when `str` is in `keyword_`. -/
def ExpectKeyWord (str : String) (s : Lexer) : Bool × Lexer :=
  match keyword_.lookup str with
  | some t => (true, s.push t)
  | none => (false, s)

/-- The lambda `idChar` of `ExpectIdKeyWord`. -/
def idChar (c : Char) (is_first : Bool) : Bool :=
  ('a' ≤ c && c ≤ 'z') || ('A' ≤ c && c ≤ 'Z') || (c == '_')
    || (!is_first && '0' ≤ c && c ≤ '9')

/-- The reading loop of `ExpectIdKeyWord`: the characters read and the rest of the stream. -/
def readIdChars : Bool → List Char → List Char × List Char
  | _, [] => ([], [])
  | first, c :: cs =>
    if idChar c first then
      let r := readIdChars false cs
      (c :: r.1, r.2)
    else ([], c :: cs)

/-- `Lexer::ExpectIdKeyWord`: reads an identifier and pushes a keyword or an `Id`. -/
def ExpectIdKeyWord (s : Lexer) : Bool × Lexer :=
  let r := readIdChars true s.isit_
  let str : String := String.mk r.1
  let s1 : Lexer := { s with isit_ := r.2 }
  let k := ExpectKeyWord str s1
  let s2 : Lexer := if !k.1 && str.length > 0 then k.2.push (Token.Id str) else k.2
  (!r.1.isEmpty, s2)

/-- `Lexer::ExpectChars`: two-character comparisons and single punctuation. -/
def ExpectChars (s : Lexer) : Except LexerError (Bool × Lexer) :=
  match s.peek with
  | none => .ok (false, s)
  | some first =>
    if first ∈ equals_ then
      let s1 := s.advance
      if s1.peek = some '=' then
        if first = '=' then .ok (true, (s1.push Token.Eq).advance)
        else if first = '>' then .ok (true, (s1.push Token.GreaterOrEq).advance)
        else if first = '<' then .ok (true, (s1.push Token.LessOrEq).advance)
        else if first = '!' then .ok (true, (s1.push Token.NotEq).advance)
        else .error ⟨"Not equal char"⟩
      else .ok (true, s1.push (Token.Char first))
    else if first ∈ chars_ then
      .ok (true, (s.push (Token.Char first)).advance)
    else .ok (false, s)

/-- The largest value of `int`. -/
def INT_MAX : Int := 2147483647

/-- The value of a run of decimal digits, most significant first. -/
def digitsValue (ds : List Char) : Nat :=
  ds.foldl (fun acc d => 10 * acc + (d.toNat - '0'.toNat)) 0

/-- `std::stoi` on a string of decimal digits: fails on the empty string
(`std::invalid_argument`) and on a value above `INT_MAX` (`std::out_of_range`). -/
def stoi (parsed_num : List Char) : Option Int :=
  if parsed_num.isEmpty then none
  else if (digitsValue parsed_num : Int) ≤ INT_MAX then some (digitsValue parsed_num)
  else none

/-- `Lexer::ExpectNums`: reads a run of digits; pushes a `Number` when `std::stoi` succeeds
and returns `false` (the exception is caught) when it does not. -/
def ExpectNums (s : Lexer) : Bool × Lexer :=
  let parsed_num := s.isit_.takeWhile Char.isDigit
  let s1 : Lexer := { s with isit_ := s.isit_.dropWhile Char.isDigit }
  match stoi parsed_num with
  | some v => (true, s1.push (Token.Number v))
  | none => (false, s1)

/-- The `switch (escaped_char)` of `ExpectString`; `none` is the `default:` branch. -/
def escapedChar (escaped_char : Char) : Option Char :=
  if escaped_char = 'n' then some '\n'
  else if escaped_char = 't' then some '\t'
  else if escaped_char = 'r' then some '\r'
  else if escaped_char = '"' then some '"'
  else if escaped_char = '\'' then some '\''
  else if escaped_char = '\\' then some '\\'
  else none

/-- The `while (true)` loop of `ExpectString` after the opening quote: the accumulated
string `s` and the stream behind the closing quote, or the error thrown. -/
def stringLoop (openChar : Char) : List Char → List Char → Except LexerError (List Char × List Char)
  | [], _ => .error ⟨"String parsing error"⟩
  | ch :: rest, s =>
    if ch = openChar then .ok (s, rest)
    else if ch = '\\' then
      match rest with
      | [] => .error ⟨"String parsing error"⟩
      | escaped_char :: rest2 =>
        match escapedChar escaped_char with
        | some c => stringLoop openChar rest2 (s ++ [c])
        | none => .error ⟨"Unrecognized escape sequence \\" ++ String.singleton escaped_char⟩
    else if ch = '\n' ∨ ch = '\r' then .error ⟨"Unexpected end of line"⟩
    else stringLoop openChar rest (s ++ [ch])

/-- `Lexer::ExpectString`: called with the stream at an opening quote. -/
def ExpectString (s : Lexer) : Except LexerError (Bool × Lexer) :=
  match s.isit_ with
  | [] => .error ⟨"String parsing error"⟩
  | openChar :: rest =>
    match stringLoop openChar rest [] with
    | .ok (str, rest2) => .ok (true, { s with isit_ := rest2, tokens_ := s.tokens_ ++ [Token.String (String.mk str)] })
    | .error e => .error e

/-- The lexeme probes of the loop body of `ParseString`, tried in order behind the space
skipping: string, identifier or keyword, punctuation, number. -/
def lexemeStep (s : Lexer) : Except LexerError Lexer :=
  let str : Except LexerError (Bool × Lexer) :=
    if s.peek = some '"' ∨ s.peek = some '\'' then ExpectString s else .ok (false, s)
  match str with
  | .error e => .error e
  | .ok (true, s1) => .ok s1
  | .ok (false, s1) =>
    let w := ExpectIdKeyWord s1
    if w.1 then .ok w.2 else
    match ExpectChars w.2 with
    | .error e => .error e
    | .ok (true, s2) => .ok s2
    | .ok (false, s2) => .ok (ExpectNums s2).2

/-- One pass through the body of the `while` loop of `ParseString`: the probes are tried in
order and the first that succeeds ends the pass (`continue`). The indentation probe runs
only while the buffer is empty. -/
def lineStep (s : Lexer) : Except LexerError Lexer :=
  let c := ExpectComment s
  if c.1 then .ok c.2 else
  let i := if c.2.tokens_.length = 0 then ExpectIndent c.2 else (false, c.2)
  if i.1 then .ok i.2 else
  let sp := SkipSpace i.2
  if sp.1 then .ok sp.2 else
  lexemeStep sp.2

/-- The condition `isit_ != end_ && *isit_ != '\n'` of the loop of `ParseString`. -/
def inLine (s : Lexer) : Bool :=
  match s.isit_ with
  | [] => false
  | c :: _ => c != '\n'

/-- The `while` loop of `ParseString`, at most `fuel` passes. -/
def scanLine : Nat → Lexer → Outcome Lexer
  | 0, s => if inLine s then .outOfFuel else .ok s
  | fuel + 1, s =>
    if inLine s then
      match lineStep s with
      | .ok s1 => scanLine fuel s1
      | .error e => .error e
    else .ok s

/-- The loop `while (curent_indent_ > 0) { push Dedent; curent_indent_ -= 2; }` run at the
end of the stream; the first argument bounds the number of iterations. -/
def closeIndents : Nat → Lexer → Lexer
  | 0, s => s
  | fuel + 1, s =>
    if s.curent_indent_ > 0 then
      closeIndents fuel { s with tokens_ := s.tokens_ ++ [Token.Dedent],
                                 curent_indent_ := s.curent_indent_ - 2 }
    else s

/-- The part of `ParseString` behind the loop: end of stream or end of line. -/
def finishLine (s : Lexer) : Bool × Lexer :=
  match s.isit_ with
  | [] =>
    let s1 := closeIndents s.curent_indent_.toNat s
    let s2 := if s1.line_count_ = 0 ∧ s1.tokens_.length ≠ 0 then s1.push Token.Newline else s1
    (true, s2.push Token.Eof)
  | c :: _ =>
    if c = '\n' then
      if s.tokens_.length > 0 then
        (true, { s.push Token.Newline with line_count_ := s.line_count_ + 1 }.advance)
      else (false, s.advance)
    else (true, s)

/-- `Lexer::ParseString`: lexes one line into `tokens_`; `false` when the line gave no token. -/
def ParseString (fuel : Nat) (s : Lexer) : Outcome (Bool × Lexer) :=
  (scanLine fuel s).bind (fun s1 => .ok (finishLine s1))

/-- The loop `while (!ParseString());` of `NextToken`: the first argument bounds the passes
of each call, the second the number of repetitions. -/
def parseLoop (fuel : Nat) : Nat → Lexer → Outcome Lexer
  | 0, s =>
    (ParseString fuel s).bind (fun r => if r.1 then .ok r.2 else .outOfFuel)
  | n + 1, s =>
    (ParseString fuel s).bind (fun r => if r.1 then .ok r.2 else parseLoop fuel n r.2)

/-- `Lexer::CurrentToken`: `tokens_[curent_tiken_id_]`, `none` when the index is outside the
buffer. -/
def CurrentToken (s : Lexer) : Option Token :=
  s.tokens_[s.curent_tiken_id_]?

/-- `Lexer::NextToken`: the next token of the buffer, or the first token of the next line
that has one. Returns the token together with the new state. -/
def NextToken (fuel : Nat) (s : Lexer) : Outcome (Option Token × Lexer) :=
  if s.curent_tiken_id_ + 1 < s.tokens_.length then
    let s1 : Lexer := { s with curent_tiken_id_ := s.curent_tiken_id_ + 1 }
    .ok (CurrentToken s1, s1)
  else
    (parseLoop fuel fuel { s with curent_tiken_id_ := 0, tokens_ := [] }).bind
      (fun s1 => .ok (CurrentToken s1, s1))

/-- The constructor `Lexer::Lexer`: an empty buffer at level 0, then one `NextToken`. -/
def Lexer.new (fuel : Nat) (input : List Char) : Outcome Lexer :=
  (NextToken fuel { isit_ := input, curent_indent_ := 0, tokens_ := [],
                    curent_tiken_id_ := 0, line_count_ := 0 }).bind (fun r => .ok r.2)

/-- Reads the token stream the way a client does: records `CurrentToken` and calls
`NextToken` until `Eof` has been recorded; at most `n` tokens. -/
def readAll (fuel : Nat) : Nat → Lexer → Outcome (List Token)
  | 0, _ => .outOfFuel
  | n + 1, s =>
    match CurrentToken s with
    | none => .ok []
    | some Token.Eof => .ok [Token.Eof]
    | some t => (NextToken fuel s).bind (fun r => (readAll fuel n r.2).bind (fun ts => .ok (t :: ts)))

/-- The complete token stream of an input, up to and including `Eof`. -/
def tokenize (fuel : Nat) (input : List Char) : Outcome (List Token) :=
  (Lexer.new fuel input).bind (readAll fuel fuel)

end parse

/-! ## Runtime values (`runtime.h`, `runtime.cpp`)

Conventions of the embedding.

* An object is a value; a `Class` and a `ClassInstance` are known by their identity (the
  address of the C++ object), a `ClassInstance` together with the class it refers to.
  An `ObjectHolder` is empty (`none`) or holds an object; owning and non-owning holders are
  not distinguished.
* The fields of the instances are kept in the state, by address of the instance.
* A thrown C++ exception is an `Exc`: a thrown `ObjectHolder` (`Return`), a
  `std::runtime_error`, and `fault` for undefined behaviour (a null pointer dereferenced, a
  failed `assert`, a division by 0 or of the least `int` by -1). `outOfFuel` is not a
  behaviour of the program: it says that the bound on the depth of method calls was too small.
* `int` sums, differences and products wrap around at 32 bits.
-/

namespace runtime

/-- The identity of a `Class` object. -/
abbrev ClassId := Nat

/-- The classes derived from `Object`, by value or by identity. -/
inductive Object where
  | Number (value : Int)
  | String (value : String)
  | Bool (value : Bool)
  | Class (id : ClassId)
  | ClassInstance (addr : Nat) (class_ : ClassId)
  deriving DecidableEq, Repr

/-- `ObjectHolder`: `none` is the empty holder, the value `None` of Mython. -/
abbrev ObjectHolder := Option Object

/-- `Closure`: the table of names and their values. -/
abbrev Closure := List (String × ObjectHolder)

/-- `closure.find(name)`: the holder bound to `name`, if there is one. -/
def Closure.find (closure : Closure) (name : String) : Option ObjectHolder :=
  List.lookup name closure

/-- `closure[name] = holder`: replaces the holder of `name` or inserts the name. -/
def Closure.set : Closure → String → ObjectHolder → Closure
  | [], name, holder => [(name, holder)]
  | (k, v) :: rest, name, holder =>
    if k = name then (k, holder) :: rest else (k, v) :: Closure.set rest name holder

/-- What a statement may throw. -/
inductive Exc where
  | Return (result : ObjectHolder)
  | runtime_error (what : String)
  | fault
  | outOfFuel
  deriving DecidableEq, Repr

/-- The mutable part of a run: the fields of the instances, and the text written to the
output stream of the context. -/
structure State where
  fields : List (Nat × Closure)
  output : String
  deriving DecidableEq, Repr

/-- `instance.Fields()` of the instance at `addr`. -/
def State.fieldsOf (st : State) (addr : Nat) : Closure :=
  (List.lookup addr st.fields).getD []

/-- Replaces the fields of the instance at `addr`. -/
def setFields : List (Nat × Closure) → Nat → Closure → List (Nat × Closure)
  | [], addr, closure => [(addr, closure)]
  | (a, c) :: rest, addr, closure =>
    if a = addr then (a, closure) :: rest else (a, c) :: setFields rest addr closure

/-- `instance.Fields()[name] = holder` for the instance at `addr`. -/
def State.setField (st : State) (addr : Nat) (name : String) (holder : ObjectHolder) : State :=
  { st with fields := setFields st.fields addr (Closure.set (st.fieldsOf addr) name holder) }

/-- Appends text to the output stream of the context. -/
def State.write (st : State) (text : String) : State :=
  { st with output := st.output ++ text }

/-- `TryAs<Bool>` of a holder: the value of the `Bool` held, `none` for the null pointer. -/
def TryAsBool (object : ObjectHolder) : Option Bool :=
  match object with
  | some (.Bool value) => some value
  | _ => none

/-- `TryAs<ClassInstance>` of a holder: the address and the class of the instance held. -/
def TryAsClassInstance (object : ObjectHolder) : Option (Nat × ClassId) :=
  match object with
  | some (.ClassInstance addr class_) => some (addr, class_)
  | _ => none

/-- `TryAs<Class>` of a holder: the identity of the class held. -/
def TryAsClass (object : ObjectHolder) : Option ClassId :=
  match object with
  | some (.Class id) => some id
  | _ => none

/-- `IsTrue`. -/
def IsTrue (object : ObjectHolder) : Bool :=
  match object with
  | some (.Bool value) => value
  | some (.Number value) => !(value == 0)
  | some (.String value) => !value.isEmpty
  | _ => false

/-- The predicate handed to `Comparator`, at the three types it is applied to. -/
structure Predicate where
  onBool : Bool → Bool → Bool
  onNumber : Int → Int → Bool
  onString : String → String → Bool

/-- `std::equal_to`. -/
def equal_to : Predicate :=
  { onBool := fun a b => a == b, onNumber := fun a b => a == b, onString := fun a b => a == b }

/-- `std::less`. -/
def less : Predicate :=
  { onBool := fun a b => !a && b, onNumber := fun a b => decide (a < b),
    onString := fun a b => decide (a < b) }

/-- The template `Comparator`: `none` is `std::nullopt`. -/
def Comparator (lhs rhs : ObjectHolder) (cmp : Predicate) : Option Bool :=
  match lhs, rhs with
  | some (.Bool a), some (.Bool b) => some (cmp.onBool a b)
  | some (.Number a), some (.Number b) => some (cmp.onNumber a b)
  | some (.String a), some (.String b) => some (cmp.onString a b)
  | _, _ => none

/-- The value of an `int` expression whose mathematical value is `x`. -/
def wrapInt (x : Int) : Int :=
  (x + 2147483648) % 4294967296 - 2147483648

def STR_METHOD : String := "__str__"

def EQ_METHOD : String := "__eq__"

def LESS_METHOD : String := "__lt__"

end runtime

/-! ## Statements (`statement.cpp`) -/

namespace ast

open runtime

/-- The comparison functions of `runtime.h` a `Comparison` node may hold. -/
inductive Comparator where
  | Equal
  | Less
  | NotEqual
  | Greater
  | LessOrEqual
  | GreaterOrEqual
  deriving DecidableEq, Repr

/-- The nodes of the syntax tree, each with its data members. A `NewInstance` node holds its
`ClassInstance` as a member: `class__` is the address of that instance, `class_` its class.
The literals `NumericConst`, `StringConst`, `BoolConst` and `None` are declared in
`statement.h`. -/
inductive Statement where
  | NumericConst (value : Int)
  | StringConst (value : String)
  | BoolConst (value : Bool)
  | None
  | Assignment (var_name_ : String) (rv_ : Statement)
  | VariableValue (var_name_ : String) (dotted_ids_ : List String)
  | Print (args_ : List Statement)
  | MethodCall (object_ : Statement) (method_ : String) (args_ : List Statement)
  | Stringify (arg_ : Statement)
  | Add (lhs_ rhs_ : Statement)
  | Sub (lhs_ rhs_ : Statement)
  | Mult (lhs_ rhs_ : Statement)
  | Div (lhs_ rhs_ : Statement)
  | Compound (args_ : List Statement)
  | Return (stmt_ : Statement)
  | ClassDefinition (cls_ : ObjectHolder)
  | FieldAssignment (object_var_name_ : String) (object_dotted_ids_ : List String)
      (field_name_ : String) (rv_ : Statement)
  | IfElse (condition_ if_body_ : Statement) (else_body_ : Option Statement)
  | Or (lhs_ rhs_ : Statement)
  | And (lhs_ rhs_ : Statement)
  | Not (arg_ : Statement)
  | Comparison (cmp_ : Comparator) (lhs_ rhs_ : Statement)
  | NewInstance (class__ : Nat) (class_ : ClassId) (args_ : List Statement)
  | MethodBody (body_ : Statement)
  deriving Repr

def ADD_METHOD : String := "__add__"

def INIT_METHOD : String := "__init__"

def NONE_OBJECT : String := "None"

end ast

namespace runtime

open ast

/-- `Method`: its body is a statement. -/
structure Method where
  name : String
  formal_params : List String
  body : Statement

/-- `Class`: the parent is a pointer, `none` when null. -/
structure Class where
  name_ : String
  methods_ : List Method
  parent_ : Option ClassId

/-- The surroundings of a run: the `Class` object at each identity, and the text that
`os << this` writes for the instance at an address. -/
structure Env where
  classes : ClassId → Class
  addressText : Nat → String

/-- The lookup in `vt_methods_`, which the constructor fills from `methods_` in order, a
later method replacing an earlier one of the same name. -/
def Class.vt_methods_ (cls : Class) (name : String) : Option Method :=
  cls.methods_.reverse.find? (fun mt => mt.name == name)

/-- `Class::GetMethod`: the own methods, then those of the parent. -/
def Class.GetMethod (env : Env) (cls : Class) (name : String) : Option Method :=
  match cls.vt_methods_ name with
  | some mt => some mt
  | none =>
    match cls.parent_ with
    | some parent => (env.classes parent).vt_methods_ name
    | none => none

/-- `ClassInstance::HasMethod` of an instance of the class `class_`. -/
def HasMethod (env : Env) (class_ : ClassId) (method : String) (argument_count : Nat) : Bool :=
  match (env.classes class_).GetMethod env method with
  | some mt => mt.formal_params.length == argument_count
  | none => false

/-- What the code below a method call is run with: `ClassInstance::Call` and `Object::Print`
one level of method calls deeper. -/
structure Runtime where
  call : Nat → ClassId → String → List ObjectHolder → State → Except Exc ObjectHolder × State
  print : Object → State → Except Exc String × State

/-- The loop of `ClassInstance::Call` that binds the formal parameters. -/
def bindParams : Closure → List String → List ObjectHolder → Closure
  | args, param :: params, actual :: actuals => bindParams (Closure.set args param actual) params actuals
  | args, _, _ => args

/-- `ClassInstance::Call` of the instance at `addr`, `exec` running the body of the method. -/
def Call (env : Env)
    (exec : Statement → Closure → State → Except Exc ObjectHolder × Closure × State)
    (addr : Nat) (class_ : ClassId) (method : String) (actual_args : List ObjectHolder)
    (st : State) : Except Exc ObjectHolder × State :=
  match (env.classes class_).GetMethod env method with
  | some mt =>
    if mt.formal_params.length = actual_args.length then
      let args := bindParams (Closure.set [] "self" (some (.ClassInstance addr class_)))
        mt.formal_params actual_args
      let r := exec mt.body args st
      (r.1, r.2.2)
    else (.error (.runtime_error "Not implemented"), st)
  | none => (.error (.runtime_error "Not implemented"), st)

/-- `Object::Print`: the text written to `os`, and the state behind the calls it makes. -/
def PrintObject (env : Env) (rt : Runtime) (object : Object) (st : State) :
    Except Exc String × State :=
  match object with
  | .Number value => (.ok (toString value), st)
  | .String value => (.ok value, st)
  | .Bool value => (.ok (if value then "True" else "False"), st)
  | .Class id => (.ok ("Class " ++ (env.classes id).name_), st)
  | .ClassInstance addr class_ =>
    if HasMethod env class_ STR_METHOD 0 then
      match rt.call addr class_ STR_METHOD [] st with
      | (.ok result, st1) =>
        match result with
        | some obj => rt.print obj st1
        | none => (.error .fault, st1)
      | (.error e, st1) => (.error e, st1)
    else (.ok (env.addressText addr), st)

/-- `Equal`. -/
def Equal (rt : Runtime) (lhs rhs : ObjectHolder) (st : State) : Except Exc Bool × State :=
  match TryAsClassInstance lhs with
  | some (addr, class_) =>
    match rt.call addr class_ EQ_METHOD [rhs] st with
    | (.ok result, st1) => (.ok (IsTrue result), st1)
    | (.error e, st1) => (.error e, st1)
  | none =>
    match Comparator lhs rhs equal_to with
    | some result => (.ok result, st)
    | none =>
      if lhs = none ∧ rhs = none then (.ok true, st)
      else (.error (.runtime_error "Cannot compare objects for equality"), st)

/-- `Less`. -/
def Less (rt : Runtime) (lhs rhs : ObjectHolder) (st : State) : Except Exc Bool × State :=
  match TryAsClassInstance lhs with
  | some (addr, class_) =>
    match rt.call addr class_ LESS_METHOD [rhs] st with
    | (.ok result, st1) => (.ok (IsTrue result), st1)
    | (.error e, st1) => (.error e, st1)
  | none =>
    match Comparator lhs rhs less with
    | some result => (.ok result, st)
    | none => (.error (.runtime_error "Cannot compare objects for less"), st)

/-- `NotEqual`. -/
def NotEqual (rt : Runtime) (lhs rhs : ObjectHolder) (st : State) : Except Exc Bool × State :=
  match Equal rt lhs rhs st with
  | (.ok b, st1) => (.ok (!b), st1)
  | (.error e, st1) => (.error e, st1)

/-- `Greater`: `Equal` is called only when `Less` is false. -/
def Greater (rt : Runtime) (lhs rhs : ObjectHolder) (st : State) : Except Exc Bool × State :=
  match Less rt lhs rhs st with
  | (.ok l, st1) =>
    if l then (.ok false, st1)
    else
      match Equal rt lhs rhs st1 with
      | (.ok b, st2) => (.ok (!b), st2)
      | (.error e, st2) => (.error e, st2)
  | (.error e, st1) => (.error e, st1)

/-- `LessOrEqual`. -/
def LessOrEqual (rt : Runtime) (lhs rhs : ObjectHolder) (st : State) :
    Except Exc Bool × State :=
  match Greater rt lhs rhs st with
  | (.ok b, st1) => (.ok (!b), st1)
  | (.error e, st1) => (.error e, st1)

/-- `GreaterOrEqual`. -/
def GreaterOrEqual (rt : Runtime) (lhs rhs : ObjectHolder) (st : State) :
    Except Exc Bool × State :=
  match Less rt lhs rhs st with
  | (.ok b, st1) => (.ok (!b), st1)
  | (.error e, st1) => (.error e, st1)

end runtime

namespace ast

open runtime

/-- `VariableValue::Execute`: the name is looked up in the closure, each further identifier
in the fields of the instance found so far. -/
def VariableValueExecute (st : State) : Closure → String → List String → Except Exc ObjectHolder
  | closure, var_name_, [] =>
    match Closure.find closure var_name_ with
    | some result => .ok result
    | none => .error (.runtime_error ("Variable " ++ var_name_ ++ " not found"))
  | closure, var_name_, id :: ids =>
    match Closure.find closure var_name_ with
    | some (some (.ClassInstance addr _)) => VariableValueExecute st (st.fieldsOf addr) id ids
    | some _ => .error (.runtime_error ("Variable " ++ var_name_ ++ " is not class"))
    | none => .error (.runtime_error ("Variable " ++ var_name_ ++ " not found"))

/-- The expression `a / b` of the lambda of `Div::Execute` on two `int`: the quotient
truncated toward zero. C++ gives the expression no value (`none`) at a divisor 0 and at the
least `int` divided by -1; the lambda tests for neither. -/
def intDiv (a b : Int) : Option Int :=
  if b = 0 ∨ (a = -2147483648 ∧ b = -1) then none else some (Int.tdiv a b)

/-- Modelled from the spec: the helper `NumberBynaryOperation` of `statement.h`, which is not
among the sources, applied to the values of the two operands. "Both operands must be
`Number`", a runtime error otherwise; the result is that of `op`, the lambda of the node,
which the helper is handed by `Sub`, `Mult` and `Div` alike. Where the expression of the
lambda has no value, the behaviour is undefined (`fault`). -/
def NumberBynaryOperation (lhs rhs : ObjectHolder) (op : Int → Int → Option Int) :
    Except Exc ObjectHolder :=
  match lhs, rhs with
  | some (.Number a), some (.Number b) =>
    match op a b with
    | some v => .ok (some (.Number (wrapInt v)))
    | none => .error .fault
  | _, _ => .error (.runtime_error "Cannot execute binary operation")

/-- The call `cmp_(lhs, rhs, context)` of `Comparison::Execute`. -/
def Comparator.apply (cmp_ : Comparator) (rt : Runtime) (lhs rhs : ObjectHolder) (st : State) :
    Except Exc Bool × State :=
  match cmp_ with
  | .Equal => runtime.Equal rt lhs rhs st
  | .Less => runtime.Less rt lhs rhs st
  | .NotEqual => runtime.NotEqual rt lhs rhs st
  | .Greater => runtime.Greater rt lhs rhs st
  | .LessOrEqual => runtime.LessOrEqual rt lhs rhs st
  | .GreaterOrEqual => runtime.GreaterOrEqual rt lhs rhs st

/-- The part of `Stringify::Execute` behind the execution of the argument. -/
def StringifyValue (env : Env) (rt : Runtime) (obj : ObjectHolder) (closure : Closure)
    (st : State) : Except Exc ObjectHolder × Closure × State :=
  match obj with
  | some object =>
    match PrintObject env rt object st with
    | (.ok text, st1) => (.ok (some (.String text)), closure, st1)
    | (.error e, st1) => (.error e, closure, st1)
  | none => (.ok (some (.String NONE_OBJECT)), closure, st)

/-- The second operand of `Or::Execute` and `And::Execute`: a `Bool` is the result, anything
else an error. -/
def LogicOperand (rhs : ObjectHolder) : Except Exc ObjectHolder :=
  match TryAsBool rhs with
  | some r => .ok (some (.Bool r))
  | none => .error (.runtime_error "Cannot execute logic binary operation")

/-- The handlers of `MethodBody::Execute`: a thrown `ObjectHolder` is the value returned,
anything else is thrown again. -/
def CatchReturn (thrown : Exc) : Except Exc ObjectHolder :=
  match thrown with
  | .Return result => .ok result
  | e => .error e

/-- The native part of `Add::Execute`, behind the test for a class instance. -/
def addNative (lhs rhs : ObjectHolder) : Except Exc ObjectHolder :=
  match lhs, rhs with
  | some (.Number l), some (.Number r) => .ok (some (.Number (wrapInt (l + r))))
  | some (.String l), some (.String r) => .ok (some (.String (l ++ r)))
  | _, _ => .error (.runtime_error "Cannot execute binary operation")

/-- The part of `Add::Execute` behind the execution of the operands. -/
def AddValues (rt : Runtime) (lhs rhs : ObjectHolder) (closure : Closure) (st : State) :
    Except Exc ObjectHolder × Closure × State :=
  match TryAsClassInstance lhs with
  | some lhs_is_class =>
    let r := rt.call lhs_is_class.1 lhs_is_class.2 ADD_METHOD [rhs] st
    (r.1, closure, r.2)
  | none => (addNative lhs rhs, closure, st)

mutual

/-- `Statement::Execute` of every node: the value or the exception, the closure and the
state behind the execution. The two operands of `Comparison` are arguments of one call, for
which C++ fixes no order: the right one is executed first, as in the compiled program. -/
def Execute (env : Env) (rt : Runtime) :
    Statement → Closure → State → Except Exc ObjectHolder × Closure × State
  | .NumericConst value, closure, st => (.ok (some (.Number value)), closure, st)
  | .StringConst value, closure, st => (.ok (some (.String value)), closure, st)
  | .BoolConst value, closure, st => (.ok (some (.Bool value)), closure, st)
  | .None, closure, st => (.ok none, closure, st)
  | .Assignment var_name_ rv_, closure, st =>
    match Execute env rt rv_ closure st with
    | (.ok newVar, c1, st1) => (.ok newVar, Closure.set c1 var_name_ newVar, st1)
    | (.error e, c1, st1) => (.error e, c1, st1)
  | .VariableValue var_name_ dotted_ids_, closure, st =>
    (VariableValueExecute st closure var_name_ dotted_ids_, closure, st)
  | .Print args_, closure, st => PrintArgs env rt true args_ closure st
  | .MethodCall object_ method_ args_, closure, st =>
    match Execute env rt object_ closure st with
    | (.ok object, c1, st1) =>
      match TryAsClassInstance object with
      | some clsInst =>
        if HasMethod env clsInst.2 method_ args_.length then
          match ExecuteArgs env rt args_ c1 st1 with
          | (.ok actual_args, c2, st2) =>
            let r := rt.call clsInst.1 clsInst.2 method_ actual_args st2
            (r.1, c2, r.2)
          | (.error e, c2, st2) => (.error e, c2, st2)
        else (.error (.runtime_error ("Class has no method " ++ method_)), c1, st1)
      | none => (.error (.runtime_error "Object is not class instance"), c1, st1)
    | (.error e, c1, st1) => (.error e, c1, st1)
  | .Stringify arg_, closure, st =>
    match Execute env rt arg_ closure st with
    | (.ok obj, c1, st1) => StringifyValue env rt obj c1 st1
    | (.error e, c1, st1) => (.error e, c1, st1)
  | .Add lhs_ rhs_, closure, st =>
    match Execute env rt lhs_ closure st with
    | (.ok lhs, c1, st1) =>
      match Execute env rt rhs_ c1 st1 with
      | (.ok rhs, c2, st2) => AddValues rt lhs rhs c2 st2
      | (.error e, c2, st2) => (.error e, c2, st2)
    | (.error e, c1, st1) => (.error e, c1, st1)
  | .Sub lhs_ rhs_, closure, st =>
    match Execute env rt lhs_ closure st with
    | (.ok lhs, c1, st1) =>
      match Execute env rt rhs_ c1 st1 with
      | (.ok rhs, c2, st2) =>
        (NumberBynaryOperation lhs rhs (fun a b => some (a - b)), c2, st2)
      | (.error e, c2, st2) => (.error e, c2, st2)
    | (.error e, c1, st1) => (.error e, c1, st1)
  | .Mult lhs_ rhs_, closure, st =>
    match Execute env rt lhs_ closure st with
    | (.ok lhs, c1, st1) =>
      match Execute env rt rhs_ c1 st1 with
      | (.ok rhs, c2, st2) =>
        (NumberBynaryOperation lhs rhs (fun a b => some (a * b)), c2, st2)
      | (.error e, c2, st2) => (.error e, c2, st2)
    | (.error e, c1, st1) => (.error e, c1, st1)
  | .Div lhs_ rhs_, closure, st =>
    match Execute env rt lhs_ closure st with
    | (.ok lhs, c1, st1) =>
      match Execute env rt rhs_ c1 st1 with
      | (.ok rhs, c2, st2) =>
        (NumberBynaryOperation lhs rhs intDiv, c2, st2)
      | (.error e, c2, st2) => (.error e, c2, st2)
    | (.error e, c1, st1) => (.error e, c1, st1)
  | .Compound args_, closure, st => ExecuteEach env rt args_ closure st
  | .Return stmt_, closure, st =>
    match Execute env rt stmt_ closure st with
    | (.ok result, c1, st1) => (.error (.Return result), c1, st1)
    | (.error e, c1, st1) => (.error e, c1, st1)
  | .ClassDefinition cls_, closure, st =>
    match TryAsClass cls_ with
    | some id => (.ok none, Closure.set closure (env.classes id).name_ cls_, st)
    | none => (.error .fault, closure, st)
  | .FieldAssignment object_var_name_ object_dotted_ids_ field_name_ rv_, closure, st =>
    match VariableValueExecute st closure object_var_name_ object_dotted_ids_ with
    | .ok object =>
      match TryAsClassInstance object with
      | some obj =>
        match Execute env rt rv_ closure st with
        | (.ok value, c1, st1) => (.ok value, c1, st1.setField obj.1 field_name_ value)
        | (.error e, c1, st1) => (.error e, c1, st1)
      | none => (.error (.runtime_error "Object is not class"), closure, st)
    | .error e => (.error e, closure, st)
  | .IfElse condition_ if_body_ else_body_, closure, st =>
    match Execute env rt condition_ closure st with
    | (.ok if_cnd, c1, st1) =>
      match TryAsBool if_cnd with
      | some true =>
        match Execute env rt if_body_ c1 st1 with
        | (.ok _, c2, st2) => (.ok none, c2, st2)
        | (.error e, c2, st2) => (.error e, c2, st2)
      | some false =>
        match ExecuteIfPresent env rt else_body_ c1 st1 with
        | (.ok _, c2, st2) => (.ok none, c2, st2)
        | (.error e, c2, st2) => (.error e, c2, st2)
      | none => (.error .fault, c1, st1)
    | (.error e, c1, st1) => (.error e, c1, st1)
  | .Or lhs_ rhs_, closure, st =>
    match Execute env rt lhs_ closure st with
    | (.ok lhs, c1, st1) =>
      match TryAsBool lhs with
      | some true => (.ok (some (.Bool true)), c1, st1)
      | some false =>
        match Execute env rt rhs_ c1 st1 with
        | (.ok rhs, c2, st2) => (LogicOperand rhs, c2, st2)
        | (.error e, c2, st2) => (.error e, c2, st2)
      | none => (.error (.runtime_error "Cannot execute logic binary operation"), c1, st1)
    | (.error e, c1, st1) => (.error e, c1, st1)
  | .And lhs_ rhs_, closure, st =>
    match Execute env rt lhs_ closure st with
    | (.ok lhs, c1, st1) =>
      match TryAsBool lhs with
      | some true =>
        match Execute env rt rhs_ c1 st1 with
        | (.ok rhs, c2, st2) => (LogicOperand rhs, c2, st2)
        | (.error e, c2, st2) => (.error e, c2, st2)
      | some false => (.ok (some (.Bool false)), c1, st1)
      | none => (.error (.runtime_error "Cannot execute logic binary operation"), c1, st1)
    | (.error e, c1, st1) => (.error e, c1, st1)
  | .Not arg_, closure, st =>
    match Execute env rt arg_ closure st with
    | (.ok arg, c1, st1) =>
      match TryAsBool arg with
      | some a => (.ok (some (.Bool (!a))), c1, st1)
      | none => (.error (.runtime_error "Cannot execute unary operation"), c1, st1)
    | (.error e, c1, st1) => (.error e, c1, st1)
  | .Comparison cmp_ lhs_ rhs_, closure, st =>
    match Execute env rt rhs_ closure st with
    | (.ok rhs, c1, st1) =>
      match Execute env rt lhs_ c1 st1 with
      | (.ok lhs, c2, st2) =>
        match cmp_.apply rt lhs rhs st2 with
        | (.ok res, st3) => (.ok (some (.Bool res)), c2, st3)
        | (.error e, st3) => (.error e, c2, st3)
      | (.error e, c2, st2) => (.error e, c2, st2)
    | (.error e, c1, st1) => (.error e, c1, st1)
  | .NewInstance class__ class_ args_, closure, st =>
    if HasMethod env class_ INIT_METHOD args_.length then
      match ExecuteArgs env rt args_ closure st with
      | (.ok args, c1, st1) =>
        match rt.call class__ class_ INIT_METHOD args st1 with
        | (.ok _, st2) => (.ok (some (.ClassInstance class__ class_)), c1, st2)
        | (.error e, st2) => (.error e, c1, st2)
      | (.error e, c1, st1) => (.error e, c1, st1)
    else (.ok (some (.ClassInstance class__ class_)), closure, st)
  | .MethodBody body_, closure, st =>
    match Execute env rt body_ closure st with
    | (.ok _, c1, st1) => (.ok none, c1, st1)
    | (.error thrown, c1, st1) => (CatchReturn thrown, c1, st1)

/-- The else-branch of `IfElse::Execute`: executed when the pointer is not null. -/
def ExecuteIfPresent (env : Env) (rt : Runtime) :
    Option Statement → Closure → State → Except Exc ObjectHolder × Closure × State
  | none, closure, st => (.ok none, closure, st)
  | some else_body, closure, st => Execute env rt else_body closure st

/-- The loop of `Compound::Execute`: the statements one after the other. -/
def ExecuteEach (env : Env) (rt : Runtime) :
    List Statement → Closure → State → Except Exc ObjectHolder × Closure × State
  | [], closure, st => (.ok none, closure, st)
  | arg :: rest, closure, st =>
    match Execute env rt arg closure st with
    | (.ok _, c1, st1) => ExecuteEach env rt rest c1 st1
    | (.error e, c1, st1) => (.error e, c1, st1)

/-- The loops of `MethodCall::Execute` and `NewInstance::Execute` that collect the values of
the arguments. -/
def ExecuteArgs (env : Env) (rt : Runtime) :
    List Statement → Closure → State → Except Exc (List ObjectHolder) × Closure × State
  | [], closure, st => (.ok [], closure, st)
  | arg :: rest, closure, st =>
    match Execute env rt arg closure st with
    | (.ok value, c1, st1) =>
      match ExecuteArgs env rt rest c1 st1 with
      | (.ok values, c2, st2) => (.ok (value :: values), c2, st2)
      | (.error e, c2, st2) => (.error e, c2, st2)
    | (.error e, c1, st1) => (.error e, c1, st1)

/-- The loop of `Print::Execute` and the newline behind it; `first` is the flag of the
loop. -/
def PrintArgs (env : Env) (rt : Runtime) (first : Bool) :
    List Statement → Closure → State → Except Exc ObjectHolder × Closure × State
  | [], closure, st => (.ok none, closure, st.write "\n")
  | arg :: rest, closure, st =>
    match Execute env rt arg closure st with
    | (.ok result, c1, st1) =>
      let st2 := st1.write (if first then "" else " ")
      match result with
      | some obj =>
        match PrintObject env rt obj st2 with
        | (.ok text, st3) => PrintArgs env rt false rest c1 (st3.write text)
        | (.error e, st3) => (.error e, c1, st3)
      | none => PrintArgs env rt false rest c1 (st2.write NONE_OBJECT)
    | (.error e, c1, st1) => (.error e, c1, st1)

end

end ast

namespace runtime

open ast

/-- `ClassInstance::Call` and `Object::Print` with at most `fuel` method calls nested in one
another. -/
def runtimeAt (env : Env) : Nat → Runtime
  | 0 =>
    { call := fun _ _ _ _ st => (.error .outOfFuel, st),
      print := fun _ st => (.error .outOfFuel, st) }
  | fuel + 1 =>
    { call := Call env (Execute env (runtimeAt env fuel)),
      print := PrintObject env (runtimeAt env fuel) }

end runtime

/-! ## Definitions that follow the specification -/

namespace parse

/-- Follows the spec's words: the keyword token of a reserved word, `Id` otherwise. -/
def keywordOrId (w : String) : Token :=
  if w = "class" then Token.Class
  else if w = "return" then Token.Return
  else if w = "if" then Token.If
  else if w = "else" then Token.Else
  else if w = "def" then Token.Def
  else if w = "print" then Token.Print
  else if w = "or" then Token.Or
  else if w = "None" then Token.None
  else if w = "and" then Token.And
  else if w = "not" then Token.Not
  else if w = "True" then Token.True
  else if w = "False" then Token.False
  else Token.Id w

/-- Follows the spec's words: the six escape sequences `\n \t \r \" \' \\`. -/
inductive Escape where
  | n
  | t
  | r
  | dquote
  | squote
  | backslash
  deriving DecidableEq, Repr

/-- The character written behind the backslash. -/
def Escape.letter : Escape → Char
  | .n => 'n'
  | .t => 't'
  | .r => 'r'
  | .dquote => '"'
  | .squote => '\''
  | .backslash => '\\'

/-- The single character an escape sequence denotes. -/
def Escape.denotes : Escape → Char
  | .n => '\n'
  | .t => '\t'
  | .r => '\r'
  | .dquote => '"'
  | .squote => '\''
  | .backslash => '\\'

/-- One element of the body of a string literal: a character written as itself or an
escape sequence. -/
inductive StrItem where
  | plain (c : Char)
  | escape (e : Escape)
  deriving DecidableEq, Repr

/-- The source text of an element. -/
def StrItem.source : StrItem → List Char
  | .plain c => [c]
  | .escape e => ['\\', e.letter]

/-- The character an element stands for. -/
def StrItem.denotes : StrItem → Char
  | .plain c => c
  | .escape e => e.denotes

/-- An element may stand in a literal opened by `q`: a character written as itself is not
the quote `q`, a backslash, a newline or a carriage return. -/
def StrItem.allowed (q : Char) : StrItem → Bool
  | .plain c => c != q && c != '\\' && c != '\n' && c != '\r'
  | .escape _ => true

/-- The source text of a sequence of elements. -/
def sourceOf : List StrItem → List Char
  | [] => []
  | i :: is => i.source ++ sourceOf is

/-- The ways in which the text behind a well-formed part of a literal's body makes the
literal malformed. -/
inductive BadTail : List Char → Prop where
  | endOfInput : BadTail []
  | endAfterBackslash : BadTail ['\\']
  | unknownEscape (x : Char) (rest : List Char) :
      x ≠ 'n' → x ≠ 't' → x ≠ 'r' → x ≠ '"' → x ≠ '\'' → x ≠ '\\' → BadTail ('\\' :: x :: rest)
  | newline (rest : List Char) : BadTail ('\n' :: rest)
  | carriageReturn (rest : List Char) : BadTail ('\r' :: rest)

/-- A line of source text: the word `first :: others` behind `2 * level` spaces, closed by a
newline. -/
structure WordLine where
  level : Nat
  first : Char
  others : List Char
  deriving DecidableEq, Repr

/-- The word of a line. -/
def WordLine.word (l : WordLine) : List Char :=
  l.first :: l.others

/-- The characters of a line. -/
def WordLine.text (l : WordLine) : List Char :=
  List.replicate (2 * l.level) ' ' ++ (l.word ++ ['\n'])

/-- The source text made of a sequence of lines. -/
def renderLines : List WordLine → List Char
  | [] => []
  | l :: ls => l.text ++ renderLines ls

/-- Follows the spec's words: properly indented lines. Below a line at level `c` (for the
first line, `c = 0`) each line is indented by an even number of spaces, at most two more
than the line before, and its word is an identifier or a keyword. -/
def ProperLines : Nat → List WordLine → Prop
  | _, [] => True
  | c, l :: ls =>
    idChar l.first true = true ∧ (∀ x ∈ l.others, idChar x false = true) ∧ l.level ≤ c + 1
      ∧ ProperLines l.level ls

/-- The tokens that open a line at level `k` below a line at level `c`. -/
def indentTokens (c k : Nat) : List Token :=
  if k = c + 1 then [Token.Indent] else List.replicate (c - k) Token.Dedent

/-- The token stream of properly indented lines below a line at level `c`. -/
def streamOf : Nat → List WordLine → List Token
  | c, [] => List.replicate c Token.Dedent ++ [Token.Eof]
  | c, l :: ls =>
    indentTokens c l.level ++ [keywordOrId (String.mk l.word), Token.Newline]
      ++ streamOf l.level ls

/-- The states of a lexer in use: the state the constructor leaves and every state reached
from it by calls of `NextToken`. -/
inductive Reachable : Lexer → Prop where
  | new (fuel : Nat) (input : List Char) (s : Lexer) :
      Lexer.new fuel input = .ok s → Reachable s
  | next (fuel : Nat) (s : Lexer) (t : Option Token) (s1 : Lexer) :
      Reachable s → NextToken fuel s = .ok (t, s1) → Reachable s1

/-- The tokens returned by `k` consecutive calls of `NextToken`, and the state behind them. -/
def NextTokens (fuel : Nat) : Nat → Lexer → Outcome (List (Option Token) × Lexer)
  | 0, s => .ok ([], s)
  | k + 1, s =>
    (NextToken fuel s).bind (fun r =>
      (NextTokens fuel k r.2).bind (fun rs => .ok (r.1 :: rs.1, rs.2)))

/-- Change of the block depth by a token: `Indent` opens a block, `Dedent` closes one. -/
def Token.delta : Token → Int
  | .Indent => 1
  | .Dedent => -1
  | _ => 0

/-- The block depth behind a list of tokens read at depth `b`. -/
def depthAfter (b : Int) : List Token → Int
  | [] => b
  | t :: ts => depthAfter (b + t.delta) ts

/-- The block depth is never negative while a list of tokens is read at depth `b`. -/
def depthOK (b : Int) : List Token → Prop
  | [] => 0 ≤ b
  | t :: ts => 0 ≤ b ∧ depthOK (b + t.delta) ts

/-- Invariant of the lexer while a line is scanned, `pre` being the tokens of the lines
before: the buffer holds no `Eof`, the level is twice the block depth, the depth has never
been negative, and the current token is the first of the buffer. -/
def LineInv (pre : List Token) (s : Lexer) : Prop :=
  Token.Eof ∉ s.tokens_ ∧ s.curent_indent_ = 2 * depthAfter 0 (pre ++ s.tokens_)
    ∧ depthOK 0 (pre ++ s.tokens_) ∧ s.curent_tiken_id_ = 0

/-- Invariant of the lexer between calls of `NextToken`, `pre` being the tokens of the
lines before the buffered one: as `LineInv`, except that `Eof` may be the last token of the
buffer, and then the input is exhausted at level 0. -/
def BufInv (pre : List Token) (s : Lexer) : Prop :=
  s.curent_indent_ = 2 * depthAfter 0 (pre ++ s.tokens_) ∧ depthOK 0 (pre ++ s.tokens_)
    ∧ s.curent_tiken_id_ < s.tokens_.length
    ∧ ∀ i, s.tokens_[i]? = some Token.Eof →
        i + 1 = s.tokens_.length ∧ s.isit_ = [] ∧ s.curent_indent_ = 0

end parse

namespace ast

open runtime

/-- Follows the spec's words: the execution of a statement, begun with closure `c` and state
`st`, reaches a `Return` through nested `Compound` and `IfElse` nodes; `v` is the value of
the expression of that `Return`, `c1` and `st1` are the closure and the state behind the
evaluation of the expression. In a `Compound` the statements before the one that returns
complete, and so does the condition of an `IfElse`, with a `Bool` that selects the branch
that returns; what follows the returning statement is arbitrary. -/
inductive ReachesReturn (env : Env) (rt : Runtime) :
    Statement → Closure → State → ObjectHolder → Closure → State → Prop where
  | here (e : Statement) (c : Closure) (st : State) (v : ObjectHolder) (c1 : Closure)
      (st1 : State) :
      Execute env rt e c st = (.ok v, c1, st1) →
      ReachesReturn env rt (.Return e) c st v c1 st1
  | inCompound (before : List Statement) (s : Statement) (following : List Statement)
      (c : Closure) (st : State) (u : ObjectHolder) (c1 : Closure) (st1 : State)
      (v : ObjectHolder) (c2 : Closure) (st2 : State) :
      ExecuteEach env rt before c st = (.ok u, c1, st1) →
      ReachesReturn env rt s c1 st1 v c2 st2 →
      ReachesReturn env rt (.Compound (before ++ s :: following)) c st v c2 st2
  | inThen (condition if_body : Statement) (else_body : Option Statement)
      (c : Closure) (st : State) (c1 : Closure) (st1 : State)
      (v : ObjectHolder) (c2 : Closure) (st2 : State) :
      Execute env rt condition c st = (.ok (some (.Bool true)), c1, st1) →
      ReachesReturn env rt if_body c1 st1 v c2 st2 →
      ReachesReturn env rt (.IfElse condition if_body else_body) c st v c2 st2
  | inElse (condition if_body else_body : Statement)
      (c : Closure) (st : State) (c1 : Closure) (st1 : State)
      (v : ObjectHolder) (c2 : Closure) (st2 : State) :
      Execute env rt condition c st = (.ok (some (.Bool false)), c1, st1) →
      ReachesReturn env rt else_body c1 st1 v c2 st2 →
      ReachesReturn env rt (.IfElse condition if_body (some else_body)) c st v c2 st2

end ast


/-! ## Notions the later statements are phrased with -/

namespace parse

/-- The characters a lexeme, a blank, a line end or a comment starts with: space, newline,
the two quotes, `#`, a letter, the underscore, a digit, and the punctuation
`. , ( ) + - * / : = < > !`. -/
def startsLexeme (c : Char) : Bool :=
  c == ' ' || c == '\n' || c == '"' || c == '\'' || c == '#' || c.isAlpha || c == '_'
    || c.isDigit
    || ['.', ',', '(', ')', '+', '-', '*', '/', ':', '=', '<', '>', '!'].contains c

end parse

namespace runtime

/-- Two holders of the same native type: two `Bool`, two `Number` or two `String`. -/
def likeTyped : ObjectHolder → ObjectHolder → Bool
  | some (.Bool _), some (.Bool _) => true
  | some (.Number _), some (.Number _) => true
  | some (.String _), some (.String _) => true
  | _, _ => false

end runtime

namespace ast

open runtime

/-- A program with one class, `Same`, whose `__eq__` and `__lt__` take one parameter and
return `True` whatever it is. -/
def sameEnv : Env :=
  { classes := fun _ =>
      { name_ := "Same",
        methods_ := [⟨EQ_METHOD, ["other"], .MethodBody (.Return (.BoolConst true))⟩,
                     ⟨LESS_METHOD, ["other"], .MethodBody (.Return (.BoolConst true))⟩],
        parent_ := none },
    addressText := fun _ => "" }

/-- A program with three classes in a chain: `A` (identity 0) has `f` and `g`, `B` (identity
1) is derived from `A` and has its own `f`, `C` (identity 2) is derived from `B` and has no
method. -/
def familyEnv : Env :=
  { classes := fun id =>
      if id = 0 then
        { name_ := "A",
          methods_ := [⟨"f", [], .MethodBody (.Return (.NumericConst 1))⟩,
                       ⟨"g", [], .MethodBody (.Return (.NumericConst 2))⟩],
          parent_ := none }
      else if id = 1 then
        { name_ := "B",
          methods_ := [⟨"f", [], .MethodBody (.Return (.NumericConst 3))⟩],
          parent_ := some 0 }
      else { name_ := "C", methods_ := [], parent_ := some 1 },
    addressText := fun _ => "" }

end ast

namespace runtime

open ast

/-- The lookup along the whole chain of parents: the method called `name` of the nearest
class, starting at the receiver, that has one of its own; `depth` bounds the length of the
chain that is followed. -/
def chainMethod (env : Env) : Nat → Class → String → Option Method
  | 0, _, _ => none
  | depth + 1, cls, name =>
    match cls.vt_methods_ name with
    | some mt => some mt
    | none =>
      match cls.parent_ with
      | some parent => chainMethod env depth (env.classes parent) name
      | none => none

end runtime

namespace ast

open runtime

mutual

/-- A statement that holds no node which binds a name in the closure it is executed in: no
`Assignment` and no `ClassDefinition`. The bodies of the methods it calls are not part of
it. -/
def NoAssignment : Statement → Bool
  | .NumericConst _ => true
  | .StringConst _ => true
  | .BoolConst _ => true
  | .None => true
  | .Assignment _ _ => false
  | .VariableValue _ _ => true
  | .Print args_ => NoAssignmentEach args_
  | .MethodCall object_ _ args_ => NoAssignment object_ && NoAssignmentEach args_
  | .Stringify arg_ => NoAssignment arg_
  | .Add lhs_ rhs_ => NoAssignment lhs_ && NoAssignment rhs_
  | .Sub lhs_ rhs_ => NoAssignment lhs_ && NoAssignment rhs_
  | .Mult lhs_ rhs_ => NoAssignment lhs_ && NoAssignment rhs_
  | .Div lhs_ rhs_ => NoAssignment lhs_ && NoAssignment rhs_
  | .Compound args_ => NoAssignmentEach args_
  | .Return stmt_ => NoAssignment stmt_
  | .ClassDefinition _ => false
  | .FieldAssignment _ _ _ rv_ => NoAssignment rv_
  | .IfElse condition_ if_body_ else_body_ =>
    NoAssignment condition_ && NoAssignment if_body_ && NoAssignmentIfPresent else_body_
  | .Or lhs_ rhs_ => NoAssignment lhs_ && NoAssignment rhs_
  | .And lhs_ rhs_ => NoAssignment lhs_ && NoAssignment rhs_
  | .Not arg_ => NoAssignment arg_
  | .Comparison _ lhs_ rhs_ => NoAssignment lhs_ && NoAssignment rhs_
  | .NewInstance _ _ args_ => NoAssignmentEach args_
  | .MethodBody body_ => NoAssignment body_

/-- `NoAssignment` of each statement of a list. -/
def NoAssignmentEach : List Statement → Bool
  | [] => true
  | arg :: rest => NoAssignment arg && NoAssignmentEach rest

/-- `NoAssignment` of an else-branch, when there is one. -/
def NoAssignmentIfPresent : Option Statement → Bool
  | none => true
  | some else_body => NoAssignment else_body

end

/-- A program with one class, `Box`, whose method `bump(v)` assigns to its locals `x` and
`y` and returns `x`. -/
def boxEnv : Env :=
  { classes := fun _ =>
      { name_ := "Box",
        methods_ := [⟨"bump", ["v"],
          .MethodBody (.Compound [.Assignment "x" (.VariableValue "v" []),
                                  .Assignment "y" (.NumericConst 9),
                                  .Return (.VariableValue "x" [])])⟩],
        parent_ := none },
    addressText := fun _ => "" }

end ast

/-! ## Programs and notions of the statements about single nodes -/

namespace ast

open runtime

/-- A program with two classes: `Counter` (identity 0) has no method; `Factory` (identity 1)
has the method `make()`, whose body is `return Counter()`. The `NewInstance` node of that
body holds its instance at address 10. -/
def factoryEnv : Env :=
  { classes := fun id =>
      if id = 0 then { name_ := "Counter", methods_ := [], parent_ := none }
      else
        { name_ := "Factory",
          methods_ := [⟨"make", [], .MethodBody (.Return (.NewInstance 10 0 []))⟩],
          parent_ := none },
    addressText := fun _ => "" }

/-- The body `a = f.make()`, `a.v = 5`, `b = f.make()`, `return b.v`, which runs the
`NewInstance` node of `make` twice. -/
def twoCounters : Statement :=
  .MethodBody (.Compound [
    .Assignment "a" (.MethodCall (.VariableValue "f" []) "make" []),
    .FieldAssignment "a" [] "v" (.NumericConst 5),
    .Assignment "b" (.MethodCall (.VariableValue "f" []) "make" []),
    .Return (.VariableValue "b" ["v"])])

/-- The decimal numeral of an integer, with a minus sign in front of a negative one. -/
def decimal (n : Int) : String :=
  if n < 0 then "-" ++ String.mk (Nat.toDigits 10 n.natAbs)
  else String.mk (Nat.toDigits 10 n.toNat)

/-- The text `print` shows for a holder that is shown without a call: `None` for the empty
holder, `True` or `False` for a `Bool`, the decimal numeral for a `Number`, the characters
themselves for a `String`, and `Class` with the name for a `Class`. -/
def rendering (env : Env) : ObjectHolder → Option String
  | none => some "None"
  | some (.Bool b) => some (if b then "True" else "False")
  | some (.Number n) => some (decimal n)
  | some (.String s) => some s
  | some (.Class id) => some ("Class " ++ (env.classes id).name_)
  | some (.ClassInstance _ _) => none

/-- The texts of a list, each with one space in front. -/
def spaced : List String → String
  | [] => ""
  | t :: ts => " " ++ t ++ spaced ts

/-- The arguments of a `print`, evaluated from left to right: each is evaluated in the
closure and with the fields the one before left, writes nothing itself, and has a value
that is shown as the text at its position. -/
inductive ArgsShown (env : Env) (rt : Runtime) :
    List Statement → Closure → List (Nat × Closure) → List String → Closure →
      List (Nat × Closure) → Prop where
  | nil (c : Closure) (f : List (Nat × Closure)) : ArgsShown env rt [] c f [] c f
  | cons (arg : Statement) (rest : List Statement) (c c1 c2 : Closure)
      (f f1 f2 : List (Nat × Closure)) (v : ObjectHolder) (text : String)
      (texts : List String) :
      (∀ out, Execute env rt arg c ⟨f, out⟩ = (.ok v, c1, ⟨f1, out⟩)) →
      rendering env v = some text →
      ArgsShown env rt rest c1 f1 texts c2 f2 →
      ArgsShown env rt (arg :: rest) c f (text :: texts) c2 f2

/-- The quotient of two integers truncated toward zero: the quotient of the magnitudes, with
the sign of the two operands multiplied. -/
def truncatedQuotient (a b : Int) : Int :=
  Int.sign a * Int.sign b * ((a.natAbs / b.natAbs : Nat) : Int)

/-- A program with one class, `Vec`, whose `__add__(other)` returns `other`, and whose
`len()` takes no parameter. -/
def vecEnv : Env :=
  { classes := fun _ =>
      { name_ := "Vec",
        methods_ := [⟨ADD_METHOD, ["other"], .MethodBody (.Return (.VariableValue "other" []))⟩,
                     ⟨"len", [], .MethodBody (.Return (.NumericConst 0))⟩],
        parent_ := none },
    addressText := fun _ => "" }

/-- A closure that binds `a` to the instance at address 1 and `n` to the number 1. -/
def pathClosure : Closure :=
  [("a", some (.ClassInstance 1 0)), ("n", some (.Number 1))]

/-- A state in which the instance at address 1 has the field `b`, the instance at address 2,
which has the field `c`, the number 7. -/
def pathState : State :=
  ⟨[(1, [("b", some (.ClassInstance 2 0))]), (2, [("c", some (.Number 7))])], ""⟩

end ast

namespace parse

/-- Invariant of the lexer while a line is scanned: as long as no `Newline` has been emitted,
a level above 0 has its `Indent` in the buffer of the line. -/
def FirstLineInv (s : Lexer) : Prop :=
  s.line_count_ = 0 → 0 < s.curent_indent_ → s.tokens_ ≠ []

/-- The states in which `ParseString` is called: the buffer is empty, and the level is 0 as
long as no `Newline` has been emitted. -/
def AtLineStart (s : Lexer) : Prop :=
  s.tokens_ = [] ∧ (s.line_count_ = 0 → s.curent_indent_ ≤ 0)

end parse

/-! ## Notions of the statement about termination -/

namespace parse

/-- What a pass of the loops of the lexer may do to the state: it reads characters from the
front of the stream, appends tokens to the buffer, and leaves the index of the current token
alone. -/
def Extends (s s1 : Lexer) : Prop :=
  s1.isit_ <:+ s.isit_ ∧ s.tokens_ <+: s1.tokens_ ∧ s1.curent_tiken_id_ = s.curent_tiken_id_

/-- A bound on the passes the loop of `ParseString` can still make: two for each unread
character and one more while the buffer is empty. -/
def scanMeasure (s : Lexer) : Nat :=
  2 * s.isit_.length + (if s.tokens_.length = 0 then 1 else 0)

end parse
/-! # Theorems

All definitions stand above this line; lemmas and theorems follow, grouped by subject. -/

/-! ## Lemmas on the probes -/

namespace parse

theorem takeWhile_spaces (n : Nat) (rest : List Char) (h : rest.head? ≠ some ' ') :
    (List.replicate n ' ' ++ rest).takeWhile (fun c => c == ' ') = List.replicate n ' ' := by
  induction n with
  | zero =>
    cases rest with
    | nil => rfl
    | cons c cs =>
      have hc : c ≠ ' ' := by simpa using h
      simp [List.takeWhile_cons, hc]
  | succ n ih => simp [List.replicate_succ, List.takeWhile_cons, ih]

theorem dropWhile_spaces (n : Nat) (rest : List Char) (h : rest.head? ≠ some ' ') :
    (List.replicate n ' ' ++ rest).dropWhile (fun c => c == ' ') = rest := by
  induction n with
  | zero =>
    cases rest with
    | nil => rfl
    | cons c cs =>
      have hc : c ≠ ' ' := by simpa using h
      simp [List.dropWhile_cons, hc]
  | succ n ih => simp [List.replicate_succ, List.dropWhile_cons, ih]

theorem tmod_two_eq_zero_iff (d : Int) : Int.tmod d 2 = 0 ↔ d % 2 = 0 := by
  constructor
  · intro h
    have := Int.dvd_of_tmod_eq_zero h
    omega
  · intro h
    exact Int.tmod_eq_zero_of_dvd (by omega)

theorem dedentLoop_eq (k : Nat) : ∀ (fuel : Nat) (toks : List Token), k ≤ fuel →
    dedentLoop fuel (-(2 * (k : Int))) toks = toks ++ List.replicate k Token.Dedent := by
  induction k with
  | zero =>
    intro fuel toks _
    cases fuel <;> simp [dedentLoop]
  | succ k ih =>
    intro fuel toks hk
    cases fuel with
    | zero => omega
    | succ fuel =>
      have hneg : -(2 * ((k + 1 : Nat) : Int)) < 0 := by omega
      have hstep : -(2 * ((k + 1 : Nat) : Int)) + 2 = -(2 * (k : Int)) := by omega
      rw [dedentLoop, if_pos hneg, hstep, ih fuel _ (by omega)]
      simp [List.replicate_succ]

/-- The state in which `ExpectIndent` leaves the lexer when the line starts with `n` spaces
followed by `rest`, in terms of the difference to the current level. -/
theorem ExpectIndent_spaces (s : Lexer) (n : Nat) (rest : List Char)
    (hin : s.isit_ = List.replicate n ' ' ++ rest) (hrest : rest.head? ≠ some ' ') :
    ExpectIndent s =
      if (n : Int) - s.curent_indent_ = 0 then (false, { s with isit_ := rest })
      else if (n : Int) - s.curent_indent_ = 2 then
        (true, { s with isit_ := rest, curent_indent_ := s.curent_indent_ + 2,
                        tokens_ := s.tokens_ ++ [Token.Indent] })
      else if (n : Int) - s.curent_indent_ < 0 ∧ Int.tmod ((n : Int) - s.curent_indent_) 2 = 0 then
        (true, { s with isit_ := rest, curent_indent_ := n,
                        tokens_ := dedentLoop (-((n : Int) - s.curent_indent_)).toNat
                          ((n : Int) - s.curent_indent_) s.tokens_ })
      else (false, { s with isit_ := rest }) := by
  simp only [ExpectIndent, hin, takeWhile_spaces n rest hrest, dropWhile_spaces n rest hrest,
    List.length_replicate]

end parse

/-! ## Indentation -/

namespace parse

theorem peek_spaces_ne_hash (s : Lexer) (n : Nat) (rest : List Char)
    (hin : s.isit_ = List.replicate n ' ' ++ rest) (hcm : rest.head? ≠ some '#') :
    s.peek ≠ some '#' := by
  cases n with
  | zero => simpa [Lexer.peek, hin] using hcm
  | succ n => simp [Lexer.peek, hin, List.replicate_succ]

/-- C4. At the start of a line (empty buffer) with `n` leading spaces before a lexeme and
current level `c`: for `n = c` the indentation probe pushes nothing and keeps the level, and
the pass goes on to the lexeme with the buffer still empty; for
`n = c + 2` the pass pushes exactly one `Indent` and the level becomes `n`; for `n < c` with
`c - n` even the pass pushes exactly `(c - n) / 2` `Dedent` tokens and the level becomes `n`.
In the last two cases the pass ends with the lexeme still unread, so these tokens precede
every token of the line. -/
theorem indent_protocol_at_line_start (s : Lexer) (n : Nat) (rest : List Char)
    (hbuf : s.tokens_ = []) (hin : s.isit_ = List.replicate n ' ' ++ rest)
    (hsp : rest.head? ≠ some ' ') (hcm : rest.head? ≠ some '#') :
    ((n : Int) = s.curent_indent_ →
      ExpectIndent s = (false, { s with isit_ := rest }) ∧
      lineStep s = lexemeStep { s with isit_ := rest }) ∧
    ((n : Int) = s.curent_indent_ + 2 →
      lineStep s = .ok { s with isit_ := rest, tokens_ := [Token.Indent],
                                curent_indent_ := n }) ∧
    ((n : Int) < s.curent_indent_ → (s.curent_indent_ - n) % 2 = 0 →
      lineStep s = .ok { s with isit_ := rest,
                                tokens_ := List.replicate ((s.curent_indent_ - n) / 2).toNat
                                  Token.Dedent,
                                curent_indent_ := n }) := by
  have hI := ExpectIndent_spaces s n rest hin hsp
  have hC : ExpectComment s = (false, s) := by
    simp [ExpectComment, peek_spaces_ne_hash s n rest hin hcm]
  refine ⟨?_, ?_, ?_⟩
  · intro h
    have hI1 : ExpectIndent s = (false, { s with isit_ := rest }) := by
      rw [hI, if_pos (by omega)]
    have hS : ∀ s1 : Lexer, s1.isit_ = rest → SkipSpace s1 = (false, s1) := by
      intro s1 h1
      have hd := dropWhile_spaces 0 rest hsp
      simp only [List.replicate_zero, List.nil_append] at hd
      obtain ⟨isit, cur, toks, id, lc⟩ := s1
      simp only at h1
      subst h1
      simp only [SkipSpace, Lexer.peek, hd]
      simpa using hsp
    refine ⟨hI1, ?_⟩
    simp only [lineStep, hC, hbuf, hI1, List.length_nil, if_true, Bool.false_eq_true,
      if_false]
    rw [hS _ rfl]
    simp only [hbuf, Bool.false_eq_true, if_false]
  · intro h
    have hI2 : ExpectIndent s = (true, { s with isit_ := rest, tokens_ := [Token.Indent],
                                                curent_indent_ := n }) := by
      rw [hI, if_neg (by omega), if_pos (by omega), hbuf, h]
      rfl
    simp [lineStep, hC, hbuf, hI2]
  · intro hlt hev
    obtain ⟨k, hk⟩ : ∃ k : Nat, s.curent_indent_ - n = 2 * (k : Int) :=
      ⟨((s.curent_indent_ - n) / 2).toNat, by omega⟩
    have hd : (n : Int) - s.curent_indent_ = -(2 * (k : Int)) := by omega
    have hcount : ((s.curent_indent_ - n) / 2).toNat = k := by omega
    have hI3 : ExpectIndent s = (true, { s with isit_ := rest,
                                                tokens_ := List.replicate k Token.Dedent,
                                                curent_indent_ := n }) := by
      rw [hI, if_neg (by omega), if_neg (by omega), if_pos ⟨by omega, (tmod_two_eq_zero_iff _).2 (by omega)⟩]
      rw [hd, dedentLoop_eq k _ _ (by omega), hbuf]
      rfl
    rw [hcount]
    simp [lineStep, hC, hbuf, hI3]

/-- Witness for C4: four spaces before `x` at level 2 push one `Indent`. -/
theorem indent_protocol_at_line_start_witness :
    lineStep ⟨"    x".toList, 2, [], 0, 0⟩ = .ok ⟨"x".toList, 4, [Token.Indent], 0, 0⟩ :=
  (indent_protocol_at_line_start ⟨"    x".toList, 2, [], 0, 0⟩ 4 "x".toList rfl rfl
    (by decide) (by decide)).2.1 (by decide)

end parse

/-! ## Identifiers and keywords -/

namespace parse

theorem takeWhile_run (p : Char → Bool) (l rest : List Char) (hl : ∀ x ∈ l, p x = true)
    (hr : ∀ c, rest.head? = some c → p c = false) : (l ++ rest).takeWhile p = l := by
  induction l with
  | nil =>
    cases rest with
    | nil => rfl
    | cons c cs => simp [List.takeWhile_cons, hr c rfl]
  | cons a l ih =>
    have ha : p a = true := hl a (List.mem_cons_self _ _)
    simp [List.takeWhile_cons, ha, ih (fun x hx => hl x (List.mem_cons_of_mem _ hx))]

theorem dropWhile_run (p : Char → Bool) (l rest : List Char) (hl : ∀ x ∈ l, p x = true)
    (hr : ∀ c, rest.head? = some c → p c = false) : (l ++ rest).dropWhile p = rest := by
  induction l with
  | nil =>
    cases rest with
    | nil => rfl
    | cons c cs => simp [List.dropWhile_cons, hr c rfl]
  | cons a l ih =>
    have ha : p a = true := hl a (List.mem_cons_self _ _)
    simp [List.dropWhile_cons, ha, ih (fun x hx => hl x (List.mem_cons_of_mem _ hx))]

theorem readIdChars_run (cs rest : List Char) (hcs : ∀ x ∈ cs, idChar x false = true)
    (hr : ∀ c, rest.head? = some c → idChar c false = false) :
    readIdChars false (cs ++ rest) = (cs, rest) := by
  induction cs with
  | nil =>
    cases rest with
    | nil => rfl
    | cons c r => simp [readIdChars, hr c rfl]
  | cons a l ih =>
    have ha : idChar a false = true := hcs a (List.mem_cons_self _ _)
    simp [readIdChars, ha, ih (fun x hx => hcs x (List.mem_cons_of_mem _ hx))]

theorem readIdChars_word (c : Char) (cs rest : List Char) (hc : idChar c true = true)
    (hcs : ∀ x ∈ cs, idChar x false = true)
    (hr : ∀ c, rest.head? = some c → idChar c false = false) :
    readIdChars true (c :: cs ++ rest) = (c :: cs, rest) := by
  simp [readIdChars, hc, readIdChars_run cs rest hcs hr]

theorem ExpectKeyWord_eq (w : String) (s : Lexer) :
    (ExpectKeyWord w s = (true, s.push (keywordOrId w)) ∧ keywordOrId w ≠ Token.Id w) ∨
    (ExpectKeyWord w s = (false, s) ∧ keywordOrId w = Token.Id w) := by
  unfold ExpectKeyWord keywordOrId keyword_
  simp only [List.lookup_cons, List.lookup_nil]
  by_cases h1 : w = "class"
  · subst h1; left; simp
  by_cases h2 : w = "return"
  · subst h2; left; simp
  by_cases h3 : w = "if"
  · subst h3; left; simp
  by_cases h4 : w = "else"
  · subst h4; left; simp
  by_cases h5 : w = "def"
  · subst h5; left; simp
  by_cases h6 : w = "print"
  · subst h6; left; simp
  by_cases h7 : w = "or"
  · subst h7; left; simp
  by_cases h8 : w = "None"
  · subst h8; left; simp
  by_cases h9 : w = "and"
  · subst h9; left; simp
  by_cases h10 : w = "not"
  · subst h10; left; simp
  by_cases h11 : w = "True"
  · subst h11; left; simp
  by_cases h12 : w = "False"
  · subst h12; left; simp
  right
  have e : ∀ x : String, ¬ w = x → (w == x) = false := fun x h => beq_eq_false_iff_ne.mpr h
  simp only [e _ h1, e _ h2, e _ h3, e _ h4, e _ h5, e _ h6, e _ h7, e _ h8, e _ h9, e _ h10,
    e _ h11, e _ h12]
  simp [h1, h2, h3, h4, h5, h6, h7, h8, h9, h10, h11, h12]


theorem Lexer.with_isit_self (s : Lexer) : { s with isit_ := s.isit_ } = s := by
  cases s; rfl

/-- At a character that opens neither a comment nor a run of spaces, with the buffer
non-empty or the level 0, a pass of the loop body goes straight to the lexeme probes. -/
theorem lineStep_eq_lexemeStep (s : Lexer) (c : Char) (rest : List Char)
    (hin : s.isit_ = c :: rest) (hc1 : c ≠ '#') (hc2 : c ≠ ' ')
    (hline : s.tokens_ ≠ [] ∨ s.curent_indent_ = 0) : lineStep s = lexemeStep s := by
  obtain ⟨isit, cur, toks, id, lc⟩ := s
  simp only at hin hline
  subst hin
  have hC : ExpectComment ⟨c :: rest, cur, toks, id, lc⟩ = (false, ⟨c :: rest, cur, toks, id, lc⟩) := by
    simp [ExpectComment, Lexer.peek, hc1]
  have hI : (if toks.length = 0 then ExpectIndent ⟨c :: rest, cur, toks, id, lc⟩
      else (false, ⟨c :: rest, cur, toks, id, lc⟩)) = (false, ⟨c :: rest, cur, toks, id, lc⟩) := by
    by_cases ht : toks.length = 0
    · have h0 : cur = 0 := by
        rcases hline with h | h
        · exact absurd (List.length_eq_zero.mp ht) h
        · exact h
      have := ExpectIndent_spaces ⟨c :: rest, cur, toks, id, lc⟩ 0 (c :: rest) (by simp)
        (by simpa using hc2)
      rw [if_pos ht, this, h0]
      simp
    · rw [if_neg ht]
  have hS : SkipSpace ⟨c :: rest, cur, toks, id, lc⟩ = (false, ⟨c :: rest, cur, toks, id, lc⟩) := by
    simp [SkipSpace, Lexer.peek, hc2, List.dropWhile_cons]
  simp only [lineStep, hC, hI, hS, Bool.false_eq_true, if_false]


theorem idChar_first_ne (c d : Char) (hc : idChar c true = true) (hd : idChar d true = false) :
    c ≠ d := by
  intro h
  rw [h, hd] at hc
  exact Bool.false_ne_true hc

theorem ExpectIdKeyWord_word (s : Lexer) (c : Char) (cs rest : List Char)
    (hc : idChar c true = true) (hcs : ∀ x ∈ cs, idChar x false = true)
    (hr : ∀ d, rest.head? = some d → idChar d false = false)
    (hin : s.isit_ = c :: cs ++ rest) :
    ExpectIdKeyWord s =
      (true, { s with isit_ := rest,
                      tokens_ := s.tokens_ ++ [keywordOrId (String.mk (c :: cs))] }) := by
  have hread := readIdChars_word c cs rest hc hcs hr
  rw [List.cons_append] at hread
  rcases ExpectKeyWord_eq (String.mk (c :: cs)) { s with isit_ := rest } with ⟨hk, _⟩ | ⟨hk, hid⟩
  · simp [ExpectIdKeyWord, hin, hread, hk, Lexer.push]
  · simp [ExpectIdKeyWord, hin, hread, hk, Lexer.push, hid, String.length]

/-- C7. A maximal run `w` of identifier characters that starts with a letter or an
underscore is lexed as one token: the keyword token when `w` is one of the twelve reserved
words, `Id w` otherwise; the run is consumed and nothing behind it. This holds for the probe
`ExpectIdKeyWord` in every state, and for a pass of the loop of `ParseString` wherever the
run stands in the line. -/
theorem identifier_or_keyword (s : Lexer) (c : Char) (cs rest : List Char)
    (hc : idChar c true = true) (hcs : ∀ x ∈ cs, idChar x false = true)
    (hr : ∀ d, rest.head? = some d → idChar d false = false)
    (hin : s.isit_ = c :: cs ++ rest) :
    ExpectIdKeyWord s =
      (true, { s with isit_ := rest,
                      tokens_ := s.tokens_ ++ [keywordOrId (String.mk (c :: cs))] }) ∧
    (s.tokens_ ≠ [] ∨ s.curent_indent_ = 0 →
      lineStep s = .ok { s with isit_ := rest,
                                tokens_ := s.tokens_ ++ [keywordOrId (String.mk (c :: cs))] }) := by
  have hw := ExpectIdKeyWord_word s c cs rest hc hcs hr hin
  refine ⟨hw, fun hline => ?_⟩
  have h1 : c ≠ '#' := idChar_first_ne c '#' hc (by decide)
  have h2 : c ≠ ' ' := idChar_first_ne c ' ' hc (by decide)
  have h3 : c ≠ '"' := idChar_first_ne c '"' hc (by decide)
  have h4 : c ≠ '\'' := idChar_first_ne c '\'' hc (by decide)
  rw [lineStep_eq_lexemeStep s c (cs ++ rest) hin h1 h2 hline]
  simp [lexemeStep, Lexer.peek, hin, h3, h4]
  simp [← hin, Lexer.with_isit_self, hw]

/-- Witness for C7: `print1` and `classes` are identifiers, `print` and `class` keywords. -/
theorem identifier_or_keyword_witness :
    ExpectIdKeyWord ⟨"print1 x".toList, 0, [], 0, 0⟩
      = (true, ⟨" x".toList, 0, [Token.Id "print1"], 0, 0⟩) ∧
    ExpectIdKeyWord ⟨"classes".toList, 0, [], 0, 0⟩
      = (true, ⟨[], 0, [Token.Id "classes"], 0, 0⟩) ∧
    ExpectIdKeyWord ⟨"print(".toList, 0, [], 0, 0⟩
      = (true, ⟨"(".toList, 0, [Token.Print], 0, 0⟩) ∧
    ExpectIdKeyWord ⟨"class".toList, 0, [], 0, 0⟩
      = (true, ⟨[], 0, [Token.Class], 0, 0⟩) :=
  ⟨(identifier_or_keyword ⟨"print1 x".toList, 0, [], 0, 0⟩ 'p' "rint1".toList " x".toList
      (by decide) (by decide) (by decide) rfl).1,
   (identifier_or_keyword ⟨"classes".toList, 0, [], 0, 0⟩ 'c' "lasses".toList []
      (by decide) (by decide) (by decide) rfl).1,
   (identifier_or_keyword ⟨"print(".toList, 0, [], 0, 0⟩ 'p' "rint".toList "(".toList
      (by decide) (by decide) (by decide) rfl).1,
   (identifier_or_keyword ⟨"class".toList, 0, [], 0, 0⟩ 'c' "lass".toList []
      (by decide) (by decide) (by decide) rfl).1⟩

end parse

/-! ## Indentation that is not a valid step, blank lines, numbers -/

namespace parse

theorem head_spaces_ne (n : Nat) (rest : List Char) (c : Char) (hc : c ≠ ' ')
    (hcm : rest.head? ≠ some c) : (List.replicate n ' ' ++ rest).head? ≠ some c := by
  cases n with
  | zero => simpa using hcm
  | succ n =>
    simp only [List.replicate_succ, List.cons_append, List.head?_cons]
    intro h
    exact hc (Option.some.inj h).symm

/-- C3, counterexample. A line indented by three spaces at level 0 is lexed without error:
the token stream is that of the unindented line. -/
theorem three_space_indent_is_lexed :
    tokenize 100 "   x\n".toList = .ok [Token.Id "x", Token.Newline, Token.Eof] := by
  decide

/-- C3, amended. When the number `n` of leading spaces differs from the current level by
something other than 0, +2 or a negative even number, the indentation probe consumes the
spaces, pushes no token, keeps the level and reports no match (it does not fail); at the start
of a line the pass then continues exactly as for the same line indented at the current
level. -/
theorem invalid_indent_is_ignored (s : Lexer) (n : Nat) (rest : List Char)
    (hin : s.isit_ = List.replicate n ' ' ++ rest) (hsp : rest.head? ≠ some ' ')
    (h0 : (n : Int) - s.curent_indent_ ≠ 0) (h2 : (n : Int) - s.curent_indent_ ≠ 2)
    (hneg : ¬ ((n : Int) - s.curent_indent_ < 0 ∧ ((n : Int) - s.curent_indent_) % 2 = 0)) :
    ExpectIndent s = (false, { s with isit_ := rest }) ∧
    (s.tokens_ = [] → 0 ≤ s.curent_indent_ → rest.head? ≠ some '#' →
      lineStep s
        = lineStep { s with isit_ := List.replicate s.curent_indent_.toNat ' ' ++ rest }) := by
  have hI : ExpectIndent s = (false, { s with isit_ := rest }) := by
    rw [ExpectIndent_spaces s n rest hin hsp, if_neg h0, if_neg h2,
      if_neg (fun h => hneg ⟨h.1, (tmod_two_eq_zero_iff _).1 h.2⟩)]
  refine ⟨hI, fun hbuf hcur hcm => ?_⟩
  obtain ⟨isit, cur, toks, id, lc⟩ := s
  simp only at hin hbuf hcur hI
  subst hin hbuf
  have hC : ExpectComment ⟨List.replicate n ' ' ++ rest, cur, [], id, lc⟩
      = (false, ⟨List.replicate n ' ' ++ rest, cur, [], id, lc⟩) := by
    exact if_neg (head_spaces_ne n rest '#' (by decide) hcm)
  have hC2 : ExpectComment ⟨List.replicate cur.toNat ' ' ++ rest, cur, [], id, lc⟩
      = (false, ⟨List.replicate cur.toNat ' ' ++ rest, cur, [], id, lc⟩) := by
    exact if_neg (head_spaces_ne cur.toNat rest '#' (by decide) hcm)
  have hI2 : ExpectIndent ⟨List.replicate cur.toNat ' ' ++ rest, cur, [], id, lc⟩
      = (false, ⟨rest, cur, [], id, lc⟩) := by
    rw [ExpectIndent_spaces _ cur.toNat rest rfl hsp, if_pos (by simp only; omega)]
  simp only [lineStep, hC, hC2, hI, hI2, List.length_nil, if_true, Bool.false_eq_true,
    if_false]

/-- Witness for C3 (amended): three spaces before `x` at level 0. -/
theorem invalid_indent_is_ignored_witness :
    ExpectIndent ⟨"   x\n".toList, 0, [], 0, 0⟩ = (false, ⟨"x\n".toList, 0, [], 0, 0⟩) :=
  (invalid_indent_is_ignored ⟨"   x\n".toList, 0, [], 0, 0⟩ 3 "x\n".toList rfl (by decide)
    (by decide) (by decide) (by decide)).1

/-- C5, the code at the failing input. A line of two spaces at level 0, and a comment
behind two spaces below a line at level 0, each contribute an `Indent` and a `Newline`, and
a `Dedent` opens the next line. -/
theorem indented_blank_line_emits_tokens :
    tokenize 100 "  \nx\n".toList
      = .ok [Token.Indent, Token.Newline, Token.Dedent, Token.Id "x", Token.Newline,
             Token.Eof] ∧
    tokenize 100 "x\n  # c\ny\n".toList
      = .ok [Token.Id "x", Token.Newline, Token.Indent, Token.Newline, Token.Dedent,
             Token.Id "y", Token.Newline, Token.Eof] := by
  decide

/-! ### Numbers -/

theorem char_le_iff (a b : Char) : a ≤ b ↔ a.toNat ≤ b.toNat := by
  rfl

theorem char_eq_iff (a b : Char) : a = b ↔ a.toNat = b.toNat := by
  constructor
  · intro h
    rw [h]
  · intro h
    apply Char.ext
    apply UInt32.ext
    exact h

theorem isDigit_iff (c : Char) : c.isDigit = true ↔ 48 ≤ c.toNat ∧ c.toNat ≤ 57 := by
  simp [Char.isDigit, Char.toNat, UInt32.le_def, BitVec.le_def, UInt32.toNat]

theorem idChar_digit (d : Char) (hd : d.isDigit = true) : idChar d true = false := by
  rw [isDigit_iff] at hd
  simp only [idChar, Bool.not_true, Bool.false_and, Bool.or_false, Bool.or_eq_false_iff,
    Bool.and_eq_false_iff, decide_eq_false_iff_not, char_le_iff, beq_eq_false_iff_ne, ne_eq,
    char_eq_iff]
  have ha : 'a'.toNat = 97 := rfl
  have hz : 'z'.toNat = 122 := rfl
  have hA : 'A'.toNat = 65 := rfl
  have hZ : 'Z'.toNat = 90 := rfl
  have hu : '_'.toNat = 95 := rfl
  rw [ha, hz, hA, hZ, hu]
  omega

theorem digit_ne (d c : Char) (hd : d.isDigit = true) (hc : c.isDigit = false) : d ≠ c := by
  intro h
  rw [h, hc] at hd
  exact Bool.false_ne_true hd

theorem ExpectNums_run (s : Lexer) (ds rest : List Char)
    (hds : ∀ d ∈ ds, d.isDigit = true) (hr : ∀ c, rest.head? = some c → c.isDigit = false)
    (hin : s.isit_ = ds ++ rest) :
    ExpectNums s = match stoi ds with
      | some v => (true, { s with isit_ := rest, tokens_ := s.tokens_ ++ [Token.Number v] })
      | none => (false, { s with isit_ := rest }) := by
  simp only [ExpectNums, hin, takeWhile_run Char.isDigit ds rest hds hr,
    dropWhile_run Char.isDigit ds rest hds hr]
  cases stoi ds <;> rfl

/-- At a digit, with the buffer non-empty or the level 0, a pass of the loop body is the
number probe. -/
theorem lineStep_digit (s : Lexer) (d : Char) (rest : List Char) (hd : d.isDigit = true)
    (hin : s.isit_ = d :: rest) (hline : s.tokens_ ≠ [] ∨ s.curent_indent_ = 0) :
    lineStep s = .ok (ExpectNums s).2 := by
  have hne : ∀ c : Char, c.isDigit = false → d ≠ c := fun c hc => digit_ne d c hd hc
  rw [lineStep_eq_lexemeStep s d rest hin (hne _ (by decide)) (hne _ (by decide)) hline]
  have hW : ExpectIdKeyWord s = (false, s) := by
    obtain ⟨isit, cur, toks, id, lc⟩ := s
    simp only at hin
    subst hin
    have hk : ExpectKeyWord (String.mk []) ⟨d :: rest, cur, toks, id, lc⟩
        = (false, ⟨d :: rest, cur, toks, id, lc⟩) := by
      rcases ExpectKeyWord_eq (String.mk []) ⟨d :: rest, cur, toks, id, lc⟩ with ⟨_, h⟩ | ⟨h, _⟩
      · exact absurd (by decide) h
      · exact h
    simp [ExpectIdKeyWord, readIdChars, idChar_digit d hd, hk, String.length]
  have hCh : ExpectChars s = .ok (false, s) := by
    have h1 : d ∉ equals_ := by
      simp only [equals_, List.mem_cons, List.mem_singleton, List.not_mem_nil, or_false,
        not_or]
      exact ⟨hne _ (by decide), hne _ (by decide), hne _ (by decide), hne _ (by decide)⟩
    have h2 : d ∉ chars_ := by
      simp only [chars_, List.mem_cons, List.mem_singleton, List.not_mem_nil, or_false,
        not_or]
      exact ⟨hne _ (by decide), hne _ (by decide), hne _ (by decide), hne _ (by decide),
        hne _ (by decide), hne _ (by decide), hne _ (by decide), hne _ (by decide),
        hne _ (by decide), hne _ (by decide)⟩
    simp [ExpectChars, Lexer.peek, hin, h1, h2]
  simp [lexemeStep, Lexer.peek, hin, hne _ (by decide : ('"').isDigit = false),
    hne _ (by decide : ('\'').isDigit = false), hW, hCh]

/-- C10, counterexample. A run of digits above the `int` range does not make the lexer
fail: the stream is produced and the digits are missing from it. -/
theorem overflowing_number_is_dropped :
    tokenize 100 "x = 2147483648\n".toList
      = .ok [Token.Id "x", Token.Char '=', Token.Newline, Token.Eof] := by
  decide

/-- C10, amended. A non-empty run of decimal digits whose value fits in `int` is lexed as
one `Number` token carrying that value, and the run is consumed; a run whose value is above
`INT_MAX` raises no error: the number probe reports no match and the pass ends without a
`Number` token in the buffer. -/
theorem number_lexeme (s : Lexer) (d : Char) (ds rest : List Char)
    (hd : d.isDigit = true) (hds : ∀ x ∈ ds, x.isDigit = true)
    (hr : ∀ c, rest.head? = some c → c.isDigit = false)
    (hin : s.isit_ = d :: ds ++ rest) (hline : s.tokens_ ≠ [] ∨ s.curent_indent_ = 0) :
    ((digitsValue (d :: ds) : Int) ≤ INT_MAX →
      lineStep s = .ok { s with isit_ := rest,
                                tokens_ := s.tokens_ ++ [Token.Number (digitsValue (d :: ds))] }) ∧
    (INT_MAX < (digitsValue (d :: ds) : Int) →
      (ExpectNums s).1 = false ∧
      ∃ s1, lineStep s = .ok s1 ∧ s1.tokens_ = s.tokens_) := by
  have hall : ∀ x ∈ d :: ds, x.isDigit = true := by
    intro x hx
    rcases List.mem_cons.mp hx with h | h
    · rw [h]; exact hd
    · exact hds x h
  have hN := ExpectNums_run s (d :: ds) rest hall hr hin
  have hL := lineStep_digit s d (ds ++ rest) hd hin hline
  constructor
  · intro hfit
    have hst : stoi (d :: ds) = some (digitsValue (d :: ds) : Int) := by
      simp [stoi, hfit]
    rw [hL, hN, hst]
  · intro hbig
    have hst : stoi (d :: ds) = none := by
      simp [stoi, not_le.mpr hbig]
    rw [hst] at hN
    rw [hL, hN]
    exact ⟨rfl, _, rfl, rfl⟩

/-- Witness for C10 (amended): `2147483647` is a `Number`, `2147483648` is not. -/
theorem number_lexeme_witness :
    lineStep ⟨"2147483647\n".toList, 0, [], 0, 0⟩
      = .ok ⟨"\n".toList, 0, [Token.Number 2147483647], 0, 0⟩ ∧
    (ExpectNums ⟨"2147483648\n".toList, 0, [], 0, 0⟩).1 = false :=
  ⟨(number_lexeme ⟨"2147483647\n".toList, 0, [], 0, 0⟩ '2' "147483647".toList "\n".toList
      (by decide) (by decide) (by decide) rfl (Or.inr rfl)).1 (by decide),
   ((number_lexeme ⟨"2147483648\n".toList, 0, [], 0, 0⟩ '2' "147483648".toList "\n".toList
      (by decide) (by decide) (by decide) rfl (Or.inr rfl)).2 (by decide)).1⟩

end parse

/-! ## String literals -/

namespace parse

theorem escapedChar_letter (e : Escape) : escapedChar e.letter = some e.denotes := by
  cases e <;> rfl

theorem stringLoop_close (q : Char) (rest acc : List Char) :
    stringLoop q (q :: rest) acc = .ok (acc, rest) := by
  rw [stringLoop.eq_def]
  simp

theorem stringLoop_plain (q c : Char) (rest acc : List Char) (h1 : c ≠ q) (h2 : c ≠ '\\')
    (h3 : c ≠ '\n') (h4 : c ≠ '\r') :
    stringLoop q (c :: rest) acc = stringLoop q rest (acc ++ [c]) := by
  rw [stringLoop.eq_def]
  simp [h1, h2, h3, h4]

theorem stringLoop_escape (q x : Char) (rest acc : List Char) (hq : '\\' ≠ q) :
    stringLoop q ('\\' :: x :: rest) acc =
      match escapedChar x with
      | some c => stringLoop q rest (acc ++ [c])
      | none => .error ⟨"Unrecognized escape sequence \\" ++ String.singleton x⟩ := by
  rw [stringLoop.eq_def]
  simp [hq]

theorem stringLoop_items (q : Char) (hq : q = '"' ∨ q = '\'') (tail : List Char) :
    ∀ (items : List StrItem) (acc : List Char), (∀ i ∈ items, i.allowed q = true) →
      stringLoop q (sourceOf items ++ tail) acc
        = stringLoop q tail (acc ++ items.map StrItem.denotes) := by
  have hqb : '\\' ≠ q := by rcases hq with h | h <;> rw [h] <;> decide
  intro items
  induction items with
  | nil => intro acc _; simp [sourceOf]
  | cons i is ih =>
    intro acc hall
    have hi := hall i (List.mem_cons_self _ _)
    have his : ∀ j ∈ is, j.allowed q = true := fun j hj => hall j (List.mem_cons_of_mem _ hj)
    cases i with
    | plain c =>
      simp only [StrItem.allowed, Bool.and_eq_true, bne_iff_ne, ne_eq] at hi
      obtain ⟨⟨⟨h1, h2⟩, h3⟩, h4⟩ := hi
      simp only [sourceOf, StrItem.source, List.cons_append, List.nil_append]
      rw [stringLoop_plain q c _ _ h1 h2 h3 h4, ih _ his]
      simp [StrItem.denotes]
    | escape e =>
      simp only [sourceOf, StrItem.source, List.cons_append, List.nil_append]
      rw [stringLoop_escape q _ _ _ hqb, escapedChar_letter]
      simp only
      rw [ih _ his]
      simp [StrItem.denotes]

theorem ExpectString_items (s : Lexer) (q : Char) (items : List StrItem) (rest : List Char)
    (hq : q = '"' ∨ q = '\'') (hitems : ∀ i ∈ items, i.allowed q = true)
    (hin : s.isit_ = q :: (sourceOf items ++ q :: rest)) :
    ExpectString s = .ok (true, { s with
      isit_ := rest,
      tokens_ := s.tokens_ ++ [Token.String (String.mk (items.map StrItem.denotes))] }) := by
  simp only [ExpectString, hin, stringLoop_items q hq (q :: rest) items [] hitems,
    stringLoop_close, List.nil_append]

/-- At a quote, with the buffer non-empty or the level 0, a pass of the loop body is the
string probe. -/
theorem lineStep_quote (s : Lexer) (q : Char) (body : List Char) (hq : q = '"' ∨ q = '\'')
    (hin : s.isit_ = q :: body) (hline : s.tokens_ ≠ [] ∨ s.curent_indent_ = 0) :
    lineStep s = match ExpectString s with
      | .ok r => .ok r.2
      | .error e => .error e := by
  have h1 : q ≠ '#' := by rcases hq with h | h <;> rw [h] <;> decide
  have h2 : q ≠ ' ' := by rcases hq with h | h <;> rw [h] <;> decide
  rw [lineStep_eq_lexemeStep s q body hin h1 h2 hline]
  have hp : s.peek = some '"' ∨ s.peek = some '\'' := by
    rcases hq with h | h
    · left; simp [Lexer.peek, hin, h]
    · right; simp [Lexer.peek, hin, h]
  simp only [lexemeStep, if_pos hp]
  cases hE : ExpectString s with
  | error e => rfl
  | ok r =>
    obtain ⟨b, s1⟩ := r
    have hb : b = true := by
      simp only [ExpectString, hin] at hE
      cases hL : stringLoop q body [] with
      | error e => rw [hL] at hE; cases hE
      | ok r2 =>
        rw [hL] at hE
        simp only [Except.ok.injEq, Prod.mk.injEq] at hE
        exact hE.1.symm
    subst hb
    rfl

/-- C8. A string literal opened by a quote `q`, whose body is a sequence of characters other
than `q`, backslash, newline and carriage return, and of the six escape sequences, and which
is closed by `q`, is lexed as one `String` token: its payload is the body with each escape
sequence replaced by the character it denotes and every other character (the other quote and
`#` included) copied; the literal is consumed up to and including the closing quote. -/
theorem string_literal_token (s : Lexer) (q : Char) (items : List StrItem)
    (rest : List Char) (hq : q = '"' ∨ q = '\'') (hitems : ∀ i ∈ items, i.allowed q = true)
    (hin : s.isit_ = q :: (sourceOf items ++ q :: rest)) :
    ExpectString s = .ok (true, { s with
      isit_ := rest,
      tokens_ := s.tokens_ ++ [Token.String (String.mk (items.map StrItem.denotes))] }) ∧
    (s.tokens_ ≠ [] ∨ s.curent_indent_ = 0 →
      lineStep s = .ok { s with
        isit_ := rest,
        tokens_ := s.tokens_ ++ [Token.String (String.mk (items.map StrItem.denotes))] }) := by
  have hE := ExpectString_items s q items rest hq hitems hin
  refine ⟨hE, fun hline => ?_⟩
  rw [lineStep_quote s q _ hq hin hline, hE]

/-- Witness for C8: the literal `"a\"#'b\n"` followed by ` x`. -/
theorem string_literal_token_witness :
    ExpectString ⟨['"', 'a', '\\', '"', '#', '\'', 'b', '\\', 'n', '"', ' ', 'x'], 0, [], 0, 0⟩
      = .ok (true, ⟨[' ', 'x'], 0, [Token.String "a\"#'b\n"], 0, 0⟩) :=
  (string_literal_token ⟨['"', 'a', '\\', '"', '#', '\'', 'b', '\\', 'n', '"', ' ', 'x'], 0, [], 0, 0⟩
    '"' [.plain 'a', .escape .dquote, .plain '#', .plain '\'', .plain 'b', .escape .n]
    [' ', 'x'] (Or.inl rfl) (by decide) rfl).1

theorem escapedChar_none (x : Char) (h1 : x ≠ 'n') (h2 : x ≠ 't') (h3 : x ≠ 'r')
    (h4 : x ≠ '"') (h5 : x ≠ '\'') (h6 : x ≠ '\\') : escapedChar x = none := by
  simp [escapedChar, h1, h2, h3, h4, h5, h6]

theorem stringLoop_badTail (q : Char) (hq : q = '"' ∨ q = '\'') (tail : List Char)
    (hbad : BadTail tail) (acc : List Char) : ∃ e, stringLoop q tail acc = .error e := by
  have hqb : '\\' ≠ q := by rcases hq with h | h <;> rw [h] <;> decide
  have hqn : '\n' ≠ q := by rcases hq with h | h <;> rw [h] <;> decide
  have hqr : '\r' ≠ q := by rcases hq with h | h <;> rw [h] <;> decide
  cases hbad with
  | endOfInput => exact ⟨_, by rw [stringLoop.eq_def]⟩
  | endAfterBackslash =>
    exact ⟨⟨"String parsing error"⟩, by rw [stringLoop.eq_def]; simp [hqb]⟩
  | unknownEscape x rest h1 h2 h3 h4 h5 h6 =>
    rw [stringLoop_escape q x rest acc hqb, escapedChar_none x h1 h2 h3 h4 h5 h6]
    exact ⟨_, rfl⟩
  | newline rest =>
    exact ⟨⟨"Unexpected end of line"⟩, by rw [stringLoop.eq_def]; simp [hqn]⟩
  | carriageReturn rest =>
    exact ⟨⟨"Unexpected end of line"⟩, by rw [stringLoop.eq_def]; simp [hqr]⟩

/-- Every text behind an opening quote `q` is either a well-formed body closed by `q`, or a
well-formed part of a body followed by one of the malformed continuations. -/
theorem body_classification (q : Char) : ∀ (n : Nat) (body : List Char), body.length ≤ n →
    (∃ items rest, (∀ i ∈ items, StrItem.allowed q i = true)
        ∧ body = sourceOf items ++ q :: rest) ∨
    (∃ items tail, (∀ i ∈ items, StrItem.allowed q i = true)
        ∧ body = sourceOf items ++ tail ∧ BadTail tail) := by
  intro n
  induction n with
  | zero =>
    intro body hlen
    have : body = [] := List.length_eq_zero.mp (Nat.le_zero.mp hlen)
    subst this
    exact Or.inr ⟨[], [], by simp, rfl, BadTail.endOfInput⟩
  | succ n ih =>
    intro body hlen
    have prepend : ∀ (i : StrItem) (b : List Char), StrItem.allowed q i = true →
        ((∃ items rest, (∀ i ∈ items, StrItem.allowed q i = true)
            ∧ b = sourceOf items ++ q :: rest) ∨
         (∃ items tail, (∀ i ∈ items, StrItem.allowed q i = true)
            ∧ b = sourceOf items ++ tail ∧ BadTail tail)) →
        ((∃ items rest, (∀ i ∈ items, StrItem.allowed q i = true)
            ∧ i.source ++ b = sourceOf items ++ q :: rest) ∨
         (∃ items tail, (∀ i ∈ items, StrItem.allowed q i = true)
            ∧ i.source ++ b = sourceOf items ++ tail ∧ BadTail tail)) := by
      intro i b hi h
      have hall : ∀ items : List StrItem, (∀ j ∈ items, StrItem.allowed q j = true) →
          ∀ j ∈ i :: items, StrItem.allowed q j = true := by
        intro items hitems j hj
        rcases List.mem_cons.mp hj with h | h
        · rw [h]; exact hi
        · exact hitems j h
      rcases h with ⟨items, rest, hitems, hb⟩ | ⟨items, tail, hitems, hb, hbad⟩
      · exact Or.inl ⟨i :: items, rest, hall items hitems, by simp [sourceOf, hb]⟩
      · exact Or.inr ⟨i :: items, tail, hall items hitems, by simp [sourceOf, hb], hbad⟩
    cases body with
    | nil => exact Or.inr ⟨[], [], by simp, rfl, BadTail.endOfInput⟩
    | cons ch rest =>
      by_cases hcq : ch = q
      · subst hcq
        exact Or.inl ⟨[], rest, by simp, rfl⟩
      by_cases hcb : ch = '\\'
      · subst hcb
        cases rest with
        | nil => exact Or.inr ⟨[], ['\\'], by simp, rfl, BadTail.endAfterBackslash⟩
        | cons x r =>
          have hr : r.length ≤ n := by simp at hlen; omega
          have esc : ∀ e : Escape, x = e.letter →
              ((∃ items rest, (∀ i ∈ items, StrItem.allowed q i = true)
                  ∧ '\\' :: x :: r = sourceOf items ++ q :: rest) ∨
               (∃ items tail, (∀ i ∈ items, StrItem.allowed q i = true)
                  ∧ '\\' :: x :: r = sourceOf items ++ tail ∧ BadTail tail)) := by
            intro e he
            have := prepend (.escape e) r rfl (ih r hr)
            simpa [StrItem.source, he] using this
          by_cases h1 : x = 'n'
          · exact esc .n h1
          by_cases h2 : x = 't'
          · exact esc .t h2
          by_cases h3 : x = 'r'
          · exact esc .r h3
          by_cases h4 : x = '"'
          · exact esc .dquote h4
          by_cases h5 : x = '\''
          · exact esc .squote h5
          by_cases h6 : x = '\\'
          · exact esc .backslash h6
          exact Or.inr ⟨[], '\\' :: x :: r, by simp, rfl,
            BadTail.unknownEscape x r h1 h2 h3 h4 h5 h6⟩
      by_cases hcn : ch = '\n'
      · subst hcn
        exact Or.inr ⟨[], '\n' :: rest, by simp, rfl, BadTail.newline rest⟩
      by_cases hcr : ch = '\r'
      · subst hcr
        exact Or.inr ⟨[], '\r' :: rest, by simp, rfl, BadTail.carriageReturn rest⟩
      have hr : rest.length ≤ n := by simp at hlen; omega
      have := prepend (.plain ch) rest (by simp [StrItem.allowed, hcq, hcb, hcn, hcr])
        (ih rest hr)
      simpa [StrItem.source] using this

/-- C9. Lexing a string literal opened by `q` fails with `LexerError` exactly when, behind
a well-formed part of the body, the input ends, or ends right after a backslash, or
has a backslash followed by a character other than `n t r " ' \`, or has a newline or a
carriage return that is not part of an escape sequence. -/
theorem string_literal_errors (s : Lexer) (q : Char) (body : List Char)
    (hq : q = '"' ∨ q = '\'') (hin : s.isit_ = q :: body) :
    (∃ e, ExpectString s = .error e) ↔
      ∃ items tail, (∀ i ∈ items, StrItem.allowed q i = true)
        ∧ body = sourceOf items ++ tail ∧ BadTail tail := by
  constructor
  · rintro ⟨e, he⟩
    rcases body_classification q body.length body (le_refl _) with
      ⟨items, rest, hitems, hb⟩ | h
    · rw [ExpectString_items s q items rest hq hitems (by rw [hin, hb])] at he
      cases he
    · exact h
  · rintro ⟨items, tail, hitems, hb, hbad⟩
    obtain ⟨e, he⟩ := stringLoop_badTail q hq tail hbad ([] ++ items.map StrItem.denotes)
    refine ⟨e, ?_⟩
    simp only [ExpectString, hin, hb, stringLoop_items q hq tail items [] hitems, he]

/-- Witness for C9: the literal `'ab` that the end of the input leaves open. -/
theorem string_literal_errors_witness :
    ∃ e, ExpectString ⟨['\'', 'a', 'b'], 0, [], 0, 0⟩ = .error e :=
  (string_literal_errors ⟨['\'', 'a', 'b'], 0, [], 0, 0⟩ '\'' ['a', 'b'] (Or.inr rfl) rfl).2
    ⟨[.plain 'a', .plain 'b'], [], by decide, rfl, BadTail.endOfInput⟩

end parse

/-! ## The token stream: block depth and end of input -/

namespace parse

theorem depthAfter_append (b : Int) (xs ys : List Token) :
    depthAfter b (xs ++ ys) = depthAfter (depthAfter b xs) ys := by
  induction xs generalizing b with
  | nil => rfl
  | cons x xs ih => simp [depthAfter, ih]

theorem depthOK_append (b : Int) (xs ys : List Token) :
    depthOK b (xs ++ ys) ↔ depthOK b xs ∧ depthOK (depthAfter b xs) ys := by
  induction xs generalizing b with
  | nil =>
    simp only [List.nil_append, depthOK, depthAfter]
    constructor
    · intro h
      refine ⟨?_, h⟩
      cases ys with
      | nil => exact h
      | cons y ys => exact h.1
    · exact fun h => h.2
  | cons x xs ih => simp [depthOK, depthAfter, ih, and_assoc]

theorem depthOK_nonneg (b : Int) (xs : List Token) (h : depthOK b xs) :
    0 ≤ depthAfter b xs := by
  induction xs generalizing b with
  | nil => exact h
  | cons x xs ih => exact ih _ h.2

theorem depthOK_take (b : Int) (xs : List Token) (h : depthOK b xs) (k : Nat) :
    0 ≤ depthAfter b (xs.take k) := by
  have hx : depthOK b (xs.take k ++ xs.drop k) := by rwa [List.take_append_drop]
  exact depthOK_nonneg b _ ((depthOK_append b _ _).1 hx).1

theorem depthAfter_count (b : Int) (xs : List Token) :
    depthAfter b xs = b + (xs.count Token.Indent : Int) - (xs.count Token.Dedent : Int) := by
  induction xs generalizing b with
  | nil => simp [depthAfter]
  | cons x xs ih =>
    rw [depthAfter, ih]
    cases x <;> simp [Token.delta, List.count_cons] <;> omega

theorem depthAfter_dedents (b : Int) (k : Nat) :
    depthAfter b (List.replicate k Token.Dedent) = b - k := by
  induction k generalizing b with
  | zero => simp [depthAfter]
  | succ k ih =>
    rw [List.replicate_succ, depthAfter, ih]
    simp only [Token.delta]
    omega

theorem depthOK_dedents (b : Int) (k : Nat) (h : 0 ≤ b - k) :
    depthOK b (List.replicate k Token.Dedent) := by
  induction k generalizing b with
  | zero => simpa [depthOK] using h
  | succ k ih =>
    rw [List.replicate_succ, depthOK]
    refine ⟨by omega, ih _ ?_⟩
    simp only [Token.delta]
    omega

/-! ### The scan of a line keeps the invariant -/

theorem depthAfter_snoc (b : Int) (xs : List Token) (t : Token) :
    depthAfter b (xs ++ [t]) = depthAfter b xs + t.delta := by
  rw [depthAfter_append]
  rfl

theorem depthOK_snoc (b : Int) (xs : List Token) (t : Token) (h : depthOK b xs)
    (ht : 0 ≤ depthAfter b xs + t.delta) : depthOK b (xs ++ [t]) := by
  rw [depthOK_append]
  exact ⟨h, depthOK_nonneg _ _ h, ht⟩

theorem LineInv_of_eq (pre : List Token) (s s1 : Lexer) (h : LineInv pre s)
    (ht : s1.tokens_ = s.tokens_) (hc : s1.curent_indent_ = s.curent_indent_)
    (hi : s1.curent_tiken_id_ = s.curent_tiken_id_) : LineInv pre s1 := by
  unfold LineInv at *
  rw [ht, hc, hi]
  exact h

theorem LineInv_push (pre : List Token) (s s1 : Lexer) (t : Token) (h : LineInv pre s)
    (ht : s1.tokens_ = s.tokens_ ++ [t]) (hc : s1.curent_indent_ = s.curent_indent_)
    (hi : s1.curent_tiken_id_ = s.curent_tiken_id_)
    (hd : t.delta = 0) (he : t ≠ Token.Eof) : LineInv pre s1 := by
  obtain ⟨h1, h2, h3, h4⟩ := h
  have hnn := depthOK_nonneg _ _ h3
  refine ⟨?_, ?_, ?_, hi.trans h4⟩
  · rw [ht]
    simp only [List.mem_append, List.mem_singleton, not_or]
    exact ⟨h1, fun h => he h.symm⟩
  · rw [ht, hc, h2, ← List.append_assoc, depthAfter_snoc, hd, add_zero]
  · rw [ht, ← List.append_assoc]
    exact depthOK_snoc _ _ _ h3 (by rw [hd]; omega)

theorem ExpectComment_inv (pre : List Token) (s : Lexer) (h : LineInv pre s) :
    LineInv pre (ExpectComment s).2 := by
  unfold ExpectComment
  split
  · exact LineInv_of_eq pre s _ h rfl rfl rfl
  · exact h

theorem SkipSpace_inv (pre : List Token) (s : Lexer) (h : LineInv pre s) :
    LineInv pre (SkipSpace s).2 :=
  LineInv_of_eq pre s _ h rfl rfl rfl

theorem ExpectIndent_inv (pre : List Token) (s : Lexer) (h : LineInv pre s) :
    LineInv pre (ExpectIndent s).2 := by
  simp only [ExpectIndent]
  split_ifs with h0 h2 hneg
  · exact LineInv_of_eq pre s _ h rfl rfl rfl
  · obtain ⟨h1, h2, h3, h4⟩ := h
    have hnn := depthOK_nonneg _ _ h3
    refine ⟨?_, ?_, ?_, h4⟩
    · simp only [List.mem_append, List.mem_singleton, not_or]
      exact ⟨h1, by decide⟩
    · simp only
      rw [h2, ← List.append_assoc, depthAfter_snoc]
      simp only [Token.delta]
      omega
    · simp only
      rw [← List.append_assoc]
      exact depthOK_snoc _ _ _ h3 (by simp only [Token.delta]; omega)
  · obtain ⟨hlt, hmod⟩ := hneg
    have hev := (tmod_two_eq_zero_iff _).1 hmod
    obtain ⟨k, hk⟩ : ∃ k : Nat,
        ((List.takeWhile (fun c => c == ' ') s.isit_).length : Int) - s.curent_indent_
          = -(2 * (k : Int)) :=
      ⟨((s.curent_indent_ - (List.takeWhile (fun c => c == ' ') s.isit_).length) / 2).toNat,
        by omega⟩
    obtain ⟨h1, h2, h3, h4⟩ := h
    rw [hk, dedentLoop_eq k _ _ (by omega)]
    refine ⟨?_, ?_, ?_, h4⟩
    · simp only [List.mem_append, List.mem_replicate, not_or]
      exact ⟨h1, fun h => absurd h.2 (by decide)⟩
    · simp only
      rw [← List.append_assoc, depthAfter_append, depthAfter_dedents]
      omega
    · simp only
      rw [← List.append_assoc, depthOK_append]
      exact ⟨h3, depthOK_dedents _ _ (by omega)⟩
  · exact LineInv_of_eq pre s _ h rfl rfl rfl

theorem keywordOrId_neutral (w : String) :
    (keywordOrId w).delta = 0 ∧ keywordOrId w ≠ Token.Eof := by
  unfold keywordOrId
  by_cases h0 : w = "class"
  · rw [if_pos h0]
    exact ⟨rfl, by simp⟩
  rw [if_neg h0]
  by_cases h1 : w = "return"
  · rw [if_pos h1]
    exact ⟨rfl, by simp⟩
  rw [if_neg h1]
  by_cases h2 : w = "if"
  · rw [if_pos h2]
    exact ⟨rfl, by simp⟩
  rw [if_neg h2]
  by_cases h3 : w = "else"
  · rw [if_pos h3]
    exact ⟨rfl, by simp⟩
  rw [if_neg h3]
  by_cases h4 : w = "def"
  · rw [if_pos h4]
    exact ⟨rfl, by simp⟩
  rw [if_neg h4]
  by_cases h5 : w = "print"
  · rw [if_pos h5]
    exact ⟨rfl, by simp⟩
  rw [if_neg h5]
  by_cases h6 : w = "or"
  · rw [if_pos h6]
    exact ⟨rfl, by simp⟩
  rw [if_neg h6]
  by_cases h7 : w = "None"
  · rw [if_pos h7]
    exact ⟨rfl, by simp⟩
  rw [if_neg h7]
  by_cases h8 : w = "and"
  · rw [if_pos h8]
    exact ⟨rfl, by simp⟩
  rw [if_neg h8]
  by_cases h9 : w = "not"
  · rw [if_pos h9]
    exact ⟨rfl, by simp⟩
  rw [if_neg h9]
  by_cases h10 : w = "True"
  · rw [if_pos h10]
    exact ⟨rfl, by simp⟩
  rw [if_neg h10]
  by_cases h11 : w = "False"
  · rw [if_pos h11]
    exact ⟨rfl, by simp⟩
  rw [if_neg h11]
  exact ⟨rfl, by simp⟩

theorem ExpectIdKeyWord_inv (pre : List Token) (s : Lexer) (h : LineInv pre s) :
    LineInv pre (ExpectIdKeyWord s).2 := by
  unfold ExpectIdKeyWord
  simp only
  rcases ExpectKeyWord_eq (String.mk (readIdChars true s.isit_).1)
      { s with isit_ := (readIdChars true s.isit_).2 } with ⟨hk, _⟩ | ⟨hk, _⟩
  · rw [hk]
    simp only [Bool.not_true, Bool.false_and, Bool.false_eq_true, if_false]
    exact LineInv_push pre s _ _ h rfl rfl rfl (keywordOrId_neutral _).1 (keywordOrId_neutral _).2
  · rw [hk]
    split
    · exact LineInv_push pre s _ (Token.Id _) h rfl rfl rfl rfl (by simp)
    · exact LineInv_of_eq pre s _ h rfl rfl rfl

theorem ExpectChars_inv (pre : List Token) (s : Lexer) (r : Bool × Lexer)
    (hr : ExpectChars s = .ok r) (h : LineInv pre s) : LineInv pre r.2 := by
  unfold ExpectChars at hr
  cases hp : s.peek with
  | none =>
    rw [hp] at hr
    cases hr
    exact h
  | some first =>
    rw [hp] at hr
    simp only at hr
    split_ifs at hr
    all_goals first
      | (cases hr; exact h)
      | (cases hr; exact LineInv_push pre s _ _ h rfl rfl rfl rfl (by simp))

theorem ExpectNums_inv (pre : List Token) (s : Lexer) (h : LineInv pre s) :
    LineInv pre (ExpectNums s).2 := by
  unfold ExpectNums
  simp only
  split
  · exact LineInv_push pre s _ (Token.Number _) h rfl rfl rfl rfl (by simp)
  · exact LineInv_of_eq pre s _ h rfl rfl rfl

theorem ExpectString_inv (pre : List Token) (s : Lexer) (r : Bool × Lexer)
    (hr : ExpectString s = .ok r) (h : LineInv pre s) : LineInv pre r.2 := by
  unfold ExpectString at hr
  split at hr
  · cases hr
  · split at hr
    · cases hr
      exact LineInv_push pre s _ (Token.String _) h rfl rfl rfl rfl (by simp)
    · cases hr

theorem lexemeStep_inv (pre : List Token) (s s1 : Lexer) (hs : lexemeStep s = .ok s1)
    (h : LineInv pre s) : LineInv pre s1 := by
  unfold lexemeStep at hs
  simp only at hs
  split at hs
  · cases hs
  · rename_i s2 heq
    cases hs
    split at heq
    · exact ExpectString_inv pre s _ heq h
    · cases heq
  · rename_i s2 heq
    have h2 : LineInv pre s2 := by
      split at heq
      · exact ExpectString_inv pre s _ heq h
      · cases heq
        exact h
    have h3 := ExpectIdKeyWord_inv pre s2 h2
    split at hs
    · cases hs
      exact h3
    · split at hs
      · cases hs
      · rename_i s3 heq3
        cases hs
        exact ExpectChars_inv pre _ _ heq3 h3
      · rename_i s3 heq3
        cases hs
        exact ExpectNums_inv pre _ (ExpectChars_inv pre _ _ heq3 h3)

theorem lineStep_inv (pre : List Token) (s s1 : Lexer) (hs : lineStep s = .ok s1)
    (h : LineInv pre s) : LineInv pre s1 := by
  have key : ∀ (c i sp : Bool × Lexer), LineInv pre c.2 → LineInv pre i.2 →
      LineInv pre sp.2 →
      (if c.1 then .ok c.2 else if i.1 then .ok i.2 else if sp.1 then .ok sp.2
        else lexemeStep sp.2) = Except.ok s1 → LineInv pre s1 := by
    intro c i sp hc hi hsp hk
    split_ifs at hk
    · cases hk
      exact hc
    · cases hk
      exact hi
    · cases hk
      exact hsp
    · exact lexemeStep_inv pre _ _ hk hsp
  have hc := ExpectComment_inv pre s h
  have hi : LineInv pre (if (ExpectComment s).2.tokens_.length = 0
      then ExpectIndent (ExpectComment s).2 else (false, (ExpectComment s).2)).2 := by
    split
    · exact ExpectIndent_inv pre _ hc
    · exact hc
  exact key _ _ _ hc hi (SkipSpace_inv pre _ hi) hs

theorem scanLine_inv (pre : List Token) : ∀ (fuel : Nat) (s s1 : Lexer),
    scanLine fuel s = .ok s1 → LineInv pre s → LineInv pre s1 ∧ inLine s1 = false := by
  intro fuel
  induction fuel with
  | zero =>
    intro s s1 hs h
    unfold scanLine at hs
    split at hs
    · cases hs
    · rename_i hin
      cases hs
      exact ⟨h, by simpa using hin⟩
  | succ fuel ih =>
    intro s s1 hs h
    unfold scanLine at hs
    split at hs
    · split at hs
      · rename_i s2 heq
        exact ih s2 s1 hs (lineStep_inv pre s s2 heq h)
      · cases hs
    · rename_i hin
      cases hs
      exact ⟨h, by simpa using hin⟩

/-! ### End of line and end of input -/

theorem depthAfter_pre_snoc (b : Int) (pre A : List Token) (t : Token) :
    depthAfter b (pre ++ (A ++ [t])) = depthAfter b (pre ++ A) + t.delta := by
  rw [← List.append_assoc, depthAfter_snoc]

theorem depthOK_pre_snoc (b : Int) (pre A : List Token) (t : Token)
    (h : depthOK b (pre ++ A)) (ht : 0 ≤ depthAfter b (pre ++ A) + t.delta) :
    depthOK b (pre ++ (A ++ [t])) := by
  rw [← List.append_assoc]
  exact depthOK_snoc _ _ _ h ht

theorem closeIndents_eq (k : Nat) : ∀ (fuel : Nat) (s : Lexer),
    s.curent_indent_ = 2 * (k : Int) → k ≤ fuel →
    closeIndents fuel s = { s with tokens_ := s.tokens_ ++ List.replicate k Token.Dedent,
                                   curent_indent_ := 0 } := by
  induction k with
  | zero =>
    intro fuel s hc _
    obtain ⟨isit, cur, toks, id, lc⟩ := s
    simp only [Nat.cast_zero, mul_zero] at hc
    subst hc
    cases fuel <;> simp [closeIndents]
  | succ k ih =>
    intro fuel s hc hk
    cases fuel with
    | zero => omega
    | succ fuel =>
      have hpos : s.curent_indent_ > 0 := by omega
      rw [closeIndents, if_pos hpos, ih fuel _ (by simp only; omega) (by omega)]
      simp [List.replicate_succ]

theorem closeIndents_nonpos (fuel : Nat) (s : Lexer) (h : s.curent_indent_ ≤ 0) :
    closeIndents fuel s = s := by
  cases fuel with
  | zero => rfl
  | succ fuel => rw [closeIndents, if_neg (by omega)]

theorem getElem?_snoc_eq (A : List Token) (t : Token) (i : Nat) (hA : t ∉ A)
    (h : (A ++ [t])[i]? = some t) : i + 1 = (A ++ [t]).length := by
  rcases Nat.lt_trichotomy i A.length with hlt | heq | hgt
  · rw [List.getElem?_append_left hlt] at h
    exact absurd (List.getElem?_mem h) hA
  · simp [heq]
  · have : (A ++ [t])[i]? = none := by
      apply List.getElem?_eq_none
      simp
      omega
    rw [this] at h
    cases h

/-- The end of the input: the open blocks are closed, then `Newline` when the file is a single
line with tokens, then `Eof`. -/
theorem finishLine_end (pre : List Token) (cur : Int) (toks : List Token) (lc : Nat)
    (h : LineInv pre ⟨[], cur, toks, 0, lc⟩) :
    (finishLine ⟨[], cur, toks, 0, lc⟩).1 = true ∧
      BufInv pre (finishLine ⟨[], cur, toks, 0, lc⟩).2 ∧
      (finishLine ⟨[], cur, toks, 0, lc⟩).2.curent_tiken_id_ = 0 := by
  obtain ⟨h1, h2, h3, -⟩ := h
  have hnn := depthOK_nonneg _ _ h3
  simp only at h1 h2 h3 hnn
  obtain ⟨k, hk⟩ : ∃ k : Nat, depthAfter 0 (pre ++ toks) = (k : Int) :=
    ⟨(depthAfter 0 (pre ++ toks)).toNat, by omega⟩
  have hclose : closeIndents cur.toNat ⟨[], cur, toks, 0, lc⟩
      = ⟨[], 0, toks ++ List.replicate k Token.Dedent, 0, lc⟩ :=
    closeIndents_eq k cur.toNat ⟨[], cur, toks, 0, lc⟩ (by simp only; omega) (by omega)
  have hd : depthAfter 0 (pre ++ (toks ++ List.replicate k Token.Dedent)) = 0 := by
    rw [← List.append_assoc, depthAfter_append, depthAfter_dedents]
    omega
  have hok : depthOK 0 (pre ++ (toks ++ List.replicate k Token.Dedent)) := by
    rw [← List.append_assoc, depthOK_append]
    exact ⟨h3, depthOK_dedents _ _ (by omega)⟩
  have hne : Token.Eof ∉ toks ++ List.replicate k Token.Dedent := by
    simp only [List.mem_append, List.mem_replicate, not_or]
    exact ⟨h1, fun h => absurd h.2 (by decide)⟩
  refine ⟨rfl, ?_⟩
  simp only [finishLine, hclose]
  split
  · refine ⟨⟨?_, ?_, ?_, ?_⟩, rfl⟩
    · simp only [Lexer.push, depthAfter_pre_snoc, hd]
      rfl
    · simp only [Lexer.push]
      refine depthOK_pre_snoc _ _ _ _ (depthOK_pre_snoc _ _ _ _ hok ?_) ?_
      · rw [hd]; decide
      · rw [depthAfter_pre_snoc, hd]; decide
    · simp [Lexer.push]
    · intro i hi
      simp only [Lexer.push] at hi
      refine ⟨getElem?_snoc_eq _ _ i ?_ hi, rfl, rfl⟩
      intro hmem
      rcases List.mem_append.mp hmem with hm | hm
      · exact hne hm
      · simp at hm
  · refine ⟨⟨?_, ?_, ?_, ?_⟩, rfl⟩
    · simp only [Lexer.push, depthAfter_pre_snoc, hd]
      rfl
    · simp only [Lexer.push]
      exact depthOK_pre_snoc _ _ _ _ hok (by rw [hd]; decide)
    · simp [Lexer.push]
    · intro i hi
      simp only [Lexer.push] at hi
      exact ⟨getElem?_snoc_eq _ _ i hne hi, rfl, rfl⟩

/-- The end of a line: `Newline` behind the tokens of the line, nothing for a line without
tokens. -/
theorem finishLine_newline (pre : List Token) (rest : List Char) (cur : Int)
    (toks : List Token) (lc : Nat) (h : LineInv pre ⟨'\n' :: rest, cur, toks, 0, lc⟩) :
    (toks ≠ [] → (finishLine ⟨'\n' :: rest, cur, toks, 0, lc⟩).1 = true ∧
      BufInv pre (finishLine ⟨'\n' :: rest, cur, toks, 0, lc⟩).2 ∧
      (finishLine ⟨'\n' :: rest, cur, toks, 0, lc⟩).2.curent_tiken_id_ = 0) ∧
    (toks = [] → finishLine ⟨'\n' :: rest, cur, toks, 0, lc⟩
      = (false, ⟨rest, cur, [], 0, lc⟩)) := by
  obtain ⟨h1, h2, h3, -⟩ := h
  have hnn := depthOK_nonneg _ _ h3
  simp only at h1 h2 h3 hnn
  constructor
  · intro ht
    have hlen : toks.length > 0 := List.length_pos.mpr ht
    simp only [finishLine, if_true, if_pos hlen, Lexer.push, Lexer.advance, true_and, and_true]
    refine ⟨?_, ?_, ?_, ?_⟩
    · simp only [depthAfter_pre_snoc, Token.delta, add_zero]
      exact h2
    · exact depthOK_pre_snoc _ _ _ _ h3 (by simp only [Token.delta]; omega)
    · simp
    · intro i hi
      simp only at hi
      have hmem := List.getElem?_mem hi
      simp only [List.mem_append, List.mem_singleton] at hmem
      rcases hmem with hm | hm
      · exact absurd hm h1
      · cases hm
  · intro ht
    subst ht
    rfl

/-! ### `NextToken` keeps the invariant -/

theorem ParseString_inv (pre : List Token) (fuel : Nat) (s : Lexer) (r : Bool × Lexer)
    (hr : ParseString fuel s = .ok r) (h : LineInv pre s) :
    (r.1 = true → BufInv pre r.2 ∧ r.2.curent_tiken_id_ = 0) ∧
    (r.1 = false → LineInv pre r.2) := by
  unfold ParseString at hr
  cases hsc : scanLine fuel s with
  | error e => rw [hsc] at hr; cases hr
  | outOfFuel => rw [hsc] at hr; cases hr
  | ok s1 =>
    rw [hsc] at hr
    simp only [Outcome.bind, Outcome.ok.injEq] at hr
    obtain ⟨hinv, hin⟩ := scanLine_inv pre fuel s s1 hsc h
    obtain ⟨isit, cur, toks, id, lc⟩ := s1
    have hid : id = 0 := hinv.2.2.2
    subst hid
    cases isit with
    | nil =>
      have := finishLine_end pre cur toks lc hinv
      rw [hr] at this
      exact ⟨fun _ => this.2, fun hf => by rw [this.1] at hf; cases hf⟩
    | cons c rest =>
      have hc : c = '\n' := by simpa [inLine] using hin
      subst hc
      have := finishLine_newline pre rest cur toks lc hinv
      rw [hr] at this
      by_cases ht : toks = []
      · have heq := this.2 ht
        subst ht
        rw [heq]
        exact ⟨fun hf => (by cases hf), fun _ => ⟨hinv.1, hinv.2.1, hinv.2.2.1, rfl⟩⟩
      · have heq := this.1 ht
        exact ⟨fun _ => heq.2, fun hf => by rw [heq.1] at hf; cases hf⟩

theorem parseLoop_inv (pre : List Token) (fuel : Nat) : ∀ (n : Nat) (s s1 : Lexer),
    parseLoop fuel n s = .ok s1 → LineInv pre s →
    BufInv pre s1 ∧ s1.curent_tiken_id_ = 0 := by
  intro n
  induction n with
  | zero =>
    intro s s1 hs h
    unfold parseLoop at hs
    cases hp : ParseString fuel s with
    | error e => rw [hp] at hs; cases hs
    | outOfFuel => rw [hp] at hs; cases hs
    | ok r =>
      rw [hp] at hs
      simp only [Outcome.bind] at hs
      split at hs
      · rename_i hb
        cases hs
        exact (ParseString_inv pre fuel s r hp h).1 hb
      · cases hs
  | succ n ih =>
    intro s s1 hs h
    unfold parseLoop at hs
    cases hp : ParseString fuel s with
    | error e => rw [hp] at hs; cases hs
    | outOfFuel => rw [hp] at hs; cases hs
    | ok r =>
      rw [hp] at hs
      simp only [Outcome.bind] at hs
      split at hs
      · rename_i hb
        cases hs
        exact (ParseString_inv pre fuel s r hp h).1 hb
      · rename_i hb
        exact ih r.2 s1 hs ((ParseString_inv pre fuel s r hp h).2 (by simpa using hb))

theorem NextToken_inv (pre : List Token) (fuel : Nat) (s s1 : Lexer) (t : Option Token)
    (hn : NextToken fuel s = .ok (t, s1)) (h : BufInv pre s) :
    t = CurrentToken s1 ∧
    ((s.curent_tiken_id_ + 1 < s.tokens_.length ∧ BufInv pre s1
        ∧ s1.tokens_ = s.tokens_ ∧ s1.curent_tiken_id_ = s.curent_tiken_id_ + 1) ∨
     (s.curent_tiken_id_ + 1 = s.tokens_.length ∧ BufInv (pre ++ s.tokens_) s1
        ∧ s1.curent_tiken_id_ = 0)) := by
  obtain ⟨h1, h2, h3, h4⟩ := h
  unfold NextToken at hn
  split at hn
  · rename_i hlt
    simp only [Outcome.ok.injEq, Prod.mk.injEq] at hn
    obtain ⟨ht, hs⟩ := hn
    subst hs
    exact ⟨ht.symm, Or.inl ⟨hlt, ⟨h1, h2, hlt, h4⟩, rfl, rfl⟩⟩
  · rename_i hge
    cases hp : parseLoop fuel fuel { s with curent_tiken_id_ := 0, tokens_ := [] } with
    | error e => rw [hp] at hn; cases hn
    | outOfFuel => rw [hp] at hn; cases hn
    | ok s2 =>
      rw [hp] at hn
      simp only [Outcome.bind, Outcome.ok.injEq, Prod.mk.injEq] at hn
      obtain ⟨ht, hs⟩ := hn
      subst hs
      have hline : LineInv (pre ++ s.tokens_) { s with curent_tiken_id_ := 0, tokens_ := [] } :=
        ⟨by simp, by simpa using h1, by simpa using h2, rfl⟩
      have hb := parseLoop_inv (pre ++ s.tokens_) fuel fuel _ _ hp hline
      exact ⟨ht.symm, Or.inr ⟨by omega, hb.1, hb.2⟩⟩

theorem Lexer.new_inv (fuel : Nat) (input : List Char) (s : Lexer)
    (h : Lexer.new fuel input = .ok s) : BufInv [] s ∧ s.curent_tiken_id_ = 0 := by
  unfold Lexer.new NextToken at h
  simp only [List.length_nil, Nat.not_lt_zero, if_false] at h
  cases hp : parseLoop fuel fuel ⟨input, 0, [], 0, 0⟩ with
  | error e => rw [hp] at h; cases h
  | outOfFuel => rw [hp] at h; cases h
  | ok s2 =>
    rw [hp] at h
    simp only [Outcome.bind, Outcome.ok.injEq] at h
    subst h
    exact parseLoop_inv [] fuel fuel _ _ hp ⟨by simp, rfl, by simp [depthOK], rfl⟩

theorem Reachable_inv (s : Lexer) (h : Reachable s) : ∃ pre, BufInv pre s := by
  induction h with
  | new fuel input s hs => exact ⟨[], (Lexer.new_inv fuel input s hs).1⟩
  | next fuel s t s1 _ hn ih =>
    obtain ⟨pre, hpre⟩ := ih
    rcases (NextToken_inv pre fuel s s1 t hn hpre).2 with h | h
    · exact ⟨pre, h.2.1⟩
    · exact ⟨_, h.2.1⟩

/-! ### `Eof` is final -/

theorem NextToken_exhausted (fuel : Nat) (s : Lexer) (h1 : s.isit_ = [])
    (h2 : s.curent_indent_ = 0) (h3 : s.curent_tiken_id_ + 1 = s.tokens_.length) :
    NextToken fuel s
      = .ok (some Token.Eof, { s with curent_tiken_id_ := 0, tokens_ := [Token.Eof] }) := by
  obtain ⟨isit, cur, toks, id, lc⟩ := s
  simp only at h1 h2 h3
  subst h1 h2
  have hscan : ∀ f, scanLine f ⟨[], 0, [], 0, lc⟩ = .ok ⟨[], 0, [], 0, lc⟩ := by
    intro f
    cases f <;> simp [scanLine, inLine]
  have hparse : ParseString fuel ⟨[], 0, [], 0, lc⟩ = .ok (true, ⟨[], 0, [Token.Eof], 0, lc⟩) := by
    simp [ParseString, hscan, Outcome.bind, finishLine, closeIndents, Lexer.push]
  have hloop : parseLoop fuel fuel ⟨[], 0, [], 0, lc⟩ = .ok ⟨[], 0, [Token.Eof], 0, lc⟩ := by
    cases fuel <;> simp [parseLoop, hparse, Outcome.bind]
  simp only [NextToken, if_neg (by omega : ¬ id + 1 < toks.length), hloop, Outcome.bind,
    CurrentToken]
  rfl

theorem NextTokens_exhausted (fuel : Nat) : ∀ (k : Nat) (s : Lexer), s.isit_ = [] →
    s.curent_indent_ = 0 → s.curent_tiken_id_ + 1 = s.tokens_.length →
    CurrentToken s = some Token.Eof →
    ∃ s1, NextTokens fuel k s = .ok (List.replicate k (some Token.Eof), s1)
      ∧ CurrentToken s1 = some Token.Eof := by
  intro k
  induction k with
  | zero =>
    intro s _ _ _ h4
    exact ⟨s, rfl, h4⟩
  | succ k ih =>
    intro s h1 h2 h3 _
    obtain ⟨s1, hs1, hc1⟩ := ih { s with curent_tiken_id_ := 0, tokens_ := [Token.Eof] }
      h1 h2 rfl rfl
    refine ⟨s1, ?_, hc1⟩
    simp only [NextTokens, NextToken_exhausted fuel s h1 h2 h3, Outcome.bind, hs1,
      List.replicate_succ]

/-- C6. Once the current token of a lexer in use is `Eof`, every further call of `NextToken`
returns `Eof`, with any bound on the loop passes, and `CurrentToken` is `Eof` after each of
these calls: for every `k`, `k` consecutive calls return `k` times `Eof` and leave `Eof`
current. -/
theorem eof_is_final (s : Lexer) (hs : Reachable s) (he : CurrentToken s = some Token.Eof)
    (fuel k : Nat) :
    ∃ s1, NextTokens fuel k s = .ok (List.replicate k (some Token.Eof), s1)
      ∧ CurrentToken s1 = some Token.Eof := by
  obtain ⟨pre, -, -, -, h4⟩ := Reachable_inv s hs
  obtain ⟨h5, h6, h7⟩ := h4 s.curent_tiken_id_ he
  exact NextTokens_exhausted fuel k s h6 h7 h5 he

/-- Witness for C6: the empty input, three further calls without any fuel. -/
theorem eof_is_final_witness :
    ∃ s1, NextTokens 0 3 ⟨[], 0, [Token.Eof], 0, 0⟩
        = .ok ([some Token.Eof, some Token.Eof, some Token.Eof], s1)
      ∧ CurrentToken s1 = some Token.Eof :=
  eof_is_final ⟨[], 0, [Token.Eof], 0, 0⟩ (Reachable.new 0 [] _ rfl) rfl 0 3

/-! ### Balance of `Indent` and `Dedent` -/

theorem readAll_inv (fuel : Nat) : ∀ (n : Nat) (s : Lexer) (pre ts : List Token),
    BufInv pre s → readAll fuel n s = .ok ts →
    depthOK 0 (pre ++ s.tokens_.take s.curent_tiken_id_ ++ ts) ∧
    depthAfter 0 (pre ++ s.tokens_.take s.curent_tiken_id_ ++ ts) = 0 := by
  intro n
  induction n with
  | zero => intro s pre ts _ h; cases h
  | succ n ih =>
    intro s pre ts hb h
    obtain ⟨h1, h2, h3, h4⟩ := hb
    have hget : s.tokens_[s.curent_tiken_id_]? = some s.tokens_[s.curent_tiken_id_] :=
      List.getElem?_eq_getElem h3
    have htake : s.tokens_.take (s.curent_tiken_id_ + 1)
        = s.tokens_.take s.curent_tiken_id_ ++ [s.tokens_[s.curent_tiken_id_]] := by
      rw [List.take_succ, hget]
      rfl
    unfold readAll at h
    simp only [CurrentToken, hget] at h
    by_cases hEof : s.tokens_[s.curent_tiken_id_] = Token.Eof
    · rw [hEof] at h hget htake
      simp only [Outcome.ok.injEq] at h
      subst h
      obtain ⟨h5, -, h7⟩ := h4 _ hget
      have hall : s.tokens_.take s.curent_tiken_id_ ++ [Token.Eof] = s.tokens_ := by
        rw [← htake, h5, List.take_length]
      rw [List.append_assoc, hall]
      exact ⟨h2, by omega⟩
    · have hstep : (NextToken fuel s).bind (fun r => (readAll fuel n r.2).bind
          (fun ts1 => .ok (s.tokens_[s.curent_tiken_id_] :: ts1))) = .ok ts := by
        revert h hEof
        generalize s.tokens_[s.curent_tiken_id_] = t
        intro h hEof
        cases t <;> first | exact h | exact absurd rfl hEof
      cases hn : NextToken fuel s with
      | error e => rw [hn] at hstep; cases hstep
      | outOfFuel => rw [hn] at hstep; cases hstep
      | ok r =>
        rw [hn] at hstep
        simp only [Outcome.bind] at hstep
        cases hr : readAll fuel n r.2 with
        | error e => rw [hr] at hstep; cases hstep
        | outOfFuel => rw [hr] at hstep; cases hstep
        | ok ts1 =>
          rw [hr] at hstep
          simp only [Outcome.ok.injEq] at hstep
          subst hstep
          rcases (NextToken_inv pre fuel s r.2 r.1 hn ⟨h1, h2, h3, h4⟩).2 with
            ⟨_, hb1, ht1, hi1⟩ | ⟨hlast, hb1, hi1⟩
          · have := ih r.2 pre ts1 hb1 hr
            rw [ht1, hi1, htake] at this
            simp only [List.append_assoc, List.singleton_append] at this ⊢
            exact this
          · have := ih r.2 (pre ++ s.tokens_) ts1 hb1 hr
            rw [hi1, List.take_zero, List.append_nil] at this
            have hall : s.tokens_.take s.curent_tiken_id_ ++ [s.tokens_[s.curent_tiken_id_]]
                = s.tokens_ := by
              rw [← htake, hlast, List.take_length]
            rw [← hall] at this
            simp only [List.append_assoc, List.singleton_append] at this ⊢
            exact this

end parse

/-! ## The token stream of properly indented lines -/

namespace parse

theorem lexemeStep_word (c : Char) (cs rest : List Char) (cur : Int) (toks : List Token)
    (id lc : Nat) (hc : idChar c true = true) (hcs : ∀ x ∈ cs, idChar x false = true)
    (hr : ∀ d, rest.head? = some d → idChar d false = false) :
    lexemeStep ⟨c :: cs ++ rest, cur, toks, id, lc⟩
      = .ok ⟨rest, cur, toks ++ [keywordOrId (String.mk (c :: cs))], id, lc⟩ := by
  have hw := ExpectIdKeyWord_word ⟨c :: cs ++ rest, cur, toks, id, lc⟩ c cs rest hc hcs hr rfl
  have h3 : c ≠ '"' := idChar_first_ne c '"' hc (by decide)
  have h4 : c ≠ '\'' := idChar_first_ne c '\'' hc (by decide)
  simp only [lexemeStep, Lexer.peek, List.cons_append, List.head?_cons, Option.some.injEq, h3,
    h4, or_self, if_false]
  rw [List.cons_append] at hw
  rw [hw]
  rfl

/-- The passes of the loop of `ParseString` over a line: the tokens of the indentation, then
the word. -/
theorem scanLine_wordLine (c : Nat) (l : WordLine) (rest : List Char) (lc fuel : Nat)
    (hfirst : idChar l.first true = true) (hothers : ∀ x ∈ l.others, idChar x false = true)
    (hlevel : l.level ≤ c + 1) :
    scanLine (fuel + 2) ⟨l.text ++ rest, 2 * (c : Int), [], 0, lc⟩
      = .ok ⟨'\n' :: rest, 2 * (l.level : Int),
          indentTokens c l.level ++ [keywordOrId (String.mk l.word)], 0, lc⟩ := by
  have hsp : l.first ≠ ' ' := idChar_first_ne _ ' ' hfirst (by decide)
  have hcm : l.first ≠ '#' := idChar_first_ne _ '#' hfirst (by decide)
  have hnl : l.first ≠ '\n' := idChar_first_ne _ '\n' hfirst (by decide)
  have hr : ∀ d, ('\n' :: rest).head? = some d → idChar d false = false := by
    intro d hd
    simp only [List.head?_cons, Option.some.injEq] at hd
    rw [← hd]
    decide
  have htext : l.text ++ rest
      = List.replicate (2 * l.level) ' ' ++ (l.first :: l.others ++ '\n' :: rest) := by
    simp [WordLine.text, WordLine.word]
  have hhead : (l.first :: l.others ++ '\n' :: rest).head? ≠ some ' ' := by
    simpa using hsp
  have hhead2 : (l.first :: l.others ++ '\n' :: rest).head? ≠ some '#' := by
    simpa using hcm
  have hword : ∀ (cur : Int) (toks : List Token),
      lexemeStep ⟨l.first :: l.others ++ '\n' :: rest, cur, toks, 0, lc⟩
        = .ok ⟨'\n' :: rest, cur, toks ++ [keywordOrId (String.mk l.word)], 0, lc⟩ :=
    fun cur toks => lexemeStep_word l.first l.others ('\n' :: rest) cur toks 0 lc hfirst
      hothers hr
  have hdone : ∀ (f : Nat) (cur : Int) (toks : List Token),
      scanLine f ⟨'\n' :: rest, cur, toks, 0, lc⟩ = .ok ⟨'\n' :: rest, cur, toks, 0, lc⟩ := by
    intro f cur toks
    cases f <;> simp [scanLine, inLine]
  have hC : ExpectComment ⟨l.text ++ rest, 2 * (c : Int), [], 0, lc⟩
      = (false, ⟨l.text ++ rest, 2 * (c : Int), [], 0, lc⟩) := by
    rw [htext]
    exact if_neg (head_spaces_ne _ _ '#' (by decide) hhead2)
  have hI := ExpectIndent_spaces ⟨l.text ++ rest, 2 * (c : Int), [], 0, lc⟩ (2 * l.level)
    (l.first :: l.others ++ '\n' :: rest) htext hhead
  have hin1 : inLine ⟨l.text ++ rest, 2 * (c : Int), [], 0, lc⟩ = true := by
    rw [htext]
    cases hk : 2 * l.level with
    | zero => simpa [inLine] using hnl
    | succ m => simp [inLine, List.replicate_succ]
  have hin2 : ∀ (cur : Int) (toks : List Token),
      inLine ⟨l.first :: l.others ++ '\n' :: rest, cur, toks, 0, lc⟩ = true := by
    intro cur toks
    simpa [inLine] using hnl
  rw [scanLine, if_pos hin1]
  by_cases hsame : l.level = c
  · -- the line stays at the level: one pass reads the word
    have hstep : lineStep ⟨l.text ++ rest, 2 * (c : Int), [], 0, lc⟩
        = .ok ⟨'\n' :: rest, 2 * (c : Int), [keywordOrId (String.mk l.word)], 0, lc⟩ := by
      have hI1 : ExpectIndent ⟨l.text ++ rest, 2 * (c : Int), [], 0, lc⟩
          = (false, ⟨l.first :: l.others ++ '\n' :: rest, 2 * (c : Int), [], 0, lc⟩) := by
        rw [hI, if_pos (by simp only; omega)]
      have hS : SkipSpace ⟨l.first :: l.others ++ '\n' :: rest, 2 * (c : Int), [], 0, lc⟩
          = (false, ⟨l.first :: l.others ++ '\n' :: rest, 2 * (c : Int), [], 0, lc⟩) := by
        simp [SkipSpace, Lexer.peek, hsp, List.dropWhile_cons]
      simp only [lineStep, hC, hI1, hS, List.length_nil, if_true, Bool.false_eq_true, if_false]
      rw [hword]
      rfl
    rw [hstep]
    simp only [indentTokens, hsame, Nat.sub_self, List.replicate_zero, List.nil_append]
    rw [if_neg (by omega), hdone]
    rfl
  · -- the level changes: one pass for the indentation, one for the word
    have hstep : lineStep ⟨l.text ++ rest, 2 * (c : Int), [], 0, lc⟩
        = .ok ⟨l.first :: l.others ++ '\n' :: rest, 2 * (l.level : Int),
            indentTokens c l.level, 0, lc⟩ := by
      by_cases hup : l.level = c + 1
      · have hI1 : ExpectIndent ⟨l.text ++ rest, 2 * (c : Int), [], 0, lc⟩
            = (true, ⟨l.first :: l.others ++ '\n' :: rest, 2 * (l.level : Int),
                [Token.Indent], 0, lc⟩) := by
          rw [hI, if_neg (by simp only; omega), if_pos (by simp only; omega)]
          simp only [List.nil_append, Prod.mk.injEq, Lexer.mk.injEq, true_and, and_true]
          omega
        simp only [lineStep, hC, hI1, List.length_nil, if_true, Bool.false_eq_true, if_false,
          indentTokens, hup]
      · have hlt : l.level < c := by omega
        have hd : ((2 * l.level : Nat) : Int) - 2 * (c : Int) = -(2 * ((c - l.level : Nat) : Int)) := by
          omega
        have hI1 : ExpectIndent ⟨l.text ++ rest, 2 * (c : Int), [], 0, lc⟩
            = (true, ⟨l.first :: l.others ++ '\n' :: rest, 2 * (l.level : Int),
                List.replicate (c - l.level) Token.Dedent, 0, lc⟩) := by
          rw [hI, if_neg (by simp only; omega), if_neg (by simp only; omega),
            if_pos ⟨by simp only; omega, (tmod_two_eq_zero_iff _).2 (by simp only; omega)⟩]
          simp only
          rw [hd, dedentLoop_eq _ _ _ (by omega)]
          simp
        simp only [lineStep, hC, hI1, List.length_nil, if_true, Bool.false_eq_true, if_false,
          indentTokens, hup]
    have hne : indentTokens c l.level ≠ [] := by
      unfold indentTokens
      split
      · simp
      · have : 0 < c - l.level := by omega
        intro h
        have := congrArg List.length h
        simp at this
        omega
    rw [hstep]
    simp only
    rw [scanLine, if_pos (hin2 _ _),
      lineStep_eq_lexemeStep _ l.first (l.others ++ '\n' :: rest) rfl hcm hsp (Or.inl hne),
      hword]
    simp only
    rw [hdone]

theorem ParseString_wordLine (c : Nat) (l : WordLine) (rest : List Char) (lc fuel : Nat)
    (hfirst : idChar l.first true = true) (hothers : ∀ x ∈ l.others, idChar x false = true)
    (hlevel : l.level ≤ c + 1) :
    ParseString (fuel + 2) ⟨l.text ++ rest, 2 * (c : Int), [], 0, lc⟩
      = .ok (true, ⟨rest, 2 * (l.level : Int),
          indentTokens c l.level ++ [keywordOrId (String.mk l.word), Token.Newline], 0,
          lc + 1⟩) := by
  simp only [ParseString, scanLine_wordLine c l rest lc fuel hfirst hothers hlevel,
    Outcome.bind, finishLine, if_true, List.length_append, List.length_singleton, gt_iff_lt,
    Nat.lt_add_left_iff_pos, Nat.lt_one_iff, pos_of_gt, Nat.zero_lt_succ, Lexer.push,
    Lexer.advance, List.tail_cons, List.append_assoc, List.singleton_append]

theorem ParseString_end (c lc fuel : Nat) (h : c = 0 ∨ 0 < lc) :
    ParseString fuel ⟨[], 2 * (c : Int), [], 0, lc⟩
      = .ok (true, ⟨[], 0, List.replicate c Token.Dedent ++ [Token.Eof], 0, lc⟩) := by
  have hscan : scanLine fuel ⟨[], 2 * (c : Int), [], 0, lc⟩
      = .ok ⟨[], 2 * (c : Int), [], 0, lc⟩ := by
    cases fuel <;> simp [scanLine, inLine]
  have hclose := closeIndents_eq c (2 * (c : Int)).toNat ⟨[], 2 * (c : Int), [], 0, lc⟩ rfl
    (by omega)
  simp only [List.nil_append] at hclose
  simp only [ParseString, hscan, Outcome.bind, finishLine, hclose, Lexer.push]
  rcases h with h | h
  · subst h
    simp
  · have : ¬ lc = 0 := by omega
    simp [this]

theorem parseLoop_of_true (fuel n : Nat) (s s1 : Lexer)
    (h : ParseString fuel s = .ok (true, s1)) : parseLoop fuel n s = .ok s1 := by
  cases n <;> simp [parseLoop, h, Outcome.bind]

theorem readAll_step (fuel n : Nat) (s : Lexer) (t : Token) (h : CurrentToken s = some t)
    (ht : t ≠ Token.Eof) :
    readAll fuel (n + 1) s
      = (NextToken fuel s).bind (fun r =>
          (readAll fuel n r.2).bind (fun ts => .ok (t :: ts))) := by
  conv_lhs => unfold readAll
  rw [h]
  cases t
  case Eof => exact absurd rfl ht
  all_goals rfl

theorem readAll_eof (fuel n : Nat) (s : Lexer) (h : CurrentToken s = some Token.Eof) :
    readAll fuel (n + 1) s = .ok [Token.Eof] := by
  unfold readAll
  rw [h]

theorem Outcome.ok_bind {α β : Type} (a : α) (f : α → Outcome β) :
    (Outcome.ok a).bind f = f a :=
  rfl

/-- Reading the rest of a buffer without `Eof`, then the lines behind it. -/
theorem readAll_buffer (fuel : Nat) (isit : List Char) (cur : Int) (toks : List Token)
    (lc n : Nat) (hno : Token.Eof ∉ toks) :
    ∀ (k i : Nat), i + k + 1 = toks.length →
      readAll fuel (n + k + 1) ⟨isit, cur, toks, i, lc⟩
        = ((parseLoop fuel fuel ⟨isit, cur, [], 0, lc⟩).bind (readAll fuel n)).bind
            (fun ts => .ok (toks.drop i ++ ts)) := by
  intro k
  induction k with
  | zero =>
    intro i hi
    have hlt : i < toks.length := by omega
    have hget : CurrentToken ⟨isit, cur, toks, i, lc⟩ = some toks[i] :=
      List.getElem?_eq_getElem hlt
    have hne : toks[i] ≠ Token.Eof := fun h => hno (h ▸ List.getElem_mem _)
    have hdrop : toks.drop i = [toks[i]] := by
      rw [List.drop_eq_getElem_cons hlt, List.drop_of_length_le (by omega)]
    rw [readAll_step fuel n ⟨isit, cur, toks, i, lc⟩ toks[i] hget hne, hdrop]
    simp only [NextToken, if_neg (by omega : ¬ i + 1 < toks.length)]
    generalize parseLoop fuel fuel ⟨isit, cur, [], 0, lc⟩ = X
    cases X <;> rfl
  | succ k ih =>
    intro i hi
    have hlt : i < toks.length := by omega
    have hget : CurrentToken ⟨isit, cur, toks, i, lc⟩ = some toks[i] :=
      List.getElem?_eq_getElem hlt
    have hne : toks[i] ≠ Token.Eof := fun h => hno (h ▸ List.getElem_mem _)
    have hdrop : toks.drop i = toks[i] :: toks.drop (i + 1) := List.drop_eq_getElem_cons hlt
    rw [show n + (k + 1) + 1 = (n + k + 1) + 1 by omega,
      readAll_step fuel (n + k + 1) ⟨isit, cur, toks, i, lc⟩ toks[i] hget hne, hdrop]
    simp only [NextToken, if_pos (by omega : i + 1 < toks.length), Outcome.ok_bind]
    rw [ih (i + 1) (by omega)]
    generalize (parseLoop fuel fuel ⟨isit, cur, [], 0, lc⟩).bind (readAll fuel n) = X
    cases X <;> rfl

/-- Reading the rest of the last buffer, which ends with `Eof`. -/
theorem readAll_last (fuel : Nat) (isit : List Char) (cur : Int) (toks : List Token)
    (lc n : Nat) (hno : Token.Eof ∉ toks) :
    ∀ (k i : Nat), i + k = toks.length →
      readAll fuel (n + k + 1) ⟨isit, cur, toks ++ [Token.Eof], i, lc⟩
        = .ok (toks.drop i ++ [Token.Eof]) := by
  intro k
  induction k with
  | zero =>
    intro i hi
    have hget : CurrentToken ⟨isit, cur, toks ++ [Token.Eof], i, lc⟩ = some Token.Eof := by
      simp only [CurrentToken]
      rw [List.getElem?_append_right (by omega)]
      simp [show i - toks.length = 0 by omega]
    rw [readAll_eof fuel n _ hget, List.drop_of_length_le (by omega)]
    rfl
  | succ k ih =>
    intro i hi
    have hlt : i < toks.length := by omega
    have hget : CurrentToken ⟨isit, cur, toks ++ [Token.Eof], i, lc⟩ = some toks[i] := by
      simp only [CurrentToken]
      rw [List.getElem?_append_left hlt]
      exact List.getElem?_eq_getElem hlt
    have hne : toks[i] ≠ Token.Eof := fun h => hno (h ▸ List.getElem_mem _)
    have hdrop : toks.drop i = toks[i] :: toks.drop (i + 1) := List.drop_eq_getElem_cons hlt
    rw [show n + (k + 1) + 1 = (n + k + 1) + 1 by omega,
      readAll_step fuel (n + k + 1) ⟨isit, cur, toks ++ [Token.Eof], i, lc⟩ toks[i] hget hne,
      hdrop]
    simp only [NextToken, List.length_append, List.length_singleton,
      if_pos (by omega : i + 1 < toks.length + 1), Outcome.ok_bind]
    rw [ih (i + 1) (by omega)]
    rfl

theorem indentTokens_no_eof (c k : Nat) : Token.Eof ∉ indentTokens c k := by
  unfold indentTokens
  split
  · simp
  · simp only [List.mem_replicate, not_and]
    intro _ h
    cases h

theorem indentTokens_length (c k : Nat) : (indentTokens c k).length ≤ c + 1 := by
  unfold indentTokens
  split
  · simp
  · simp only [List.length_replicate]
    omega

/-- The stream read from the start of properly indented lines. -/
theorem readAll_lines (fuel : Nat) : ∀ (lines : List WordLine) (c lc n : Nat),
    ProperLines c lines → (c = 0 ∨ 0 < lc) → (streamOf c lines).length ≤ n →
    (parseLoop (fuel + 2) (fuel + 2) ⟨renderLines lines, 2 * (c : Int), [], 0, lc⟩).bind
        (readAll (fuel + 2) n)
      = .ok (streamOf c lines) := by
  intro lines
  induction lines with
  | nil =>
    intro c lc n _ h hn
    simp only [streamOf, List.length_append, List.length_replicate, List.length_singleton] at hn
    obtain ⟨m, hm⟩ : ∃ m, n = m + c + 1 := ⟨n - (c + 1), by omega⟩
    have hno : Token.Eof ∉ List.replicate c Token.Dedent := by
      simp only [List.mem_replicate, not_and]
      intro _ h
      cases h
    rw [renderLines, parseLoop_of_true _ _ _ _ (ParseString_end c lc (fuel + 2) h),
      Outcome.ok_bind, hm,
      readAll_last (fuel + 2) [] 0 (List.replicate c Token.Dedent) lc m hno c 0 (by simp)]
    rfl
  | cons l ls ih =>
    intro c lc n hp h hn
    obtain ⟨hfirst, hothers, hlevel, hrest⟩ := hp
    have hno : Token.Eof ∉ indentTokens c l.level
        ++ [keywordOrId (String.mk l.word), Token.Newline] := by
      simp only [List.mem_append, List.mem_cons, List.mem_singleton, List.not_mem_nil,
        or_false, not_or]
      exact ⟨indentTokens_no_eof c l.level,
        fun h => (keywordOrId_neutral _).2 h.symm, by decide⟩
    simp only [streamOf, List.length_append, List.length_cons, List.length_nil] at hn
    obtain ⟨m, hm⟩ : ∃ m, n = m + ((indentTokens c l.level).length + 1) + 1 :=
      ⟨n - ((indentTokens c l.level).length + 2), by omega⟩
    have hm2 : (streamOf l.level ls).length ≤ m := by omega
    rw [renderLines,
      parseLoop_of_true _ _ _ _ (ParseString_wordLine c l (renderLines ls) lc fuel hfirst
        hothers hlevel),
      Outcome.ok_bind, hm,
      readAll_buffer (fuel + 2) (renderLines ls) (2 * (l.level : Int)) _ (lc + 1) m hno
        ((indentTokens c l.level).length + 1) 0 (by simp),
      ih l.level (lc + 1) m hrest (Or.inr (by omega)) hm2]
    simp [Outcome.bind, streamOf]

/-- Properly indented lines are lexed into the stream `streamOf`: the tokens of each line's
indentation, its word and `Newline`, at the end the `Dedent` tokens that close the open
blocks, and `Eof`. -/
theorem tokenize_lines (lines : List WordLine) (h : ProperLines 0 lines) (fuel : Nat)
    (hfuel : (streamOf 0 lines).length + 2 ≤ fuel) :
    tokenize fuel (renderLines lines) = .ok (streamOf 0 lines) := by
  obtain ⟨f, hf⟩ : ∃ f, fuel = f + 2 := ⟨fuel - 2, by omega⟩
  subst hf
  have hread := readAll_lines f lines 0 0 (f + 2) h (Or.inl rfl) (by omega)
  simp only [tokenize, Lexer.new, NextToken, List.length_nil, Nat.not_lt_zero, if_false]
  simp only [Nat.cast_zero, mul_zero] at hread
  generalize parseLoop (f + 2) (f + 2) ⟨renderLines lines, 0, [], 0, 0⟩ = X at hread ⊢
  cases X with
  | ok s1 => exact hread
  | error e => cases hread
  | outOfFuel => cases hread

/-- C2. For any sequence of properly indented lines the lexer produces a complete token
stream, and in the complete token stream of an input, up to and including `Eof`, there are
as many `Dedent` as `Indent` tokens, while no prefix of the stream holds more `Dedent` than
`Indent` tokens. The first part is shown for lines that carry one word each, with the stream
spelled out; the second for every input that the lexer turns into a stream, whatever its
lines carry. -/
theorem indent_dedent_balance :
    (∀ (lines : List WordLine), ProperLines 0 lines →
      ∀ fuel, (streamOf 0 lines).length + 2 ≤ fuel →
        tokenize fuel (renderLines lines) = .ok (streamOf 0 lines)) ∧
    (∀ (fuel : Nat) (input : List Char) (ts : List Token), tokenize fuel input = .ok ts →
      ts.count Token.Dedent = ts.count Token.Indent ∧
      ∀ k, (ts.take k).count Token.Dedent ≤ (ts.take k).count Token.Indent) := by
  refine ⟨tokenize_lines, ?_⟩
  intro fuel input ts h
  unfold tokenize at h
  cases hnew : Lexer.new fuel input with
  | error e => rw [hnew] at h; cases h
  | outOfFuel => rw [hnew] at h; cases h
  | ok s =>
    rw [hnew] at h
    simp only [Outcome.bind] at h
    obtain ⟨hb, hid⟩ := Lexer.new_inv fuel input s hnew
    have := readAll_inv fuel fuel s [] ts hb h
    rw [hid, List.take_zero] at this
    simp only [List.nil_append] at this
    obtain ⟨hok, hzero⟩ := this
    constructor
    · have := depthAfter_count 0 ts
      omega
    · intro k
      have h1 := depthOK_take 0 ts hok k
      have h2 := depthAfter_count 0 (ts.take k)
      omega

/-- Witness for C2: the lines `a`, `  b`, `    c`, `d` are lexed into a balanced stream, and
the stream of three nested lines with further tokens is balanced. -/
theorem indent_dedent_balance_witness :
    tokenize 100 "a\n  b\n    c\nd\n".toList
      = .ok [Token.Id "a", Token.Newline, Token.Indent, Token.Id "b", Token.Newline,
          Token.Indent, Token.Id "c", Token.Newline, Token.Dedent, Token.Dedent,
          Token.Id "d", Token.Newline, Token.Eof] ∧
    [Token.If, Token.Id "x", Token.Char ':', Token.Newline, Token.Indent, Token.Id "y",
      Token.Newline, Token.Indent, Token.Id "z", Token.Newline, Token.Dedent, Token.Dedent,
      Token.Id "w", Token.Newline, Token.Eof].count Token.Dedent
    = [Token.If, Token.Id "x", Token.Char ':', Token.Newline, Token.Indent, Token.Id "y",
      Token.Newline, Token.Indent, Token.Id "z", Token.Newline, Token.Dedent, Token.Dedent,
      Token.Id "w", Token.Newline, Token.Eof].count Token.Indent :=
  ⟨indent_dedent_balance.1 [⟨0, 'a', []⟩, ⟨1, 'b', []⟩, ⟨2, 'c', []⟩, ⟨0, 'd', []⟩]
      ⟨by decide, by decide, by decide, by decide, by decide, by decide, by decide, by decide,
        by decide, by decide, by decide, by decide, trivial⟩ 100 (by decide),
   (indent_dedent_balance.2 100 "if x:\n  y\n    z\nw\n".toList _ (by decide)).1⟩

end parse


/-! ## A character that starts no lexeme -/

namespace parse

theorem isAlpha_iff (c : Char) :
    c.isAlpha = true ↔ (65 ≤ c.toNat ∧ c.toNat ≤ 90) ∨ (97 ≤ c.toNat ∧ c.toNat ≤ 122) := by
  simp [Char.isAlpha, Char.isUpper, Char.isLower, Char.toNat, UInt32.le_def, BitVec.le_def,
    UInt32.toNat]

/-- What `startsLexeme c = false` says to each probe of the loop. -/
theorem startsLexeme_false (c : Char) (hc : startsLexeme c = false) :
    c ≠ ' ' ∧ c ≠ '\n' ∧ c ≠ '"' ∧ c ≠ '\'' ∧ c ≠ '#' ∧ idChar c true = false ∧
      c.isDigit = false ∧ c ∉ equals_ ∧ c ∉ chars_ := by
  simp only [startsLexeme, Bool.or_eq_false_iff, beq_eq_false_iff_ne, ne_eq,
    List.contains_eq_any_beq, List.any_cons, List.any_nil, Bool.or_false] at hc
  obtain ⟨⟨⟨⟨⟨⟨⟨⟨h1, h2⟩, h3⟩, h4⟩, h5⟩, h6⟩, h7⟩, h8⟩, h9⟩ := hc
  refine ⟨h1, h2, h3, h4, h5, ?_, h8, ?_, ?_⟩
  · have h6n : ¬ (c.isAlpha = true) := by rw [h6]; exact Bool.false_ne_true
    rw [isAlpha_iff] at h6n
    rw [char_eq_iff] at h7
    have hu : '_'.toNat = 95 := rfl
    simp only [idChar, Bool.not_true, Bool.false_and, Bool.or_false, Bool.or_eq_false_iff,
      Bool.and_eq_false_iff, decide_eq_false_iff_not, char_le_iff, beq_eq_false_iff_ne, ne_eq,
      char_eq_iff]
    have ha : 'a'.toNat = 97 := rfl
    have hz : 'z'.toNat = 122 := rfl
    have hA : 'A'.toNat = 65 := rfl
    have hZ : 'Z'.toNat = 90 := rfl
    rw [ha, hz, hA, hZ, hu]
    rw [hu] at h7
    omega
  · simp only [equals_, List.mem_cons, List.mem_singleton, List.not_mem_nil, or_false]
    rintro (h | h | h | h) <;> subst h <;> simp at h9
  · simp only [chars_, List.mem_cons, List.mem_singleton, List.not_mem_nil, or_false]
    rintro (h | h | h | h | h | h | h | h | h | h) <;> subst h <;> simp at h9

/-- At a character that is not a space the indentation probe leaves the stream where it is. -/
theorem ExpectIndent_isit (s : Lexer) (c : Char) (rest : List Char) (hin : s.isit_ = c :: rest)
    (hc : c ≠ ' ') :
    (ExpectIndent s).2.isit_ = c :: rest ∧ ((ExpectIndent s).1 = false → (ExpectIndent s).2 = s) := by
  obtain ⟨isit, cur, toks, id, lc⟩ := s
  simp only at hin
  subst hin
  have hb : (c == ' ') = false := by simpa using hc
  unfold ExpectIndent
  simp only [List.takeWhile_cons, List.dropWhile_cons, hb, Bool.false_eq_true, if_false,
    List.length_nil]
  split_ifs <;> simp

/-- The lexeme probes at a character that starts no lexeme: none matches, nothing is read. -/
theorem lexemeStep_stuck (s : Lexer) (c : Char) (rest : List Char) (hin : s.isit_ = c :: rest)
    (hc : startsLexeme c = false) : lexemeStep s = .ok s := by
  obtain ⟨h1, h2, h3, h4, h5, h6, h7, h8, h9⟩ := startsLexeme_false c hc
  obtain ⟨isit, cur, toks, id, lc⟩ := s
  simp only at hin
  subst hin
  have hw : ExpectIdKeyWord ⟨c :: rest, cur, toks, id, lc⟩ = (false, ⟨c :: rest, cur, toks, id, lc⟩) := by
    simp [ExpectIdKeyWord, readIdChars, h6, ExpectKeyWord, keyword_, List.lookup]
  have hch : ExpectChars ⟨c :: rest, cur, toks, id, lc⟩ = .ok (false, ⟨c :: rest, cur, toks, id, lc⟩) := by
    simp [ExpectChars, Lexer.peek, h8, h9]
  have hn : ExpectNums ⟨c :: rest, cur, toks, id, lc⟩ = (false, ⟨c :: rest, cur, toks, id, lc⟩) := by
    simp [ExpectNums, List.takeWhile_cons, List.dropWhile_cons, h7, stoi]
  simp only [lexemeStep, Lexer.peek, List.head?_cons, Option.some.injEq, h3, h4, or_self,
    if_false, hw, hch, hn, Bool.false_eq_true]

/-- One pass of the loop at a character that starts no lexeme leaves the stream where it
is. -/
theorem lineStep_stuck (s : Lexer) (c : Char) (rest : List Char) (hin : s.isit_ = c :: rest)
    (hc : startsLexeme c = false) : ∃ s1, lineStep s = .ok s1 ∧ s1.isit_ = c :: rest := by
  obtain ⟨h1, h2, h3, h4, h5, h6, h7, h8, h9⟩ := startsLexeme_false c hc
  have hC : ExpectComment s = (false, s) := by
    simp [ExpectComment, Lexer.peek, hin, h5]
  have hS : ∀ t : Lexer, t.isit_ = c :: rest → SkipSpace t = (false, t) := by
    intro t ht
    obtain ⟨isit, cur, toks, id, lc⟩ := t
    simp only at ht
    subst ht
    have hb : (c == ' ') = false := by simpa using h1
    simp [SkipSpace, Lexer.peek, List.dropWhile_cons, hb, h1]
  obtain ⟨hI1, hI2⟩ := ExpectIndent_isit s c rest hin h1
  unfold lineStep
  simp only [hC, Bool.false_eq_true, if_false]
  by_cases ht : s.tokens_.length = 0
  · simp only [ht, if_true]
    by_cases hi : (ExpectIndent s).1 = true
    · exact ⟨(ExpectIndent s).2, by simp [hi], hI1⟩
    · have hi2 : (ExpectIndent s).1 = false := by simpa using hi
      rw [hI2 hi2]
      simp only [hi2, Bool.false_eq_true, if_false, hS s hin]
      exact ⟨s, lexemeStep_stuck s c rest hin hc, hin⟩
  · simp only [ht, if_false, Bool.false_eq_true, hS s hin]
    exact ⟨s, lexemeStep_stuck s c rest hin hc, hin⟩

/-- The loop of `ParseString` at a character that starts no lexeme never ends. -/
theorem scanLine_stuck (c : Char) (rest : List Char) (hc : startsLexeme c = false) :
    ∀ (fuel : Nat) (s : Lexer), s.isit_ = c :: rest → scanLine fuel s = .outOfFuel := by
  obtain ⟨h1, h2, _⟩ := startsLexeme_false c hc
  intro fuel
  induction fuel with
  | zero =>
    intro s hin
    simp [scanLine, inLine, hin, h2]
  | succ fuel ih =>
    intro s hin
    obtain ⟨s1, hs1, hin1⟩ := lineStep_stuck s c rest hin hc
    simp [scanLine, inLine, hin, h2, hs1, ih s1 hin1]

/-- A pass that is made while the line goes on does not help a loop that never ends. -/
theorem scanLine_stuck_step (s s1 : Lexer) (hl : inLine s = true) (hs : lineStep s = .ok s1)
    (h : ∀ fuel, scanLine fuel s1 = .outOfFuel) : ∀ fuel, scanLine fuel s = .outOfFuel := by
  intro fuel
  cases fuel with
  | zero => simp [scanLine, hl]
  | succ fuel => simp [scanLine, hl, hs, h fuel]

/-- The constructor of the lexer does not return when the loop of the first line never
ends. -/
theorem tokenize_stuck (input : List Char)
    (h : ∀ fuel, scanLine fuel ⟨input, 0, [], 0, 0⟩ = .outOfFuel) :
    ∀ fuel, tokenize fuel input = .outOfFuel := by
  intro fuel
  have hp : ParseString fuel ⟨input, 0, [], 0, 0⟩ = .outOfFuel := by
    simp [ParseString, h fuel, Outcome.bind]
  have hl : parseLoop fuel fuel ⟨input, 0, [], 0, 0⟩ = .outOfFuel := by
    cases fuel <;> simp [parseLoop, hp, Outcome.bind]
  simp [tokenize, Lexer.new, NextToken, hl, Outcome.bind]

/-- C11, the code at inputs with a character that starts no lexeme: the lexer raises no
`LexerError`, it does not return at all. Whatever bound is put on its loops, the loop of
`ParseString` is still running when the bound is reached: every probe reports no match and
reads nothing, so the next pass starts at the same character. That holds in every state of
the lexer in front of such a character, for every input that begins with one, and for the
inputs `x = 1 @` and a line of one tab. -/
theorem unrecognised_character_hangs :
    (∀ (s : Lexer) (c : Char) (rest : List Char), s.isit_ = c :: rest → startsLexeme c = false →
      ∀ fuel, ParseString fuel s = .outOfFuel) ∧
    (∀ (c : Char) (rest : List Char), startsLexeme c = false →
      ∀ fuel, tokenize fuel (c :: rest) = .outOfFuel) ∧
    (∀ fuel, tokenize fuel "x = 1 @\n".toList = .outOfFuel) ∧
    (∀ fuel, tokenize fuel "\t\n".toList = .outOfFuel) := by
  refine ⟨?_, ?_, ?_, ?_⟩
  · intro s c rest hin hc fuel
    simp [ParseString, scanLine_stuck c rest hc fuel s hin, Outcome.bind]
  · intro c rest hc
    exact tokenize_stuck _ (fun fuel => scanLine_stuck c rest hc fuel _ rfl)
  · apply tokenize_stuck
    apply scanLine_stuck_step _ ⟨" = 1 @\n".toList, 0, [Token.Id "x"], 0, 0⟩ (by decide) (by rfl)
    apply scanLine_stuck_step _ ⟨"= 1 @\n".toList, 0, [Token.Id "x"], 0, 0⟩ (by decide) (by rfl)
    apply scanLine_stuck_step _ ⟨" 1 @\n".toList, 0, [Token.Id "x", Token.Char '='], 0, 0⟩
      (by decide) (by rfl)
    apply scanLine_stuck_step _ ⟨"1 @\n".toList, 0, [Token.Id "x", Token.Char '='], 0, 0⟩
      (by decide) (by rfl)
    apply scanLine_stuck_step _
      ⟨" @\n".toList, 0, [Token.Id "x", Token.Char '=', Token.Number 1], 0, 0⟩
      (by decide) (by rfl)
    apply scanLine_stuck_step _
      ⟨"@\n".toList, 0, [Token.Id "x", Token.Char '=', Token.Number 1], 0, 0⟩
      (by decide) (by rfl)
    intro fuel
    exact scanLine_stuck '@' ['\n'] (by decide) fuel _ rfl
  · exact tokenize_stuck _ (fun fuel => scanLine_stuck '\t' ['\n'] (by decide) fuel _ rfl)

/-- The hanging of the lexer at the inputs `@` and `x = @`, whose first characters start no
lexeme in the state the lexer is in. -/
theorem unrecognised_character_hangs_witness :
    (∀ fuel, ParseString fuel ⟨"@\n".toList, 0, [Token.Id "x", Token.Char '='], 0, 0⟩
      = .outOfFuel) ∧
    (∀ fuel, tokenize fuel "@\n".toList = .outOfFuel) :=
  ⟨unrecognised_character_hangs.1 _ '@' ['\n'] rfl (by decide),
   unrecognised_character_hangs.2.1 '@' ['\n'] (by decide)⟩

end parse

/-! ## The end of the input -/

namespace parse

theorem FirstLineInv_of_eq (s s1 : Lexer) (h : FirstLineInv s) (ht : s1.tokens_ = s.tokens_)
    (hc : s1.curent_indent_ = s.curent_indent_) (hl : s1.line_count_ = s.line_count_) :
    FirstLineInv s1 := by
  unfold FirstLineInv at *
  rw [ht, hc, hl]
  exact h

theorem FirstLineInv_of_tokens (s1 : Lexer) (ht : s1.tokens_ ≠ []) : FirstLineInv s1 :=
  fun _ _ => ht

theorem dedentLoop_length (fuel : Nat) :
    ∀ (d : Int) (toks : List Token), toks.length ≤ (dedentLoop fuel d toks).length := by
  induction fuel with
  | zero =>
    intro d toks
    simp [dedentLoop]
  | succ fuel ih =>
    intro d toks
    rw [dedentLoop]
    split
    · have := ih (d + 2) (toks ++ [Token.Dedent])
      simp only [List.length_append, List.length_singleton] at this
      omega
    · exact Nat.le_refl _

theorem ExpectComment_first (s : Lexer) (h : FirstLineInv s) :
    FirstLineInv (ExpectComment s).2 := by
  unfold ExpectComment
  split
  · exact FirstLineInv_of_eq s _ h rfl rfl rfl
  · exact h

theorem SkipSpace_first (s : Lexer) (h : FirstLineInv s) : FirstLineInv (SkipSpace s).2 :=
  FirstLineInv_of_eq s _ h rfl rfl rfl

theorem ExpectIndent_first (s : Lexer) (h : FirstLineInv s) :
    FirstLineInv (ExpectIndent s).2 := by
  simp only [ExpectIndent]
  split_ifs with h0 h2 hneg
  · exact FirstLineInv_of_eq s _ h rfl rfl rfl
  · exact FirstLineInv_of_tokens _ (by simp)
  · apply FirstLineInv_of_tokens
    simp only
    obtain ⟨hlt, _⟩ := hneg
    obtain ⟨n, hn⟩ : ∃ n : Nat,
        (-((List.takeWhile (fun c => c == ' ') s.isit_).length - s.curent_indent_ : Int)).toNat
          = n + 1 := ⟨_, (Nat.succ_pred_eq_of_pos (by omega)).symm⟩
    rw [hn, dedentLoop, if_pos hlt]
    intro hnil
    have := dedentLoop_length n
      (((List.takeWhile (fun c => c == ' ') s.isit_).length : Int) - s.curent_indent_ + 2)
      (s.tokens_ ++ [Token.Dedent])
    rw [hnil] at this
    simp at this
  · exact FirstLineInv_of_eq s _ h rfl rfl rfl

theorem ExpectIdKeyWord_first (s : Lexer) (h : FirstLineInv s) :
    FirstLineInv (ExpectIdKeyWord s).2 := by
  unfold ExpectIdKeyWord
  simp only
  rcases ExpectKeyWord_eq (String.mk (readIdChars true s.isit_).1)
      { s with isit_ := (readIdChars true s.isit_).2 } with ⟨hk, _⟩ | ⟨hk, _⟩
  · rw [hk]
    simp only [Bool.not_true, Bool.false_and, Bool.false_eq_true, if_false]
    exact FirstLineInv_of_tokens _ (by simp [Lexer.push])
  · rw [hk]
    split
    · exact FirstLineInv_of_tokens _ (by simp [Lexer.push])
    · exact FirstLineInv_of_eq s _ h rfl rfl rfl

theorem ExpectChars_first (s : Lexer) (r : Bool × Lexer) (hr : ExpectChars s = .ok r)
    (h : FirstLineInv s) : FirstLineInv r.2 := by
  unfold ExpectChars at hr
  cases hp : s.peek with
  | none =>
    rw [hp] at hr
    cases hr
    exact h
  | some first =>
    rw [hp] at hr
    simp only at hr
    split_ifs at hr
    all_goals first
      | (cases hr; exact h)
      | (cases hr; exact FirstLineInv_of_tokens _ (by simp [Lexer.push, Lexer.advance]))

theorem ExpectNums_first (s : Lexer) (h : FirstLineInv s) : FirstLineInv (ExpectNums s).2 := by
  unfold ExpectNums
  simp only
  split
  · exact FirstLineInv_of_tokens _ (by simp [Lexer.push])
  · exact FirstLineInv_of_eq s _ h rfl rfl rfl

theorem ExpectString_first (s : Lexer) (r : Bool × Lexer) (hr : ExpectString s = .ok r)
    (_h : FirstLineInv s) : FirstLineInv r.2 := by
  unfold ExpectString at hr
  split at hr
  · cases hr
  · split at hr
    · cases hr
      exact FirstLineInv_of_tokens _ (by simp)
    · cases hr

theorem lexemeStep_first (s s1 : Lexer) (hs : lexemeStep s = .ok s1) (h : FirstLineInv s) :
    FirstLineInv s1 := by
  unfold lexemeStep at hs
  simp only at hs
  split at hs
  · cases hs
  · rename_i s2 heq
    cases hs
    split at heq
    · exact ExpectString_first s _ heq h
    · cases heq
  · rename_i s2 heq
    have h2 : FirstLineInv s2 := by
      split at heq
      · exact ExpectString_first s _ heq h
      · cases heq
        exact h
    have h3 := ExpectIdKeyWord_first s2 h2
    split at hs
    · cases hs
      exact h3
    · split at hs
      · cases hs
      · rename_i s3 heq3
        cases hs
        exact ExpectChars_first _ _ heq3 h3
      · rename_i s3 heq3
        cases hs
        exact ExpectNums_first _ (ExpectChars_first _ _ heq3 h3)

theorem lineStep_first (s s1 : Lexer) (hs : lineStep s = .ok s1) (h : FirstLineInv s) :
    FirstLineInv s1 := by
  have key : ∀ (c i sp : Bool × Lexer), FirstLineInv c.2 → FirstLineInv i.2 →
      FirstLineInv sp.2 →
      (if c.1 then .ok c.2 else if i.1 then .ok i.2 else if sp.1 then .ok sp.2
        else lexemeStep sp.2) = Except.ok s1 → FirstLineInv s1 := by
    intro c i sp hc hi hsp hk
    split_ifs at hk
    · cases hk
      exact hc
    · cases hk
      exact hi
    · cases hk
      exact hsp
    · exact lexemeStep_first _ _ hk hsp
  have hc := ExpectComment_first s h
  have hi : FirstLineInv (if (ExpectComment s).2.tokens_.length = 0
      then ExpectIndent (ExpectComment s).2 else (false, (ExpectComment s).2)).2 := by
    split
    · exact ExpectIndent_first _ hc
    · exact hc
  exact key _ _ _ hc hi (SkipSpace_first _ hi) hs

theorem scanLine_first : ∀ (fuel : Nat) (s s1 : Lexer),
    scanLine fuel s = .ok s1 → FirstLineInv s → FirstLineInv s1 ∧ inLine s1 = false := by
  intro fuel
  induction fuel with
  | zero =>
    intro s s1 hs h
    unfold scanLine at hs
    split at hs
    · cases hs
    · rename_i hin
      cases hs
      exact ⟨h, by simpa using hin⟩
  | succ fuel ih =>
    intro s s1 hs h
    unfold scanLine at hs
    split at hs
    · split at hs
      · rename_i s2 heq
        exact ih s2 s1 hs (lineStep_first s s2 heq h)
      · cases hs
    · rename_i hin
      cases hs
      exact ⟨h, by simpa using hin⟩

theorem AtLineStart.first (s : Lexer) (h : AtLineStart s) : FirstLineInv s := by
  intro hl hi
  have := h.2 hl
  omega

theorem closeIndents_level : ∀ (fuel : Nat) (s : Lexer), s.curent_indent_ ≤ 2 * (fuel : Int) →
    (closeIndents fuel s).curent_indent_ ≤ 0 ∧
      (closeIndents fuel s).line_count_ = s.line_count_ := by
  intro fuel
  induction fuel with
  | zero =>
    intro s h
    exact ⟨by simpa [closeIndents] using h, rfl⟩
  | succ fuel ih =>
    intro s h
    rw [closeIndents]
    split
    · have := ih { s with tokens_ := s.tokens_ ++ [Token.Dedent],
                          curent_indent_ := s.curent_indent_ - 2 }
        (by simp only; push_cast at h; omega)
      exact this
    · exact ⟨by omega, rfl⟩

/-- Behind a scanned line the level is 0 as long as no `Newline` has been emitted, and a line
that gave no token leaves the buffer empty. -/
theorem finishLine_level (s : Lexer) (hf : FirstLineInv s) (hin : inLine s = false) :
    ((finishLine s).2.line_count_ = 0 → (finishLine s).2.curent_indent_ ≤ 0) ∧
      ((finishLine s).1 = false → (finishLine s).2.tokens_ = []) := by
  obtain ⟨isit, cur, toks, id, lc⟩ := s
  cases isit with
  | nil =>
    have hc := closeIndents_level cur.toNat ⟨[], cur, toks, id, lc⟩ (by simp only; omega)
    simp only [finishLine]
    constructor
    · intro _
      split <;> simpa [Lexer.push] using hc.1
    · intro h
      cases h
  | cons ch rest =>
    have hch : ch = '\n' := by simpa [inLine] using hin
    subst hch
    simp only [finishLine, if_true]
    by_cases ht : toks.length > 0
    · simp only [ht, if_true]
      constructor
      · intro h
        simp [Lexer.push, Lexer.advance] at h
      · intro h
        cases h
    · simp only [ht, if_false]
      have hnil : toks = [] := by
        cases toks with
        | nil => rfl
        | cons t ts => simp at ht
      subst hnil
      constructor
      · intro hl
        simp only [Lexer.advance] at hl ⊢
        by_contra hpos
        exact hf hl (by simp only; omega) rfl
      · intro _
        rfl

theorem ParseString_level (fuel : Nat) (s : Lexer) (r : Bool × Lexer) (h : FirstLineInv s)
    (hr : ParseString fuel s = .ok r) :
    (r.2.line_count_ = 0 → r.2.curent_indent_ ≤ 0) ∧ (r.1 = false → r.2.tokens_ = []) := by
  unfold ParseString at hr
  cases hsc : scanLine fuel s with
  | error e => rw [hsc] at hr; cases hr
  | outOfFuel => rw [hsc] at hr; cases hr
  | ok s1 =>
    rw [hsc] at hr
    simp only [Outcome.bind, Outcome.ok.injEq] at hr
    obtain ⟨hf, hin⟩ := scanLine_first fuel s s1 hsc h
    rw [← hr]
    exact finishLine_level s1 hf hin

theorem parseLoop_level (fuel : Nat) : ∀ (n : Nat) (s s1 : Lexer), AtLineStart s →
    parseLoop fuel n s = .ok s1 → (s1.line_count_ = 0 → s1.curent_indent_ ≤ 0) := by
  intro n
  induction n with
  | zero =>
    intro s s1 h hp
    unfold parseLoop at hp
    cases hps : ParseString fuel s with
    | error e => rw [hps] at hp; cases hp
    | outOfFuel => rw [hps] at hp; cases hp
    | ok r =>
      rw [hps] at hp
      simp only [Outcome.bind] at hp
      split at hp
      · cases hp
        exact (ParseString_level fuel s r h.first hps).1
      · cases hp
  | succ n ih =>
    intro s s1 h hp
    unfold parseLoop at hp
    cases hps : ParseString fuel s with
    | error e => rw [hps] at hp; cases hp
    | outOfFuel => rw [hps] at hp; cases hp
    | ok r =>
      rw [hps] at hp
      simp only [Outcome.bind] at hp
      have hl := ParseString_level fuel s r h.first hps
      split at hp
      · cases hp
        exact hl.1
      · rename_i hfalse
        exact ih r.2 s1 ⟨hl.2 (by simpa using hfalse), hl.1⟩ hp

theorem NextToken_level (fuel : Nat) (s s1 : Lexer) (t : Option Token)
    (h : s.line_count_ = 0 → s.curent_indent_ ≤ 0) (hn : NextToken fuel s = .ok (t, s1)) :
    s1.line_count_ = 0 → s1.curent_indent_ ≤ 0 := by
  unfold NextToken at hn
  split at hn
  · cases hn
    exact h
  · cases hp : parseLoop fuel fuel { s with curent_tiken_id_ := 0, tokens_ := [] } with
    | error e => rw [hp] at hn; cases hn
    | outOfFuel => rw [hp] at hn; cases hn
    | ok s2 =>
      rw [hp] at hn
      simp only [Outcome.bind, Outcome.ok.injEq, Prod.mk.injEq] at hn
      rw [← hn.2]
      exact parseLoop_level fuel fuel { s with curent_tiken_id_ := 0, tokens_ := [] } s2
        ⟨rfl, h⟩ hp

/-- Between the calls of `NextToken` the level is 0 as long as no `Newline` has been
emitted. -/
theorem Reachable_level (s : Lexer) (h : Reachable s) :
    s.line_count_ = 0 → s.curent_indent_ ≤ 0 := by
  induction h with
  | new fuel input s hnew =>
    unfold Lexer.new at hnew
    cases hn : NextToken fuel ⟨input, 0, [], 0, 0⟩ with
    | error e => rw [hn] at hnew; cases hnew
    | outOfFuel => rw [hn] at hnew; cases hnew
    | ok r =>
      rw [hn] at hnew
      simp only [Outcome.bind, Outcome.ok.injEq] at hnew
      rw [← hnew]
      exact NextToken_level fuel _ r.2 r.1 (fun _ => Int.le_refl 0) hn
  | next fuel s t s1 _ hn ih => exact NextToken_level fuel s s1 t ih hn

/-- C29: what `ParseString` appends when the input ends. Called at the start of a line, with
the line scanned up to the end of the input at level `2k`, it appends to the tokens of the
line exactly `k` `Dedent`, then one `Newline` exactly when no `Newline` has been emitted so
far and the line has tokens, then one `Eof`, and reports a line. The states in which it is
called are starts of a line: the state of the constructor, the state `NextToken` makes of a
state between its calls, and the state a line without token leaves. -/
theorem end_of_input_tokens :
    (∀ (fuel : Nat) (s s1 : Lexer) (k : Nat), AtLineStart s → scanLine fuel s = .ok s1 →
      s1.isit_ = [] → s1.curent_indent_ = 2 * (k : Int) →
      ParseString fuel s = .ok (true,
        { s1 with
            tokens_ := s1.tokens_ ++ List.replicate k Token.Dedent
              ++ (if s1.line_count_ = 0 ∧ s1.tokens_ ≠ [] then [Token.Newline] else [])
              ++ [Token.Eof],
            curent_indent_ := 0 })) ∧
    (∀ input : List Char, AtLineStart ⟨input, 0, [], 0, 0⟩) ∧
    (∀ s : Lexer, Reachable s → AtLineStart { s with curent_tiken_id_ := 0, tokens_ := [] }) ∧
    (∀ (fuel : Nat) (s : Lexer) (r : Bool × Lexer), AtLineStart s →
      ParseString fuel s = .ok r → r.1 = false → AtLineStart r.2) := by
  refine ⟨?_, ?_, ?_, ?_⟩
  · intro fuel s s1 k hs hscan hend hk
    obtain ⟨hf, _⟩ := scanLine_first fuel s s1 hscan hs.first
    obtain ⟨isit, cur, toks, id, lc⟩ := s1
    simp only at hend hk
    subst hend
    have hclose := closeIndents_eq k cur.toNat ⟨[], cur, toks, id, lc⟩ hk (by omega)
    simp only [ParseString, hscan, Outcome.bind, finishLine, hclose, Lexer.push]
    have hcond : (lc = 0 ∧ (toks ++ List.replicate k Token.Dedent).length ≠ 0)
        ↔ (lc = 0 ∧ toks ≠ []) := by
      constructor
      · rintro ⟨hl, hne⟩
        refine ⟨hl, ?_⟩
        intro hnil
        subst hnil
        by_cases hk0 : k = 0
        · subst hk0
          simp at hne
        · exact hf hl (by simp only; omega) rfl
      · rintro ⟨hl, hne⟩
        refine ⟨hl, ?_⟩
        cases toks with
        | nil => exact absurd rfl hne
        | cons t ts => simp
    by_cases hc : lc = 0 ∧ toks ≠ []
    · rw [if_pos (hcond.2 hc), if_pos hc]
    · rw [if_neg (fun h => hc (hcond.1 h)), if_neg hc]
      simp
  · intro input
    exact ⟨rfl, fun _ => Int.le_refl 0⟩
  · intro s hs
    exact ⟨rfl, Reachable_level s hs⟩
  · intro fuel s r hs hr hfalse
    have hl := ParseString_level fuel s r hs.first hr
    exact ⟨hl.2 hfalse, hl.1⟩

/-- Ends of input: the single line `x` without a newline gets a `Newline` before `Eof`; the
line `y` behind the line `x` gets none; the line `y` at level 2 behind the line `if` is
followed by one `Dedent` and `Eof`. -/
theorem end_of_input_tokens_witness :
    ParseString 5 ⟨"x".toList, 0, [], 0, 0⟩
      = .ok (true, ⟨[], 0, [Token.Id "x", Token.Newline, Token.Eof], 0, 0⟩) ∧
    ParseString 5 ⟨"y".toList, 0, [], 0, 1⟩
      = .ok (true, ⟨[], 0, [Token.Id "y", Token.Eof], 0, 1⟩) ∧
    ParseString 5 ⟨"  y".toList, 0, [], 0, 1⟩
      = .ok (true, ⟨[], 0, [Token.Indent, Token.Id "y", Token.Dedent, Token.Eof], 0, 1⟩) ∧
    tokenize 9 "x".toList = .ok [Token.Id "x", Token.Newline, Token.Eof] ∧
    tokenize 9 "x\ny".toList = .ok [Token.Id "x", Token.Newline, Token.Id "y", Token.Eof] ∧
    tokenize 9 "if\n  y".toList
      = .ok [Token.If, Token.Newline, Token.Indent, Token.Id "y", Token.Dedent, Token.Eof] :=
  ⟨end_of_input_tokens.1 5 ⟨"x".toList, 0, [], 0, 0⟩ ⟨[], 0, [Token.Id "x"], 0, 0⟩ 0
      ⟨rfl, by decide⟩ (by decide) rfl rfl,
   end_of_input_tokens.1 5 ⟨"y".toList, 0, [], 0, 1⟩ ⟨[], 0, [Token.Id "y"], 0, 1⟩ 0
      ⟨rfl, by decide⟩ (by decide) rfl rfl,
   end_of_input_tokens.1 5 ⟨"  y".toList, 0, [], 0, 1⟩
      ⟨[], 2, [Token.Indent, Token.Id "y"], 0, 1⟩ 1 ⟨rfl, by decide⟩ (by decide) rfl rfl,
   by decide, by decide, by decide⟩

end parse

/-! ## Termination on recognised characters -/

namespace parse

theorem Extends.refl (s : Lexer) : Extends s s :=
  ⟨List.suffix_refl _, List.prefix_refl _, rfl⟩

theorem Extends.trans {s s1 s2 : Lexer} (h1 : Extends s s1) (h2 : Extends s1 s2) :
    Extends s s2 :=
  ⟨h2.1.trans h1.1, h1.2.1.trans h2.2.1, h2.2.2.trans h1.2.2⟩

theorem Extends.length_le {s s1 : Lexer} (h : Extends s s1) :
    s1.isit_.length ≤ s.isit_.length ∧ s.tokens_.length ≤ s1.tokens_.length :=
  ⟨h.1.length_le, h.2.1.length_le⟩

theorem Extends.push (s : Lexer) (t : Token) : Extends s (s.push t) :=
  ⟨List.suffix_refl _, List.prefix_append _ _, rfl⟩

/-- The measure does not grow along `Extends`, and falls when a character is read or the
first token of the line is appended. -/
theorem scanMeasure_le {s s1 : Lexer} (h : Extends s s1) : scanMeasure s1 ≤ scanMeasure s := by
  obtain ⟨h1, h2⟩ := h.length_le
  unfold scanMeasure
  split <;> split <;> omega

theorem scanMeasure_lt {s s1 : Lexer} (h : Extends s s1)
    (hm : s1.isit_.length < s.isit_.length ∨ (s.tokens_.length = 0 ∧ s1.tokens_.length ≠ 0)) :
    scanMeasure s1 < scanMeasure s := by
  obtain ⟨h1, h2⟩ := h.length_le
  unfold scanMeasure
  rcases hm with hm | ⟨ha, hb⟩
  · split <;> split <;> omega
  · rw [if_pos ha, if_neg hb]
    omega

theorem dropWhile_head (p : Char → Bool) (c : Char) (rest : List Char) (h : p c = true) :
    ((c :: rest).dropWhile p).length < (c :: rest).length := by
  rw [List.dropWhile_cons, if_pos h]
  have := (List.dropWhile_suffix p (l := rest)).length_le
  simp only [List.length_cons]
  omega

theorem dropWhile_self (p : Char → Bool) (l : List Char)
    (h : ∀ c, l.head? = some c → p c = false) : l.dropWhile p = l := by
  cases l with
  | nil => rfl
  | cons c rest => simp [List.dropWhile_cons, h c rfl]

theorem takeWhile_none (p : Char → Bool) (l : List Char)
    (h : ∀ c, l.head? = some c → p c = false) : l.takeWhile p = [] := by
  cases l with
  | nil => rfl
  | cons c rest => simp [List.takeWhile_cons, h c rfl]

/-- The comment probe: a match reads at least the `#`; without a match nothing changes. -/
theorem ExpectComment_ext (s : Lexer) :
    Extends s (ExpectComment s).2 ∧
    ((ExpectComment s).1 = true → (ExpectComment s).2.isit_.length < s.isit_.length) ∧
    ((ExpectComment s).1 = false → (ExpectComment s).2 = s ∧ s.peek ≠ some '#') := by
  unfold ExpectComment
  by_cases h : s.peek = some '#'
  · rw [if_pos h]
    refine ⟨⟨List.dropWhile_suffix _, List.prefix_refl _, rfl⟩, ?_, ?_⟩
    · intro _
      obtain ⟨isit, cur, toks, id, lc⟩ := s
      cases isit with
      | nil => simp [Lexer.peek] at h
      | cons c rest =>
        simp only [Lexer.peek, List.head?_cons, Option.some.injEq] at h
        subst h
        exact dropWhile_head (fun c => c != '\n') '#' rest (by decide)
    · intro hf
      cases hf
  · rw [if_neg h]
    exact ⟨Extends.refl s, fun hf => (by cases hf), fun _ => ⟨rfl, h⟩⟩

/-- The space probe: a match reads at least one space; without a match nothing changes. -/
theorem SkipSpace_ext (s : Lexer) :
    Extends s (SkipSpace s).2 ∧
    ((SkipSpace s).1 = true → (SkipSpace s).2.isit_.length < s.isit_.length) ∧
    ((SkipSpace s).1 = false → (SkipSpace s).2 = s ∧ s.peek ≠ some ' ') := by
  obtain ⟨isit, cur, toks, id, lc⟩ := s
  unfold SkipSpace
  refine ⟨⟨List.dropWhile_suffix _, List.prefix_refl _, rfl⟩, ?_, ?_⟩
  · intro h
    cases isit with
    | nil => simp [Lexer.peek] at h
    | cons c rest =>
      simp only [Lexer.peek, List.head?_cons, beq_iff_eq, Option.some.injEq] at h
      subst h
      exact dropWhile_head (fun c => c == ' ') ' ' rest (by decide)
  · intro h
    have hne : Lexer.peek ⟨isit, cur, toks, id, lc⟩ ≠ some ' ' := by
      simpa using h
    refine ⟨?_, hne⟩
    have : isit.dropWhile (fun c => c == ' ') = isit := by
      apply dropWhile_self
      intro c hc
      simp only [Lexer.peek] at hne
      rw [hc] at hne
      simpa using hne
    simp only [this]

theorem dedentLoop_prefix (fuel : Nat) :
    ∀ (d : Int) (toks : List Token), toks <+: dedentLoop fuel d toks := by
  induction fuel with
  | zero =>
    intro d toks
    exact List.prefix_refl _
  | succ fuel ih =>
    intro d toks
    rw [dedentLoop]
    split
    · exact (List.prefix_append toks [Token.Dedent]).trans (ih _ _)
    · exact List.prefix_refl _

/-- The indentation probe: a match appends a token; without a match it has read the spaces
in front, if there were any. -/
theorem ExpectIndent_ext (s : Lexer) :
    Extends s (ExpectIndent s).2 ∧
    ((ExpectIndent s).1 = true → (ExpectIndent s).2.tokens_.length ≠ 0) ∧
    ((ExpectIndent s).1 = false →
      (ExpectIndent s).2.isit_.length < s.isit_.length ∨ (ExpectIndent s).2 = s) := by
  have hdrop : (∃ c rest, s.isit_ = c :: rest ∧ c = ' ') ∨
      s.isit_.dropWhile (fun c => c == ' ') = s.isit_ := by
    cases hs : s.isit_ with
    | nil => right; rfl
    | cons c rest =>
      by_cases hc : c = ' '
      · left
        exact ⟨c, rest, rfl, hc⟩
      · right
        simp [List.dropWhile_cons, hc]
  simp only [ExpectIndent]
  split_ifs with h0 h2 hneg
  · refine ⟨⟨List.dropWhile_suffix _, List.prefix_refl _, rfl⟩, fun h => (by cases h), ?_⟩
    intro _
    rcases hdrop with ⟨c, rest, hs, hc⟩ | hd
    · left
      simp only [hs]
      subst hc
      exact dropWhile_head (fun c => c == ' ') ' ' rest (by decide)
    · right
      obtain ⟨isit, cur, toks, id, lc⟩ := s
      simp only at hd
      simp only [hd]
  · exact ⟨⟨List.dropWhile_suffix _, List.prefix_append _ _, rfl⟩, fun _ => (by simp),
      fun h => (by cases h)⟩
  · refine ⟨⟨List.dropWhile_suffix _, dedentLoop_prefix _ _ _, rfl⟩, ?_, fun h => (by cases h)⟩
    intro _
    simp only
    obtain ⟨hlt, _⟩ := hneg
    obtain ⟨n, hn⟩ : ∃ n : Nat,
        (-((List.takeWhile (fun c => c == ' ') s.isit_).length - s.curent_indent_ : Int)).toNat
          = n + 1 := ⟨_, (Nat.succ_pred_eq_of_pos (by omega)).symm⟩
    rw [hn, dedentLoop, if_pos hlt]
    have := dedentLoop_length n
      (((List.takeWhile (fun c => c == ' ') s.isit_).length : Int) - s.curent_indent_ + 2)
      (s.tokens_ ++ [Token.Dedent])
    simp only [List.length_append, List.length_singleton] at this
    omega
  · refine ⟨⟨List.dropWhile_suffix _, List.prefix_refl _, rfl⟩, fun h => (by cases h), ?_⟩
    intro _
    rcases hdrop with ⟨c, rest, hs, hc⟩ | hd
    · left
      simp only [hs]
      subst hc
      exact dropWhile_head (fun c => c == ' ') ' ' rest (by decide)
    · right
      obtain ⟨isit, cur, toks, id, lc⟩ := s
      simp only at hd
      simp only [hd]

/-- The loop of `ExpectString` leaves a proper end piece of what it was given. -/
theorem stringLoop_suffix (openChar : Char) : ∀ (n : Nat) (l acc str rest2 : List Char),
    l.length ≤ n → stringLoop openChar l acc = .ok (str, rest2) →
    rest2 <:+ l ∧ rest2.length < l.length := by
  intro n
  induction n with
  | zero =>
    intro l acc str rest2 hl h
    have : l = [] := List.length_eq_zero.1 (by omega)
    subst this
    simp [stringLoop] at h
  | succ n ih =>
    intro l acc str rest2 hl h
    cases l with
    | nil => simp [stringLoop] at h
    | cons ch rest =>
      rw [stringLoop.eq_def] at h
      simp only at h
      simp only [List.length_cons] at hl
      split_ifs at h with h1 h2 h3
      · simp only [Except.ok.injEq, Prod.mk.injEq] at h
        rw [← h.2]
        exact ⟨List.suffix_cons _ _, by simp⟩
      · cases rest with
        | nil => simp at h
        | cons escaped rest3 =>
          simp only at h
          split at h
          · have := ih rest3 _ str rest2 (by simp only [List.length_cons] at hl; omega) h
            exact ⟨this.1.trans ((List.suffix_cons _ _).trans (List.suffix_cons _ _)),
              by simp only [List.length_cons]; omega⟩
          · cases h
      · have := ih rest _ str rest2 (by omega) h
        exact ⟨this.1.trans (List.suffix_cons _ _), by simp only [List.length_cons]; omega⟩

/-- The string probe, where it returns: a token is appended and at least the two quotes are
read. -/
theorem ExpectString_ext (s : Lexer) (r : Bool × Lexer) (h : ExpectString s = .ok r) :
    Extends s r.2 ∧ r.2.isit_.length < s.isit_.length ∧ r.1 = true := by
  unfold ExpectString at h
  split at h
  · cases h
  · rename_i openChar rest hs
    split at h
    · rename_i str rest2 hl
      cases h
      obtain ⟨h1, h2⟩ := stringLoop_suffix openChar rest.length rest [] str rest2
        (Nat.le_refl _) hl
      refine ⟨⟨?_, List.prefix_append _ _, rfl⟩, ?_, rfl⟩
      · show rest2 <:+ s.isit_
        rw [hs]
        exact h1.trans (List.suffix_cons _ _)
      · show rest2.length < s.isit_.length
        rw [hs]
        simp only [List.length_cons]
        omega
    · cases h

theorem readIdChars_append (l : List Char) :
    ∀ first, (readIdChars first l).1 ++ (readIdChars first l).2 = l := by
  induction l with
  | nil =>
    intro first
    rfl
  | cons c cs ih =>
    intro first
    rw [readIdChars]
    split
    · simp [ih false]
    · rfl

/-- The word probe: a match reads at least one character; without a match nothing changes;
at a letter or an underscore it matches. -/
theorem ExpectIdKeyWord_ext (s : Lexer) :
    Extends s (ExpectIdKeyWord s).2 ∧
    ((ExpectIdKeyWord s).1 = true → (ExpectIdKeyWord s).2.isit_.length < s.isit_.length) ∧
    ((ExpectIdKeyWord s).1 = false → (ExpectIdKeyWord s).2 = s) ∧
    (∀ c, s.peek = some c → idChar c true = true → (ExpectIdKeyWord s).1 = true) := by
  have happ := readIdChars_append s.isit_ true
  unfold ExpectIdKeyWord
  simp only
  rcases ExpectKeyWord_eq (String.mk (readIdChars true s.isit_).1)
      { s with isit_ := (readIdChars true s.isit_).2 } with ⟨hk, _⟩ | ⟨hk, _⟩
  · rw [hk]
    simp only [Bool.not_true, Bool.false_and, Bool.false_eq_true, if_false]
    refine ⟨⟨⟨_, happ⟩, List.prefix_append _ _, rfl⟩, ?_, ?_, ?_⟩
    · intro hne
      simp only [Lexer.push]
      have : (readIdChars true s.isit_).1 ≠ [] := by
        intro he
        rw [he] at hne
        simp at hne
      have hl := congrArg List.length happ
      simp only [List.length_append] at hl
      have := List.length_pos.2 this
      omega
    · intro hf
      exfalso
      have he : (readIdChars true s.isit_).1 = [] := by
        cases hr : (readIdChars true s.isit_).1 with
        | nil => rfl
        | cons a b =>
          rw [hr] at hf
          simp at hf
      rw [he] at hk
      simp [ExpectKeyWord, keyword_, List.lookup] at hk
    · intro c hc hid
      obtain ⟨isit, cur, toks, id, lc⟩ := s
      cases isit with
      | nil => simp [Lexer.peek] at hc
      | cons d rest =>
        simp only [Lexer.peek, List.head?_cons, Option.some.injEq] at hc
        subst hc
        simp [readIdChars, hid]
  · rw [hk]
    refine ⟨?_, ?_, ?_, ?_⟩
    · split
      · exact ⟨⟨_, happ⟩, List.prefix_append _ _, rfl⟩
      · exact ⟨⟨_, happ⟩, List.prefix_refl _, rfl⟩
    · intro hne
      have : (readIdChars true s.isit_).1 ≠ [] := by
        intro he
        rw [he] at hne
        simp at hne
      have hl := congrArg List.length happ
      simp only [List.length_append] at hl
      have := List.length_pos.2 this
      split <;> simp only [Lexer.push] <;> omega
    · intro hf
      have he : (readIdChars true s.isit_).1 = [] := by
        cases hr : (readIdChars true s.isit_).1 with
        | nil => rfl
        | cons a b =>
          rw [hr] at hf
          simp at hf
      rw [he] at happ ⊢
      simp only [List.nil_append] at happ
      rw [happ]
      obtain ⟨isit, cur, toks, id, lc⟩ := s
      simp
    · intro c hc hid
      obtain ⟨isit, cur, toks, id, lc⟩ := s
      cases isit with
      | nil => simp [Lexer.peek] at hc
      | cons d rest =>
        simp only [Lexer.peek, List.head?_cons, Option.some.injEq] at hc
        subst hc
        simp [readIdChars, hid]

/-- The punctuation probe, where it returns: a match reads at least one character; without
a match nothing changes; at a punctuation character it matches. -/
theorem ExpectChars_ext (s : Lexer) (r : Bool × Lexer) (h : ExpectChars s = .ok r) :
    Extends s r.2 ∧ (r.1 = true → r.2.isit_.length < s.isit_.length) ∧
    (r.1 = false → r.2 = s) ∧
    (∀ c, s.peek = some c → c ∈ equals_ ∨ c ∈ chars_ → r.1 = true) := by
  obtain ⟨isit, cur, toks, id, lc⟩ := s
  cases isit with
  | nil =>
    simp only [ExpectChars, Lexer.peek, List.head?_nil] at h
    cases h
    exact ⟨Extends.refl _, fun hf => (by cases hf), fun _ => rfl,
      fun c hc => (by simp [Lexer.peek] at hc)⟩
  | cons first rest =>
    simp only [ExpectChars, Lexer.peek, List.head?_cons] at h
    have hadv : ∀ t : List Token, Extends ⟨first :: rest, cur, toks, id, lc⟩
        ⟨rest, cur, toks ++ t, id, lc⟩ :=
      fun t => ⟨List.suffix_cons _ _, List.prefix_append _ _, rfl⟩
    have hadv2 : ∀ t : List Token, Extends ⟨first :: rest, cur, toks, id, lc⟩
        ⟨rest.tail, cur, toks ++ t, id, lc⟩ :=
      fun t => ⟨(List.tail_suffix rest).trans (List.suffix_cons _ _), List.prefix_append _ _,
        rfl⟩
    have hlen2 : rest.tail.length < (first :: rest).length := by
      have := (List.tail_suffix rest).length_le
      simp only [List.length_cons]
      omega
    split_ifs at h with he hq h1 h2 h3 h4 hc
    all_goals first
      | (cases h
         exact ⟨hadv2 _, fun _ => hlen2, fun hf => (by cases hf), fun _ _ _ => rfl⟩)
      | (cases h
         exact ⟨hadv _, fun _ => (by simp [Lexer.push, Lexer.advance]),
           fun hf => (by cases hf), fun _ _ _ => rfl⟩)
      | (cases h
         refine ⟨Extends.refl _, fun hf => (by cases hf), fun _ => rfl, ?_⟩
         intro c hcp hmem
         simp only [Lexer.peek, List.head?_cons, Option.some.injEq] at hcp
         subst hcp
         rcases hmem with hm | hm
         · exact absurd hm he
         · exact absurd hm hc)

/-- The number probe: it reads the digits in front, at least one at a digit, and changes
nothing where there is none. -/
theorem ExpectNums_ext (s : Lexer) :
    Extends s (ExpectNums s).2 ∧
    ((ExpectNums s).2.isit_.length < s.isit_.length ∨ (ExpectNums s).2 = s) ∧
    (∀ c, s.peek = some c → c.isDigit = true →
      (ExpectNums s).2.isit_.length < s.isit_.length) := by
  obtain ⟨isit, cur, toks, id, lc⟩ := s
  have hext : Extends ⟨isit, cur, toks, id, lc⟩ (ExpectNums ⟨isit, cur, toks, id, lc⟩).2 := by
    unfold ExpectNums
    simp only
    split
    · exact ⟨List.dropWhile_suffix _, List.prefix_append _ _, rfl⟩
    · exact ⟨List.dropWhile_suffix _, List.prefix_refl _, rfl⟩
  have hisit : (ExpectNums ⟨isit, cur, toks, id, lc⟩).2.isit_ = isit.dropWhile Char.isDigit := by
    unfold ExpectNums
    simp only
    split <;> rfl
  have hdig : ∀ c, Lexer.peek ⟨isit, cur, toks, id, lc⟩ = some c → c.isDigit = true →
      (ExpectNums ⟨isit, cur, toks, id, lc⟩).2.isit_.length < isit.length := by
    intro c hc hd
    rw [hisit]
    cases isit with
    | nil => simp [Lexer.peek] at hc
    | cons d rest =>
      simp only [Lexer.peek, List.head?_cons, Option.some.injEq] at hc
      subst hc
      exact dropWhile_head Char.isDigit d rest hd
  refine ⟨hext, ?_, hdig⟩
  cases hp : Lexer.peek ⟨isit, cur, toks, id, lc⟩ with
  | none =>
    right
    cases isit with
    | nil => rfl
    | cons d rest => simp [Lexer.peek] at hp
  | some c =>
    by_cases hd : c.isDigit = true
    · left
      exact hdig c hp hd
    · right
      have hnd : ∀ x, isit.head? = some x → x.isDigit = false := by
        intro x hx
        simp only [Lexer.peek] at hp
        rw [hp] at hx
        cases hx
        simpa using hd
      unfold ExpectNums
      simp only [takeWhile_none _ _ hnd, dropWhile_self _ _ hnd]
      rfl

/-- The lexeme probes together, where they return: characters are read or nothing changes;
at a quote, a letter, an underscore, a punctuation character or a digit characters are
read. -/
theorem lexemeStep_ext (s s1 : Lexer) (h : lexemeStep s = .ok s1) :
    Extends s s1 ∧ (s1.isit_.length < s.isit_.length ∨ s1 = s) ∧
    (∀ c, s.peek = some c →
      (c = '"' ∨ c = '\'' ∨ idChar c true = true ∨ c ∈ equals_ ∨ c ∈ chars_ ∨
        c.isDigit = true) →
      s1.isit_.length < s.isit_.length) := by
  unfold lexemeStep at h
  simp only at h
  by_cases hq : s.peek = some '"' ∨ s.peek = some '\''
  · rw [if_pos hq] at h
    cases hE : ExpectString s with
    | error e =>
      rw [hE] at h
      cases h
    | ok r =>
      obtain ⟨hx, hl, ht⟩ := ExpectString_ext s r hE
      obtain ⟨r1, r2⟩ := r
      simp only at ht hx hl
      subst ht
      rw [hE] at h
      simp only [Except.ok.injEq] at h
      subst h
      exact ⟨hx, Or.inl hl, fun _ _ _ => hl⟩
  · rw [if_neg hq] at h
    simp only at h
    obtain ⟨wx, wt, wf, wc⟩ := ExpectIdKeyWord_ext s
    by_cases hw : (ExpectIdKeyWord s).1 = true
    · rw [if_pos hw] at h
      simp only [Except.ok.injEq] at h
      subst h
      exact ⟨wx, Or.inl (wt hw), fun _ _ _ => wt hw⟩
    · rw [if_neg hw] at h
      have hw2 : (ExpectIdKeyWord s).2 = s := wf (by simpa using hw)
      rw [hw2] at h
      cases hC : ExpectChars s with
      | error e =>
        rw [hC] at h
        cases h
      | ok r =>
        obtain ⟨cx, ct, cf, cc⟩ := ExpectChars_ext s r hC
        obtain ⟨r1, r2⟩ := r
        rw [hC] at h
        cases r1 with
        | true =>
          simp only [Except.ok.injEq] at h
          subst h
          exact ⟨cx, Or.inl (ct rfl), fun _ _ _ => ct rfl⟩
        | false =>
          simp only [Except.ok.injEq] at h
          have hr2 : r2 = s := cf rfl
          subst hr2
          subst h
          obtain ⟨nx, nl, nd⟩ := ExpectNums_ext r2
          refine ⟨nx, nl, ?_⟩
          intro c hc hcl
          rcases hcl with h1 | h1 | h1 | h1 | h1 | h1
          · exact absurd (Or.inl (h1 ▸ hc)) hq
          · exact absurd (Or.inr (h1 ▸ hc)) hq
          · exact absurd (wc c hc h1) hw
          · exact absurd (cc c hc (Or.inl h1)) (by simp)
          · exact absurd (cc c hc (Or.inr h1)) (by simp)
          · exact nd c hc h1

/-- A recognised character that is no blank, no line end and no `#` is one the lexeme probes
read. -/
theorem startsLexeme_true (c : Char) (h : startsLexeme c = true) (h1 : c ≠ ' ')
    (h2 : c ≠ '\n') (h3 : c ≠ '#') :
    c = '"' ∨ c = '\'' ∨ idChar c true = true ∨ c ∈ equals_ ∨ c ∈ chars_ ∨
      c.isDigit = true := by
  simp only [startsLexeme, Bool.or_eq_true, beq_iff_eq, List.contains_eq_any_beq, List.any_cons,
    List.any_nil, Bool.or_false] at h
  rcases h with (((((((h | h) | h) | h) | h) | h) | h) | h) | h
  · exact absurd h h1
  · exact absurd h h2
  · exact Or.inl h
  · exact Or.inr (Or.inl h)
  · exact absurd h h3
  · right; right; left
    rw [isAlpha_iff] at h
    have ha : 'a'.toNat = 97 := rfl
    have hz : 'z'.toNat = 122 := rfl
    have hA : 'A'.toNat = 65 := rfl
    have hZ : 'Z'.toNat = 90 := rfl
    simp only [idChar, Bool.not_true, Bool.false_and, Bool.or_false, Bool.or_eq_true,
      Bool.and_eq_true, decide_eq_true_eq, char_le_iff, ha, hz, hA, hZ]
    omega
  · right; right; left
    subst h
    decide
  · exact Or.inr (Or.inr (Or.inr (Or.inr (Or.inr h))))
  · right; right; right
    rcases h with h | h | h | h | h | h | h | h | h | h | h | h | h
    all_goals subst h
    all_goals decide

/-- One pass of the loop of `ParseString` at a recognised character, where it returns: it
reads at least one character, or it appends the first token of the line. -/
theorem lineStep_progress (s s1 : Lexer) (c : Char) (rest : List Char)
    (hin : s.isit_ = c :: rest) (hc : startsLexeme c = true) (hnl : c ≠ '\n')
    (h : lineStep s = .ok s1) :
    Extends s s1 ∧
      (s1.isit_.length < s.isit_.length ∨ (s.tokens_.length = 0 ∧ s1.tokens_.length ≠ 0)) := by
  have hpeek : s.peek = some c := by simp [Lexer.peek, hin]
  obtain ⟨cx, ct, cf⟩ := ExpectComment_ext s
  have key : ∀ t : Lexer, Extends s t → (t.isit_.length < s.isit_.length ∨ t = s) →
      s.peek ≠ some '#' →
      (if (SkipSpace t).1 = true then Except.ok (SkipSpace t).2
        else lexemeStep (SkipSpace t).2) = Except.ok s1 →
      Extends s s1 ∧ s1.isit_.length < s.isit_.length := by
    intro t hx hprog hhash hk
    obtain ⟨sx, st, sf⟩ := SkipSpace_ext t
    have htl := hx.length_le.1
    by_cases hS : (SkipSpace t).1 = true
    · rw [if_pos hS] at hk
      simp only [Except.ok.injEq] at hk
      subst hk
      exact ⟨hx.trans sx, by have := st hS; omega⟩
    · rw [if_neg hS] at hk
      obtain ⟨hsp, hnsp⟩ := sf (by simpa using hS)
      rw [hsp] at hk
      obtain ⟨lx, ll, lc⟩ := lexemeStep_ext t s1 hk
      refine ⟨hx.trans lx, ?_⟩
      have hsl := lx.length_le.1
      rcases hprog with hp | hp
      · omega
      · subst hp
        have h1 : c ≠ ' ' := by
          intro he
          rw [hpeek, he] at hnsp
          exact hnsp rfl
        have h3 : c ≠ '#' := by
          intro he
          rw [hpeek, he] at hhash
          exact hhash rfl
        exact lc c hpeek (startsLexeme_true c hc h1 hnl h3)
  unfold lineStep at h
  simp only at h
  by_cases hC : (ExpectComment s).1 = true
  · rw [if_pos hC] at h
    simp only [Except.ok.injEq] at h
    subst h
    exact ⟨cx, Or.inl (ct hC)⟩
  · rw [if_neg hC] at h
    obtain ⟨hcs, hhash⟩ := cf (by simpa using hC)
    rw [hcs] at h
    by_cases ht : s.tokens_.length = 0
    · rw [if_pos ht] at h
      obtain ⟨ix, it, ifalse⟩ := ExpectIndent_ext s
      by_cases hI : (ExpectIndent s).1 = true
      · rw [if_pos hI] at h
        simp only [Except.ok.injEq] at h
        subst h
        exact ⟨ix, Or.inr ⟨ht, it hI⟩⟩
      · rw [if_neg hI] at h
        obtain ⟨hx, hl⟩ := key _ ix (ifalse (by simpa using hI)) hhash h
        exact ⟨hx, Or.inl hl⟩
    · rw [if_neg ht] at h
      simp only [Bool.false_eq_true, if_false] at h
      obtain ⟨hx, hl⟩ := key s (Extends.refl s) (Or.inr rfl) hhash h
      exact ⟨hx, Or.inl hl⟩

theorem recognised_of_suffix {l l1 : List Char} (h : l1 <:+ l)
    (hr : ∀ c ∈ l, startsLexeme c = true) : ∀ c ∈ l1, startsLexeme c = true :=
  fun c hc => hr c (h.subset hc)

/-- The loop of `ParseString` over recognised characters ends within the passes its measure
allows: it returns the state at the end of the line or of the input, or raises an error. -/
theorem scanLine_terminates : ∀ (fuel : Nat) (s : Lexer),
    (∀ c ∈ s.isit_, startsLexeme c = true) → scanMeasure s ≤ fuel →
    (∃ s1, scanLine fuel s = .ok s1 ∧ Extends s s1 ∧ inLine s1 = false) ∨
      (∃ e, scanLine fuel s = .error e) := by
  intro fuel
  induction fuel with
  | zero =>
    intro s _ hm
    left
    have hnil : s.isit_ = [] := by
      cases hs : s.isit_ with
      | nil => rfl
      | cons c rest =>
        simp only [scanMeasure, hs, List.length_cons] at hm
        omega
    have hin : inLine s = false := by simp [inLine, hnil]
    exact ⟨s, by simp [scanLine, hin], Extends.refl s, hin⟩
  | succ fuel ih =>
    intro s hr hm
    cases hin : inLine s with
    | false =>
      left
      exact ⟨s, by simp [scanLine, hin], Extends.refl s, hin⟩
    | true =>
      obtain ⟨c, rest, hs, hnl⟩ : ∃ c rest, s.isit_ = c :: rest ∧ c ≠ '\n' := by
        cases hs : s.isit_ with
        | nil => simp [inLine, hs] at hin
        | cons c rest =>
          refine ⟨c, rest, rfl, ?_⟩
          simpa [inLine, hs] using hin
      cases hl : lineStep s with
      | error e =>
        right
        exact ⟨e, by simp [scanLine, hin, hl]⟩
      | ok s2 =>
        obtain ⟨hx, hp⟩ := lineStep_progress s s2 c rest hs
          (hr c (by rw [hs]; exact List.mem_cons_self _ _)) hnl hl
        have hlt := scanMeasure_lt hx hp
        rcases ih s2 (recognised_of_suffix hx.1 hr) (by omega) with ⟨s1, h1, h2, h3⟩ | ⟨e, h1⟩
        · left
          exact ⟨s1, by simp [scanLine, hin, hl, h1], hx.trans h2, h3⟩
        · right
          exact ⟨e, by simp [scanLine, hin, hl, h1]⟩

theorem closeIndents_ext : ∀ (fuel : Nat) (s : Lexer), Extends s (closeIndents fuel s) := by
  intro fuel
  induction fuel with
  | zero =>
    intro s
    exact Extends.refl s
  | succ fuel ih =>
    intro s
    rw [closeIndents]
    split
    · exact Extends.trans
        (show Extends s { s with tokens_ := s.tokens_ ++ [Token.Dedent],
                                 curent_indent_ := s.curent_indent_ - 2 } from
          ⟨List.suffix_refl _, List.prefix_append _ _, rfl⟩) (ih _)
    · exact Extends.refl s

/-- What follows the loop in `ParseString`: a line is reported with a token in the buffer; a
line without token has its newline read. -/
theorem finishLine_ext (s : Lexer) (hin : inLine s = false) :
    (finishLine s).2.isit_ <:+ s.isit_ ∧
    (finishLine s).2.curent_tiken_id_ = s.curent_tiken_id_ ∧
    ((finishLine s).1 = true → (finishLine s).2.tokens_.length ≠ 0) ∧
    ((finishLine s).1 = false → (finishLine s).2.tokens_.length = 0 ∧
      (finishLine s).2.isit_.length < s.isit_.length) := by
  obtain ⟨isit, cur, toks, id, lc⟩ := s
  cases isit with
  | nil =>
    have hx := closeIndents_ext cur.toNat ⟨[], cur, toks, id, lc⟩
    simp only [finishLine]
    refine ⟨?_, ?_, ?_, fun h => (by cases h)⟩
    · split <;> simpa [Lexer.push] using hx.1
    · split <;> simpa [Lexer.push] using hx.2.2
    · intro _
      split <;> simp [Lexer.push]
  | cons ch rest =>
    have hch : ch = '\n' := by simpa [inLine] using hin
    subst hch
    simp only [finishLine, if_true]
    by_cases ht : toks.length > 0
    · simp only [ht, if_true]
      exact ⟨by simp [Lexer.push, Lexer.advance], rfl,
        fun _ => (by simp [Lexer.push, Lexer.advance]), fun h => (by cases h)⟩
    · simp only [ht, if_false]
      exact ⟨by simp [Lexer.advance], rfl, fun h => (by cases h),
        fun _ => ⟨by simp only [Lexer.advance]; omega, by simp [Lexer.advance]⟩⟩

theorem ParseString_terminates (fuel : Nat) (s : Lexer)
    (hr : ∀ c ∈ s.isit_, startsLexeme c = true) (hm : scanMeasure s ≤ fuel) :
    (∃ r, ParseString fuel s = .ok r ∧ r.2.isit_ <:+ s.isit_ ∧
      r.2.curent_tiken_id_ = s.curent_tiken_id_ ∧ (r.1 = true → r.2.tokens_.length ≠ 0) ∧
      (r.1 = false → r.2.tokens_.length = 0 ∧ r.2.isit_.length < s.isit_.length)) ∨
    (∃ e, ParseString fuel s = .error e) := by
  rcases scanLine_terminates fuel s hr hm with ⟨s1, h1, hx, hin⟩ | ⟨e, h1⟩
  · left
    obtain ⟨f1, f2, f3, f4⟩ := finishLine_ext s1 hin
    refine ⟨finishLine s1, by simp [ParseString, h1, Outcome.bind], f1.trans hx.1,
      f2.trans hx.2.2, f3, ?_⟩
    intro hf
    have := hx.length_le.1
    exact ⟨(f4 hf).1, by have := (f4 hf).2; omega⟩
  · right
    exact ⟨e, by simp [ParseString, h1, Outcome.bind]⟩

theorem parseLoop_terminates (fuel : Nat) : ∀ (n : Nat) (s : Lexer),
    (∀ c ∈ s.isit_, startsLexeme c = true) → scanMeasure s ≤ fuel → s.isit_.length ≤ n →
    (∃ s1, parseLoop fuel n s = .ok s1 ∧ s1.isit_ <:+ s.isit_ ∧
      s1.curent_tiken_id_ = s.curent_tiken_id_ ∧ s1.tokens_.length ≠ 0) ∨
    (∃ e, parseLoop fuel n s = .error e) := by
  intro n
  induction n with
  | zero =>
    intro s hr hm hn
    rcases ParseString_terminates fuel s hr hm with ⟨r, h1, h2, h3, h4, h5⟩ | ⟨e, h1⟩
    · have ht : r.1 = true := by
        cases hb : r.1 with
        | true => rfl
        | false =>
          have := (h5 hb).2
          omega
      left
      exact ⟨r.2, by simp [parseLoop, h1, Outcome.bind, ht], h2, h3, h4 ht⟩
    · right
      exact ⟨e, by simp [parseLoop, h1, Outcome.bind]⟩
  | succ n ih =>
    intro s hr hm hn
    rcases ParseString_terminates fuel s hr hm with ⟨r, h1, h2, h3, h4, h5⟩ | ⟨e, h1⟩
    · cases hb : r.1 with
      | true =>
        left
        exact ⟨r.2, by simp [parseLoop, h1, Outcome.bind, hb], h2, h3, h4 hb⟩
      | false =>
        obtain ⟨ht, hl⟩ := h5 hb
        have hm2 : scanMeasure r.2 ≤ fuel := by
          have hs : scanMeasure s ≤ fuel := hm
          unfold scanMeasure at hs ⊢
          rw [if_pos ht]
          split at hs <;> omega
        rcases ih r.2 (recognised_of_suffix h2 hr) hm2 (by omega) with
          ⟨s1, g1, g2, g3, g4⟩ | ⟨e, g1⟩
        · left
          exact ⟨s1, by simp [parseLoop, h1, Outcome.bind, hb, g1], g2.trans h2,
            g3.trans h3, g4⟩
        · right
          exact ⟨e, by simp [parseLoop, h1, Outcome.bind, hb, g1]⟩
    · right
      exact ⟨e, by simp [parseLoop, h1, Outcome.bind]⟩

/-- A call of `NextToken` over recognised characters returns a token, or raises an error. -/
theorem NextToken_returns (s : Lexer) (hr : ∀ c ∈ s.isit_, startsLexeme c = true)
    (fuel : Nat) (hf : 2 * s.isit_.length + 1 ≤ fuel) :
    (∃ t s1, NextToken fuel s = .ok (some t, s1) ∧ s1.isit_ <:+ s.isit_) ∨
    (∃ e, NextToken fuel s = .error e) := by
  unfold NextToken
  split
  · rename_i hlt
    left
    refine ⟨s.tokens_[s.curent_tiken_id_ + 1],
      { s with curent_tiken_id_ := s.curent_tiken_id_ + 1 }, ?_, List.suffix_refl _⟩
    simp [CurrentToken, List.getElem?_eq_getElem hlt]
  · have hm : scanMeasure { s with curent_tiken_id_ := 0, tokens_ := [] } ≤ fuel := by
      simp only [scanMeasure, List.length_nil, if_true]
      omega
    rcases parseLoop_terminates fuel fuel { s with curent_tiken_id_ := 0, tokens_ := [] } hr hm
      (by simp only; omega) with ⟨s1, g1, g2, g3, g4⟩ | ⟨e, g1⟩
    · left
      obtain ⟨t, ht⟩ : ∃ t, s1.tokens_[s1.curent_tiken_id_]? = some t := by
        simp only at g3
        rw [g3]
        exact ⟨s1.tokens_[0], List.getElem?_eq_getElem (by omega)⟩
      exact ⟨t, s1, by simp [g1, Outcome.bind, CurrentToken, ht], g2⟩
    · right
      exact ⟨e, by simp [g1, Outcome.bind]⟩

/-- C31: over characters the lexer recognises every call of `NextToken` ends. Each pass of
the loop of `ParseString` at a recognised character either raises an error or goes on with
a state in which at least one character more has been read or a token more is in the buffer
(nothing is put back, no token is taken away). So a call of `NextToken`, and the call the
constructor makes, returns a token or raises `LexerError` within a number of passes bounded
by the length of the unread input, and leaves an end piece of that input unread, so that
the same holds of the next call. -/
theorem NextToken_terminates :
    (∀ (s s1 : Lexer) (c : Char) (rest : List Char), s.isit_ = c :: rest → c ≠ '\n' →
      startsLexeme c = true → lineStep s = .ok s1 →
      (∃ read, read ++ s1.isit_ = s.isit_) ∧ (∃ pushed, s.tokens_ ++ pushed = s1.tokens_) ∧
      (s1.isit_.length < s.isit_.length ∨ s.tokens_.length < s1.tokens_.length)) ∧
    (∀ s : Lexer, (∀ c ∈ s.isit_, startsLexeme c = true) →
      ∀ fuel, 2 * s.isit_.length + 1 ≤ fuel →
      (∃ t s1, NextToken fuel s = .ok (some t, s1) ∧ ∃ read, read ++ s1.isit_ = s.isit_) ∨
      (∃ e, NextToken fuel s = .error e)) ∧
    (∀ input : List Char, (∀ c ∈ input, startsLexeme c = true) →
      ∀ fuel, 2 * input.length + 1 ≤ fuel →
      (∃ s, Lexer.new fuel input = .ok s ∧ ∃ read, read ++ s.isit_ = input) ∨
      (∃ e, Lexer.new fuel input = .error e)) := by
  refine ⟨?_, ?_, ?_⟩
  · intro s s1 c rest hin hnl hc h
    obtain ⟨hx, hp⟩ := lineStep_progress s s1 c rest hin hc hnl h
    refine ⟨hx.1, hx.2.1, ?_⟩
    rcases hp with hp | ⟨h0, h1⟩
    · exact Or.inl hp
    · right
      omega
  · intro s hr fuel hf
    rcases NextToken_returns s hr fuel hf with ⟨t, s1, h1, h2⟩ | ⟨e, h1⟩
    · exact Or.inl ⟨t, s1, h1, h2⟩
    · exact Or.inr ⟨e, h1⟩
  · intro input hr fuel hf
    rcases NextToken_returns ⟨input, 0, [], 0, 0⟩ hr fuel hf with ⟨t, s1, h1, h2⟩ | ⟨e, h1⟩
    · left
      exact ⟨s1, by simp [Lexer.new, h1, Outcome.bind], h2⟩
    · right
      exact ⟨e, by simp [Lexer.new, h1, Outcome.bind]⟩

/-- The first call of `NextToken` on the line `x = 1` returns the token `x` with the line
lexed; on an unclosed string it raises the error of the string probe; a pass of the loop at
the `=` of `= 1` reads it. -/
theorem NextToken_terminates_witness :
    ((∃ t s1, NextToken 13 ⟨"x = 1\n".toList, 0, [], 0, 0⟩ = .ok (some t, s1) ∧
        ∃ read, read ++ s1.isit_ = "x = 1\n".toList) ∨
      (∃ e, NextToken 13 ⟨"x = 1\n".toList, 0, [], 0, 0⟩ = .error e)) ∧
    NextToken 13 ⟨"x = 1\n".toList, 0, [], 0, 0⟩
      = .ok (some (Token.Id "x"),
          ⟨[], 0, [Token.Id "x", Token.Char '=', Token.Number 1, Token.Newline], 0, 1⟩) ∧
    NextToken 9 ⟨"'ab".toList, 0, [], 0, 0⟩ = .error ⟨"String parsing error"⟩ ∧
    ((∃ read, read ++ " 1\n".toList = "= 1\n".toList) ∧
      (∃ pushed, [Token.Id "x"] ++ pushed = [Token.Id "x", Token.Char '=']) ∧
      (" 1\n".toList.length < "= 1\n".toList.length ∨
        [Token.Id "x"].length < [Token.Id "x", Token.Char '='].length)) :=
  ⟨NextToken_terminates.2.1 ⟨"x = 1\n".toList, 0, [], 0, 0⟩ (by decide) 13 (by decide),
   by decide, by decide,
   NextToken_terminates.1 ⟨"= 1\n".toList, 0, [Token.Id "x"], 0, 0⟩
     ⟨" 1\n".toList, 0, [Token.Id "x", Token.Char '='], 0, 0⟩ '=' " 1\n".toList rfl (by decide)
     (by decide) rfl⟩

end parse
/-! ## `return` leaves the method body -/

namespace ast

open runtime

theorem ExecuteEach_append (env : Env) (rt : Runtime) (before rest : List Statement) :
    ∀ (c : Closure) (st : State) (u : ObjectHolder) (c1 : Closure) (st1 : State),
      ExecuteEach env rt before c st = (.ok u, c1, st1) →
      ExecuteEach env rt (before ++ rest) c st = ExecuteEach env rt rest c1 st1 := by
  induction before with
  | nil =>
    intro c st u c1 st1 h
    simp only [ExecuteEach, Prod.mk.injEq] at h
    obtain ⟨-, hc, hst⟩ := h
    rw [List.nil_append, hc, hst]
  | cons s before ih =>
    intro c st u c1 st1 h
    rw [List.cons_append, ExecuteEach]
    rw [ExecuteEach] at h
    rcases hs : Execute env rt s c st with ⟨r, c0, st0⟩
    rw [hs] at h
    cases r with
    | error e => cases h
    | ok w => exact ih c0 st0 u c1 st1 h

/-- A statement that reaches a `Return` throws the value of the returned expression. -/
theorem ReachesReturn.throws (env : Env) (rt : Runtime) (s : Statement) (c : Closure)
    (st : State) (v : ObjectHolder) (c1 : Closure) (st1 : State)
    (h : ReachesReturn env rt s c st v c1 st1) :
    Execute env rt s c st = (.error (.Return v), c1, st1) := by
  induction h with
  | here e c st v c1 st1 he => rw [Execute, he]
  | inCompound before s following c st u c1 st1 v c2 st2 hb _ ih =>
    rw [Execute, ExecuteEach_append env rt before (s :: following) c st u c1 st1 hb,
      ExecuteEach, ih]
  | inThen condition if_body else_body c st c1 st1 v c2 st2 hc _ ih =>
    rw [Execute, hc]
    simp only [TryAsBool]
    rw [ih]
  | inElse condition if_body else_body c st c1 st1 v c2 st2 hc _ ih =>
    rw [Execute, hc]
    simp only [TryAsBool]
    rw [ExecuteIfPresent, ih]

/-- C1. When the execution of the body of a method reaches a `Return(e)` through any depth
of nested `Compound` and `IfElse` nodes (the conditions being `Bool`), `MethodBody::Execute`
returns exactly the value of `e`, and the closure and the state are those left by the
evaluation of `e`: no statement that follows the `Return` in the body is executed, whatever
these statements are. -/
theorem return_leaves_method_body (env : Env) (rt : Runtime) (body : Statement) (c : Closure)
    (st : State) (v : ObjectHolder) (c1 : Closure) (st1 : State)
    (h : ReachesReturn env rt body c st v c1 st1) :
    Execute env rt (.MethodBody body) c st = (.ok v, c1, st1) := by
  rw [Execute, ReachesReturn.throws env rt body c st v c1 st1 h]
  rfl

/-- Witness for C1: the body `if True: if True: return 7` followed by `return 9` yields 7. -/
theorem return_leaves_method_body_witness :
    Execute ⟨fun _ => ⟨"", [], none⟩, fun _ => ""⟩
      (runtimeAt ⟨fun _ => ⟨"", [], none⟩, fun _ => ""⟩ 0)
      (.MethodBody (.Compound
        [.IfElse (.BoolConst true)
            (.IfElse (.BoolConst true) (.Return (.NumericConst 7)) none) none,
         .Return (.NumericConst 9)]))
      [] ⟨[], ""⟩
    = (.ok (some (.Number 7)), [], ⟨[], ""⟩) :=
  return_leaves_method_body _ _ _ [] ⟨[], ""⟩ (some (.Number 7)) [] ⟨[], ""⟩
    (ReachesReturn.inCompound [] _ [.Return (.NumericConst 9)] [] ⟨[], ""⟩ none [] ⟨[], ""⟩
      _ _ _ rfl
      (ReachesReturn.inThen _ _ none [] ⟨[], ""⟩ [] ⟨[], ""⟩ _ _ _ rfl
        (ReachesReturn.inThen _ _ none [] ⟨[], ""⟩ [] ⟨[], ""⟩ _ _ _ rfl
          (ReachesReturn.here _ [] ⟨[], ""⟩ _ _ _ rfl))))

end ast


/-! ## Truthiness and comparisons (`runtime.cpp`) -/

namespace runtime

open ast

/-- C12: `IsTrue` is a total function to `bool` that raises nothing, and its value on every
holder is: the value of a `Bool`, `n != 0` of a `Number` `n`, non-emptiness of a `String`,
and false on the empty holder, on a `Class` and on a `ClassInstance`. -/
theorem IsTrue_of_every_holder :
    (∀ b : Bool, IsTrue (some (.Bool b)) = b) ∧
    (∀ n : Int, IsTrue (some (.Number n)) = decide (n ≠ 0)) ∧
    (∀ s : String, IsTrue (some (.String s)) = decide (s ≠ "")) ∧
    IsTrue none = false ∧
    (∀ id : ClassId, IsTrue (some (.Class id)) = false) ∧
    (∀ (addr : Nat) (class_ : ClassId), IsTrue (some (.ClassInstance addr class_)) = false) := by
  refine ⟨fun _ => rfl, ?_, ?_, rfl, fun _ => rfl, fun _ _ => rfl⟩
  · intro n
    by_cases h : n = 0 <;> simp [IsTrue, h]
  · intro s
    by_cases h : s = ""
    · subst h
      rfl
    · have : s.isEmpty = false := by
        cases he : s.isEmpty
        · rfl
        · exact absurd ((String.isEmpty_iff s).1 he) h
      simp [IsTrue, h, this]

/-- The two holders of a like-typed pair. -/
theorem likeTyped_cases (a b : ObjectHolder) (h : likeTyped a b = true) :
    (∃ x y, a = some (.Bool x) ∧ b = some (.Bool y)) ∨
    (∃ x y, a = some (.Number x) ∧ b = some (.Number y)) ∨
    (∃ x y, a = some (.String x) ∧ b = some (.String y)) := by
  cases a with
  | none => simp [likeTyped] at h
  | some a =>
    cases b with
    | none => cases a <;> simp [likeTyped] at h
    | some b =>
      cases a <;> cases b <;> simp [likeTyped] at h
      · right; left; exact ⟨_, _, rfl, rfl⟩
      · right; right; exact ⟨_, _, rfl, rfl⟩
      · left; exact ⟨_, _, rfl, rfl⟩

/-- C13: for two `Bool`, two `Number` or two `String`, `Equal(a,b)`, `Less(a,b)` and
`Less(b,a)` all return, leave the state alone, and exactly one of the three is true. -/
theorem comparison_trichotomy (rt : Runtime) (a b : ObjectHolder) (st : State)
    (h : likeTyped a b = true) :
    ∃ e l g : Bool, Equal rt a b st = (.ok e, st) ∧ Less rt a b st = (.ok l, st) ∧
      Less rt b a st = (.ok g, st) ∧
      ((e = true ∧ l = false ∧ g = false) ∨ (e = false ∧ l = true ∧ g = false) ∨
        (e = false ∧ l = false ∧ g = true)) := by
  rcases likeTyped_cases a b h with ⟨x, y, rfl, rfl⟩ | ⟨x, y, rfl, rfl⟩ | ⟨x, y, rfl, rfl⟩
  · refine ⟨x == y, !x && y, !y && x, rfl, rfl, rfl, ?_⟩
    cases x <;> cases y <;> simp
  · refine ⟨x == y, decide (x < y), decide (y < x), rfl, rfl, rfl, ?_⟩
    rcases lt_trichotomy x y with hlt | heq | hgt
    · right; left
      refine ⟨?_, ?_, ?_⟩
      · simpa using ne_of_lt hlt
      · simpa using hlt
      · simpa using le_of_lt hlt
    · left
      subst heq
      simp
    · right; right
      refine ⟨?_, ?_, ?_⟩
      · simpa using (ne_of_lt hgt).symm
      · simpa using le_of_lt hgt
      · simpa using hgt
  · refine ⟨x == y, decide (x < y), decide (y < x), rfl, rfl, rfl, ?_⟩
    rcases lt_trichotomy x y with hlt | heq | hgt
    · right; left
      refine ⟨?_, ?_, ?_⟩
      · simpa using ne_of_lt hlt
      · simpa using hlt
      · simpa using le_of_lt hlt
    · left
      subst heq
      simp
    · right; right
      refine ⟨?_, ?_, ?_⟩
      · simpa using (ne_of_lt hgt).symm
      · simpa using le_of_lt hgt
      · simpa using hgt

/-- The trichotomy at the numbers 3 and 5: only `Less(3, 5)` is true. -/
theorem comparison_trichotomy_witness :
    likeTyped (some (.Number 3)) (some (.Number 5)) = true ∧
    ∃ e l g : Bool,
      Equal (runtimeAt sameEnv 0) (some (.Number 3))
        (some (.Number 5)) ⟨[], ""⟩ = (.ok e, ⟨[], ""⟩) ∧
      Less (runtimeAt sameEnv 0) (some (.Number 3))
        (some (.Number 5)) ⟨[], ""⟩ = (.ok l, ⟨[], ""⟩) ∧
      Less (runtimeAt sameEnv 0) (some (.Number 5))
        (some (.Number 3)) ⟨[], ""⟩ = (.ok g, ⟨[], ""⟩) ∧
      ((e = true ∧ l = false ∧ g = false) ∨ (e = false ∧ l = true ∧ g = false) ∨
        (e = false ∧ l = false ∧ g = true)) :=
  ⟨rfl, comparison_trichotomy _ _ _ _ rfl⟩

/-- Outside the like-typed pairs `Comparator` finds nothing to compare. -/
theorem Comparator_unlike (lhs rhs : ObjectHolder) (cmp : Predicate)
    (h : likeTyped lhs rhs = false) : Comparator lhs rhs cmp = none := by
  cases lhs with
  | none => rfl
  | some a =>
    cases rhs with
    | none => cases a <;> rfl
    | some b => cases a <;> cases b <;> first | rfl | simp [likeTyped] at h

/-- C14: with a left operand that is no class instance, `Equal` is the native equality on
two `Bool`, two `Number` or two `String`, is true on two empty holders, and raises a runtime
error on every other pair; `Less` is the native `<` on the like-typed pairs and raises a
runtime error on every other pair, two empty holders included. Neither touches the state. -/
theorem native_comparison (rt : Runtime) (st : State) :
    (∀ a b : Bool, Equal rt (some (.Bool a)) (some (.Bool b)) st = (.ok (decide (a = b)), st)) ∧
    (∀ a b : Int,
      Equal rt (some (.Number a)) (some (.Number b)) st = (.ok (decide (a = b)), st)) ∧
    (∀ a b : String,
      Equal rt (some (.String a)) (some (.String b)) st = (.ok (decide (a = b)), st)) ∧
    Equal rt none none st = (.ok true, st) ∧
    (∀ lhs rhs : ObjectHolder, TryAsClassInstance lhs = none → likeTyped lhs rhs = false →
      ¬ (lhs = none ∧ rhs = none) →
      Equal rt lhs rhs st = (.error (.runtime_error "Cannot compare objects for equality"), st)) ∧
    (∀ a b : Bool, Less rt (some (.Bool a)) (some (.Bool b)) st = (.ok (decide (a < b)), st)) ∧
    (∀ a b : Int, Less rt (some (.Number a)) (some (.Number b)) st = (.ok (decide (a < b)), st)) ∧
    (∀ a b : String,
      Less rt (some (.String a)) (some (.String b)) st = (.ok (decide (a < b)), st)) ∧
    (∀ lhs rhs : ObjectHolder, TryAsClassInstance lhs = none → likeTyped lhs rhs = false →
      Less rt lhs rhs st = (.error (.runtime_error "Cannot compare objects for less"), st)) := by
  refine ⟨?_, ?_, ?_, rfl, ?_, ?_, fun _ _ => rfl, fun _ _ => rfl, ?_⟩
  · intro a b
    cases a <;> cases b <;> rfl
  · intro a b
    by_cases h : a = b <;> simp [Equal, TryAsClassInstance, Comparator, equal_to, h]
  · intro a b
    by_cases h : a = b <;> simp [Equal, TryAsClassInstance, Comparator, equal_to, h]
  · intro lhs rhs hi hl hn
    simp only [Equal, hi, Comparator_unlike lhs rhs _ hl]
    rw [if_neg hn]
  · intro a b
    cases a <;> cases b <;> rfl
  · intro lhs rhs hi hl
    simp only [Less, hi, Comparator_unlike lhs rhs _ hl]

/-- The mixtures the comparison rejects: a number with a string, the empty holder with a
number on either side, two classes, and for `Less` two empty holders. -/
theorem native_comparison_witness :
    Equal (runtimeAt sameEnv 0) (some (.Number 1)) (some (.String "1")) ⟨[], ""⟩
      = (.error (.runtime_error "Cannot compare objects for equality"), ⟨[], ""⟩) ∧
    Equal (runtimeAt sameEnv 0) none (some (.Number 1)) ⟨[], ""⟩
      = (.error (.runtime_error "Cannot compare objects for equality"), ⟨[], ""⟩) ∧
    Equal (runtimeAt sameEnv 0) (some (.Number 1)) none ⟨[], ""⟩
      = (.error (.runtime_error "Cannot compare objects for equality"), ⟨[], ""⟩) ∧
    Equal (runtimeAt sameEnv 0) (some (.Class 0)) (some (.Class 0)) ⟨[], ""⟩
      = (.error (.runtime_error "Cannot compare objects for equality"), ⟨[], ""⟩) ∧
    Less (runtimeAt sameEnv 0) none none ⟨[], ""⟩
      = (.error (.runtime_error "Cannot compare objects for less"), ⟨[], ""⟩) :=
  ⟨(native_comparison (runtimeAt sameEnv 0) ⟨[], ""⟩).2.2.2.2.1 _ _ rfl rfl (by simp),
   (native_comparison (runtimeAt sameEnv 0) ⟨[], ""⟩).2.2.2.2.1 _ _ rfl rfl (by simp),
   (native_comparison (runtimeAt sameEnv 0) ⟨[], ""⟩).2.2.2.2.1 _ _ rfl rfl (by simp),
   (native_comparison (runtimeAt sameEnv 0) ⟨[], ""⟩).2.2.2.2.1 _ _ rfl rfl (by simp),
   (native_comparison (runtimeAt sameEnv 0) ⟨[], ""⟩).2.2.2.2.2.2.2.2 _ _ rfl rfl⟩

/-- C15: the four derived comparisons. Where `Equal` and `Less` return, `NotEqual` is the
negation of `Equal`, `GreaterOrEqual` the negation of `Less`, `Greater` the negation of
`Less or Equal` (the `Equal` of that expression being the call made behind `Less`, in the
state `Less` left), and `LessOrEqual` the negation of `Greater`. On two numbers they are
`a != b`, `a > b`, `a <= b` and `a >= b`. -/
theorem derived_comparisons (rt : Runtime) :
    (∀ (lhs rhs : ObjectHolder) (st st1 st2 st3 : State) (e l e1 : Bool),
      Equal rt lhs rhs st = (.ok e, st1) → Less rt lhs rhs st = (.ok l, st2) →
      Equal rt lhs rhs st2 = (.ok e1, st3) →
        NotEqual rt lhs rhs st = (.ok (!e), st1) ∧
        Greater rt lhs rhs st = (.ok (!(l || e1)), if l then st2 else st3) ∧
        LessOrEqual rt lhs rhs st = (.ok (!(!(l || e1))), if l then st2 else st3) ∧
        GreaterOrEqual rt lhs rhs st = (.ok (!l), st2)) ∧
    (∀ (a b : Int) (st : State),
        NotEqual rt (some (.Number a)) (some (.Number b)) st = (.ok (decide (a ≠ b)), st) ∧
        Greater rt (some (.Number a)) (some (.Number b)) st = (.ok (decide (a > b)), st) ∧
        LessOrEqual rt (some (.Number a)) (some (.Number b)) st = (.ok (decide (a ≤ b)), st) ∧
        GreaterOrEqual rt (some (.Number a)) (some (.Number b)) st
          = (.ok (decide (a ≥ b)), st)) := by
  have gen : ∀ (lhs rhs : ObjectHolder) (st st1 st2 st3 : State) (e l e1 : Bool),
      Equal rt lhs rhs st = (.ok e, st1) → Less rt lhs rhs st = (.ok l, st2) →
      Equal rt lhs rhs st2 = (.ok e1, st3) →
        NotEqual rt lhs rhs st = (.ok (!e), st1) ∧
        Greater rt lhs rhs st = (.ok (!(l || e1)), if l then st2 else st3) ∧
        LessOrEqual rt lhs rhs st = (.ok (!(!(l || e1))), if l then st2 else st3) ∧
        GreaterOrEqual rt lhs rhs st = (.ok (!l), st2) := by
    intro lhs rhs st st1 st2 st3 e l e1 he hl he1
    have hg : Greater rt lhs rhs st = (.ok (!(l || e1)), if l then st2 else st3) := by
      cases l
      · simp [Greater, hl, he1]
      · simp [Greater, hl]
    refine ⟨?_, hg, ?_, ?_⟩
    · simp [NotEqual, he]
    · simp [LessOrEqual, hg]
    · simp [GreaterOrEqual, hl]
  refine ⟨gen, ?_⟩
  intro a b st
  have h := gen (some (.Number a)) (some (.Number b)) st st st st (a == b) (decide (a < b))
    (a == b) rfl rfl rfl
  obtain ⟨h1, h2, h3, h4⟩ := h
  rw [h1, h2, h3, h4]
  refine ⟨?_, ?_, ?_, ?_⟩
  · by_cases h : a = b <;> simp [h]
  · congr 2
    · rcases lt_trichotomy a b with hlt | heq | hgt
      · simp [hlt, le_of_lt hlt, ne_of_lt hlt]
      · subst heq; simp
      · simp [hgt, le_of_lt hgt, (ne_of_lt hgt).symm, not_lt.2 (le_of_lt hgt)]
    · simp
  · congr 2
    · rcases lt_trichotomy a b with hlt | heq | hgt
      · simp [hlt, le_of_lt hlt, ne_of_lt hlt]
      · subst heq; simp
      · simp [hgt, le_of_lt hgt, (ne_of_lt hgt).symm, not_lt.2 (le_of_lt hgt), not_le.2 hgt]
    · simp
  · by_cases h : a < b
    · simp [h, not_le.2 h]
    · simp [h, not_lt.1 h]

/-- The derived comparisons at `True` and `False`, where `Equal` and `Less` both return
false: `True != False`, `True > False`, not `True <= False`, `True >= False`. -/
theorem derived_comparisons_witness :
    Equal (runtimeAt sameEnv 0) (some (.Bool true)) (some (.Bool false)) ⟨[], ""⟩
      = (.ok false, ⟨[], ""⟩) ∧
    Less (runtimeAt sameEnv 0) (some (.Bool true)) (some (.Bool false)) ⟨[], ""⟩
      = (.ok false, ⟨[], ""⟩) ∧
    NotEqual (runtimeAt sameEnv 0) (some (.Bool true)) (some (.Bool false)) ⟨[], ""⟩
      = (.ok true, ⟨[], ""⟩) ∧
    Greater (runtimeAt sameEnv 0) (some (.Bool true)) (some (.Bool false)) ⟨[], ""⟩
      = (.ok true, ⟨[], ""⟩) ∧
    LessOrEqual (runtimeAt sameEnv 0) (some (.Bool true)) (some (.Bool false)) ⟨[], ""⟩
      = (.ok false, ⟨[], ""⟩) ∧
    GreaterOrEqual (runtimeAt sameEnv 0) (some (.Bool true)) (some (.Bool false)) ⟨[], ""⟩
      = (.ok true, ⟨[], ""⟩) :=
  ⟨rfl, rfl,
   (derived_comparisons (runtimeAt sameEnv 0)).1 (some (.Bool true)) (some (.Bool false))
     ⟨[], ""⟩ ⟨[], ""⟩ ⟨[], ""⟩ ⟨[], ""⟩ false false false rfl rfl rfl⟩

/-- A call with one argument of a method that `HasMethod` reports with one parameter: the
body is run with `self` and the parameter bound. -/
theorem Call_unary (env : Env)
    (exec : Statement → Closure → State → Except Exc ObjectHolder × Closure × State)
    (addr : Nat) (class_ : ClassId) (method : String)
    (h : HasMethod env class_ method 1 = true) :
    ∃ mt p, (env.classes class_).GetMethod env method = some mt ∧ mt.formal_params = [p] ∧
      ∀ rhs st, Call env exec addr class_ method [rhs] st =
        ((exec mt.body
            (Closure.set (Closure.set [] "self" (some (.ClassInstance addr class_))) p rhs) st).1,
         (exec mt.body
            (Closure.set (Closure.set [] "self" (some (.ClassInstance addr class_))) p rhs)
            st).2.2) := by
  unfold HasMethod at h
  cases hm : (env.classes class_).GetMethod env method with
  | none => simp [hm] at h
  | some mt =>
    simp only [hm, beq_iff_eq] at h
    obtain ⟨p, hp⟩ := List.length_eq_one.1 h
    refine ⟨mt, p, rfl, hp, ?_⟩
    intro rhs st
    simp [Call, hm, hp, bindParams]

/-- C16: with a class instance on the left whose class, or the parent of that class, has
`__eq__` with one parameter, `Equal(lhs, rhs)` is `IsTrue` of what the call `lhs.__eq__(rhs)`
returns, for every `rhs`; that call runs the body of the method with `self` and the
parameter bound and does not fail on its own. So with an `__eq__` whose body always yields
`True`, `Equal` is true for every `rhs`, another instance and the empty holder included.
The same holds of `Less` and `__lt__`. -/
theorem comparison_calls_method (env : Env) (fuel addr : Nat) (class_ : ClassId) :
    (HasMethod env class_ EQ_METHOD 1 = true →
      ∃ mt p, (env.classes class_).GetMethod env EQ_METHOD = some mt ∧ mt.formal_params = [p] ∧
        ∀ rhs st,
          (runtimeAt env (fuel + 1)).call addr class_ EQ_METHOD [rhs] st =
            ((Execute env (runtimeAt env fuel) mt.body
                (Closure.set (Closure.set [] "self" (some (.ClassInstance addr class_))) p rhs)
                st).1,
             (Execute env (runtimeAt env fuel) mt.body
                (Closure.set (Closure.set [] "self" (some (.ClassInstance addr class_))) p rhs)
                st).2.2) ∧
          Equal (runtimeAt env (fuel + 1)) (some (.ClassInstance addr class_)) rhs st =
            (match (runtimeAt env (fuel + 1)).call addr class_ EQ_METHOD [rhs] st with
             | (.ok result, st1) => (.ok (IsTrue result), st1)
             | (.error e, st1) => (.error e, st1)) ∧
          ((∀ c s, (Execute env (runtimeAt env fuel) mt.body c s).1 = .ok (some (.Bool true))) →
            (Equal (runtimeAt env (fuel + 1)) (some (.ClassInstance addr class_)) rhs st).1
              = .ok true)) ∧
    (HasMethod env class_ LESS_METHOD 1 = true →
      ∃ mt p, (env.classes class_).GetMethod env LESS_METHOD = some mt ∧
        mt.formal_params = [p] ∧
        ∀ rhs st,
          (runtimeAt env (fuel + 1)).call addr class_ LESS_METHOD [rhs] st =
            ((Execute env (runtimeAt env fuel) mt.body
                (Closure.set (Closure.set [] "self" (some (.ClassInstance addr class_))) p rhs)
                st).1,
             (Execute env (runtimeAt env fuel) mt.body
                (Closure.set (Closure.set [] "self" (some (.ClassInstance addr class_))) p rhs)
                st).2.2) ∧
          Less (runtimeAt env (fuel + 1)) (some (.ClassInstance addr class_)) rhs st =
            (match (runtimeAt env (fuel + 1)).call addr class_ LESS_METHOD [rhs] st with
             | (.ok result, st1) => (.ok (IsTrue result), st1)
             | (.error e, st1) => (.error e, st1)) ∧
          ((∀ c s, (Execute env (runtimeAt env fuel) mt.body c s).1 = .ok (some (.Bool true))) →
            (Less (runtimeAt env (fuel + 1)) (some (.ClassInstance addr class_)) rhs st).1
              = .ok true)) := by
  constructor
  · intro h
    obtain ⟨mt, p, hm, hp, hcall⟩ :=
      Call_unary env (Execute env (runtimeAt env fuel)) addr class_ EQ_METHOD h
    refine ⟨mt, p, hm, hp, ?_⟩
    intro rhs st
    have hc : (runtimeAt env (fuel + 1)).call addr class_ EQ_METHOD [rhs] st = _ := hcall rhs st
    refine ⟨hc, rfl, ?_⟩
    intro hT
    have h1 := hT (Closure.set (Closure.set [] "self" (some (.ClassInstance addr class_))) p rhs) st
    simp only [Equal, TryAsClassInstance, hc]
    generalize Execute env (runtimeAt env fuel) mt.body
      (Closure.set (Closure.set [] "self" (some (.ClassInstance addr class_))) p rhs) st = r at h1
    obtain ⟨r1, r2, r3⟩ := r
    simp only at h1
    subst h1
    rfl
  · intro h
    obtain ⟨mt, p, hm, hp, hcall⟩ :=
      Call_unary env (Execute env (runtimeAt env fuel)) addr class_ LESS_METHOD h
    refine ⟨mt, p, hm, hp, ?_⟩
    intro rhs st
    have hc : (runtimeAt env (fuel + 1)).call addr class_ LESS_METHOD [rhs] st = _ := hcall rhs st
    refine ⟨hc, rfl, ?_⟩
    intro hT
    have h1 := hT (Closure.set (Closure.set [] "self" (some (.ClassInstance addr class_))) p rhs) st
    simp only [Less, TryAsClassInstance, hc]
    generalize Execute env (runtimeAt env fuel) mt.body
      (Closure.set (Closure.set [] "self" (some (.ClassInstance addr class_))) p rhs) st = r at h1
    obtain ⟨r1, r2, r3⟩ := r
    simp only at h1
    subst h1
    rfl

/-- The class `Same`, whose `__eq__` and `__lt__` return `True`: an instance is equal to, and
less than, every holder, another instance and the empty holder among them. -/
theorem comparison_calls_method_witness :
    HasMethod sameEnv 0 EQ_METHOD 1 = true ∧ HasMethod sameEnv 0 LESS_METHOD 1 = true ∧
    (∀ rhs st, (Equal (runtimeAt sameEnv 1) (some (.ClassInstance 1 0)) rhs st).1 = .ok true) ∧
    (∀ rhs st, (Less (runtimeAt sameEnv 1) (some (.ClassInstance 1 0)) rhs st).1 = .ok true) ∧
    Equal (runtimeAt sameEnv 1) (some (.ClassInstance 1 0)) (some (.ClassInstance 2 0)) ⟨[], ""⟩
      = (.ok true, ⟨[], ""⟩) ∧
    Equal (runtimeAt sameEnv 1) (some (.ClassInstance 1 0)) none ⟨[], ""⟩
      = (.ok true, ⟨[], ""⟩) := by
  refine ⟨rfl, rfl, ?_, ?_, rfl, rfl⟩
  · obtain ⟨mt, p, hm, _, h⟩ := (comparison_calls_method sameEnv 0 1 0).1 rfl
    have hb : mt.body = .MethodBody (.Return (.BoolConst true)) := by
      have hm2 : (sameEnv.classes 0).GetMethod sameEnv EQ_METHOD
          = some ⟨EQ_METHOD, ["other"], .MethodBody (.Return (.BoolConst true))⟩ := rfl
      rw [hm2] at hm
      rw [← Option.some.inj hm]
    intro rhs st
    refine (h rhs st).2.2 ?_
    intro c s
    rw [hb]
    rfl
  · obtain ⟨mt, p, hm, _, h⟩ := (comparison_calls_method sameEnv 0 1 0).2 rfl
    have hb : mt.body = .MethodBody (.Return (.BoolConst true)) := by
      have hm2 : (sameEnv.classes 0).GetMethod sameEnv LESS_METHOD
          = some ⟨LESS_METHOD, ["other"], .MethodBody (.Return (.BoolConst true))⟩ := rfl
      rw [hm2] at hm
      rw [← Option.some.inj hm]
    intro rhs st
    refine (h rhs st).2.2 ?_
    intro c s
    rw [hb]
    rfl

end runtime

/-! ## Classes and calls (`runtime.cpp`) -/

namespace runtime

open ast

/-- The index of a class finds the last of its methods with the name asked for. -/
theorem vt_methods_last (cls : Class) (name : String) (pre post : List Method) (mt : Method)
    (hm : cls.methods_ = pre ++ mt :: post) (hn : mt.name = name)
    (hp : ∀ m ∈ post, m.name ≠ name) : cls.vt_methods_ name = some mt := by
  unfold Class.vt_methods_
  rw [hm, List.reverse_append, List.reverse_cons, List.append_assoc, List.find?_append]
  have h1 : post.reverse.find? (fun m => m.name == name) = none := by
    rw [List.find?_eq_none]
    intro m hmem
    simpa using hp m (List.mem_reverse.1 hmem)
  rw [h1]
  simp [hn]

/-- The index of a class finds nothing exactly when no method of the class has the name. -/
theorem vt_methods_none (cls : Class) (name : String) :
    cls.vt_methods_ name = none ↔ ∀ m ∈ cls.methods_, m.name ≠ name := by
  unfold Class.vt_methods_
  rw [List.find?_eq_none]
  constructor
  · intro h m hmem
    simpa using h m (List.mem_reverse.2 hmem)
  · intro h m hmem
    simpa using h m (List.mem_reverse.1 hmem)

/-- What the index of a class finds is a method of the class with the name asked for. -/
theorem vt_methods_some (cls : Class) (name : String) (mt : Method)
    (h : cls.vt_methods_ name = some mt) : mt ∈ cls.methods_ ∧ mt.name = name := by
  unfold Class.vt_methods_ at h
  have h1 := List.find?_some h
  have h2 := List.mem_of_find?_eq_some h
  exact ⟨List.mem_reverse.1 h2, by simpa using h1⟩

/-- C17: `GetMethod(name)` is the own method called `name` when the class has one (the last
in `methods_` when several carry the name), whatever the parent has; without an own one it
is the own method called `name` of the direct parent when there is a parent that has one;
and it is absent when neither has one. A method it returns is called `name` and is among
the methods of the class or of its direct parent. -/
theorem GetMethod_own_then_parent (env : Env) (cls : Class) (name : String) :
    (∀ (pre post : List Method) (mt : Method), cls.methods_ = pre ++ mt :: post →
      mt.name = name → (∀ m ∈ post, m.name ≠ name) → cls.GetMethod env name = some mt) ∧
    (∀ (parent : ClassId) (pre post : List Method) (mt : Method),
      (∀ m ∈ cls.methods_, m.name ≠ name) → cls.parent_ = some parent →
      (env.classes parent).methods_ = pre ++ mt :: post → mt.name = name →
      (∀ m ∈ post, m.name ≠ name) → cls.GetMethod env name = some mt) ∧
    ((∀ m ∈ cls.methods_, m.name ≠ name) →
      (cls.parent_ = none ∨
        ∃ parent, cls.parent_ = some parent ∧ ∀ m ∈ (env.classes parent).methods_, m.name ≠ name) →
      cls.GetMethod env name = none) ∧
    (∀ mt, cls.GetMethod env name = some mt →
      mt.name = name ∧
      (mt ∈ cls.methods_ ∨
        ∃ parent, cls.parent_ = some parent ∧ mt ∈ (env.classes parent).methods_)) := by
  refine ⟨?_, ?_, ?_, ?_⟩
  · intro pre post mt hm hn hp
    simp [Class.GetMethod, vt_methods_last cls name pre post mt hm hn hp]
  · intro parent pre post mt hown hpar hm hn hp
    simp [Class.GetMethod, (vt_methods_none cls name).2 hown, hpar,
      vt_methods_last (env.classes parent) name pre post mt hm hn hp]
  · intro hown hpar
    rcases hpar with hpar | ⟨parent, hpar, hnone⟩
    · simp [Class.GetMethod, (vt_methods_none cls name).2 hown, hpar]
    · simp [Class.GetMethod, (vt_methods_none cls name).2 hown, hpar,
        (vt_methods_none (env.classes parent) name).2 hnone]
  · intro mt h
    unfold Class.GetMethod at h
    cases hv : cls.vt_methods_ name with
    | some m =>
      rw [hv] at h
      simp only [Option.some.injEq] at h
      subst h
      exact ⟨(vt_methods_some cls name m hv).2, Or.inl (vt_methods_some cls name m hv).1⟩
    | none =>
      rw [hv] at h
      cases hp : cls.parent_ with
      | none =>
        rw [hp] at h
        simp at h
      | some parent =>
        rw [hp] at h
        simp only at h
        exact ⟨(vt_methods_some _ name mt h).2, Or.inr ⟨parent, rfl, (vt_methods_some _ name mt h).1⟩⟩

/-- The class `B` of the family, derived from `A`: its own `f` hides the `f` of `A`, the `g`
of `A` is found through the parent, and no `h` is found. -/
theorem GetMethod_own_then_parent_witness :
    (familyEnv.classes 1).GetMethod familyEnv "f"
      = some ⟨"f", [], .MethodBody (.Return (.NumericConst 3))⟩ ∧
    (familyEnv.classes 1).GetMethod familyEnv "g"
      = some ⟨"g", [], .MethodBody (.Return (.NumericConst 2))⟩ ∧
    (familyEnv.classes 1).GetMethod familyEnv "h" = none :=
  ⟨(GetMethod_own_then_parent familyEnv (familyEnv.classes 1) "f").1 [] [] _ rfl rfl
      (by simp),
   (GetMethod_own_then_parent familyEnv (familyEnv.classes 1) "g").2.1 0
      [⟨"f", [], .MethodBody (.Return (.NumericConst 1))⟩] [] _ (by simp [familyEnv]) rfl rfl rfl
      (by simp),
   (GetMethod_own_then_parent familyEnv (familyEnv.classes 1) "h").2.2.1 (by simp [familyEnv])
      (Or.inr ⟨0, rfl, by simp [familyEnv]⟩)⟩

/-- C18, the code at a chain of three classes: from the grandchild `C` the method `g`, which
only the grandparent `A` has, is not found, where the lookup along the whole chain finds it;
a call of `g` on an instance of `C` is refused. The `f` of the parent `B` is found, and so
is `g` from `B`. -/
theorem grandparent_method_not_found :
    (familyEnv.classes 2).GetMethod familyEnv "g" = none ∧
    chainMethod familyEnv 3 (familyEnv.classes 2) "g"
      = some ⟨"g", [], .MethodBody (.Return (.NumericConst 2))⟩ ∧
    Execute familyEnv (runtimeAt familyEnv 1) (.MethodCall (.VariableValue "c" []) "g" [])
      [("c", some (.ClassInstance 7 2))] ⟨[], ""⟩
      = (.error (.runtime_error "Class has no method g"),
         [("c", some (.ClassInstance 7 2))], ⟨[], ""⟩) ∧
    (familyEnv.classes 2).GetMethod familyEnv "f"
      = some ⟨"f", [], .MethodBody (.Return (.NumericConst 3))⟩ ∧
    (familyEnv.classes 1).GetMethod familyEnv "g"
      = some ⟨"g", [], .MethodBody (.Return (.NumericConst 2))⟩ :=
  ⟨rfl, rfl, rfl, rfl, rfl⟩

/-- A name that has just been bound is found with its holder. -/
theorem find_set_same (c : Closure) (k : String) (v : ObjectHolder) :
    (Closure.set c k v).find k = some v := by
  induction c with
  | nil => simp [Closure.set, Closure.find, List.lookup]
  | cons kv rest ih =>
    obtain ⟨k1, v1⟩ := kv
    by_cases h : k1 = k
    · subst h
      simp [Closure.set, Closure.find, List.lookup]
    · have hb : (k == k1) = false := by simpa using fun e => h e.symm
      simp only [Closure.set, if_neg h]
      simp only [Closure.find, List.lookup, hb]
      exact ih

/-- Binding a name leaves the other names as they were. -/
theorem find_set_other (c : Closure) (k k1 : String) (v : ObjectHolder) (h : k1 ≠ k) :
    (Closure.set c k v).find k1 = c.find k1 := by
  induction c with
  | nil =>
    have hb : (k1 == k) = false := by simpa using h
    simp [Closure.set, Closure.find, List.lookup, hb]
  | cons kv rest ih =>
    obtain ⟨k2, v2⟩ := kv
    by_cases h2 : k2 = k
    · subst h2
      have hb : (k1 == k2) = false := by simpa using h
      simp [Closure.set, Closure.find, List.lookup, hb]
    · simp only [Closure.set, if_neg h2]
      by_cases h3 : k1 = k2
      · subst h3
        simp [Closure.find, List.lookup]
      · have hb : (k1 == k2) = false := by simpa using h3
        simp only [Closure.find, List.lookup, hb]
        exact ih

/-- The loop that binds the parameters leaves a name that is no parameter as it was. -/
theorem bindParams_find_other (name : String) :
    ∀ (params : List String) (actuals : List ObjectHolder) (c : Closure), name ∉ params →
      (bindParams c params actuals).find name = c.find name := by
  intro params
  induction params with
  | nil =>
    intro actuals c _
    cases actuals <;> rfl
  | cons p ps ih =>
    intro actuals c hn
    cases actuals with
    | nil => rfl
    | cons a as =>
      simp only [List.mem_cons, not_or] at hn
      simp only [bindParams]
      rw [ih as _ hn.2, find_set_other c p name a hn.1]

/-- The loop that binds the parameters binds each of a list of distinct parameters to the
actual argument at its position. -/
theorem bindParams_find_param :
    ∀ (params : List String) (actuals : List ObjectHolder) (c : Closure), params.Nodup →
      ∀ (i : Nat) (p : String) (a : ObjectHolder), params[i]? = some p → actuals[i]? = some a →
        (bindParams c params actuals).find p = some a := by
  intro params
  induction params with
  | nil =>
    intro actuals c _ i p a hp _
    simp at hp
  | cons q qs ih =>
    intro actuals c hnd i p a hp ha
    cases actuals with
    | nil => simp at ha
    | cons b bs =>
      rw [List.nodup_cons] at hnd
      simp only [bindParams]
      cases i with
      | zero =>
        simp only [List.getElem?_cons_zero, Option.some.injEq] at hp ha
        subst hp
        subst ha
        rw [bindParams_find_other q qs bs _ hnd.1, find_set_same]
      | succ i =>
        simp only [List.getElem?_cons_succ] at hp ha
        exact ih bs _ hnd.2 i p a hp ha

/-- C19: `Call(method, args)` raises its runtime error exactly when `GetMethod(method)` is
absent or the number of formal parameters differs from the number of arguments: in those
cases it fails whatever the bodies of the methods do, and in no other case. Otherwise it
runs the body of the method in a closure built from the empty one, and what the body yields
(a value or what it throws) is what `Call` yields. With distinct parameter names other than
`self` that closure binds `self` to the receiver, each parameter to the argument at its
position, and no other name. -/
theorem Call_contract (env : Env) (addr : Nat) (class_ : ClassId) (method : String)
    (actual_args : List ObjectHolder) (st : State) :
    ((∀ exec, Call env exec addr class_ method actual_args st
        = (.error (.runtime_error "Not implemented"), st)) ↔
      ((env.classes class_).GetMethod env method = none ∨
        ∃ mt, (env.classes class_).GetMethod env method = some mt ∧
          mt.formal_params.length ≠ actual_args.length)) ∧
    (∀ mt, (env.classes class_).GetMethod env method = some mt →
      mt.formal_params.length = actual_args.length →
      ∃ args : Closure,
        args = bindParams (Closure.set [] "self" (some (.ClassInstance addr class_)))
          mt.formal_params actual_args ∧
        (∀ exec, Call env exec addr class_ method actual_args st
          = ((exec mt.body args st).1, (exec mt.body args st).2.2)) ∧
        (mt.formal_params.Nodup → "self" ∉ mt.formal_params →
          args.find "self" = some (some (.ClassInstance addr class_)) ∧
          (∀ (i : Nat) (p : String) (a : ObjectHolder), mt.formal_params[i]? = some p →
            actual_args[i]? = some a → args.find p = some a) ∧
          (∀ name, name ≠ "self" → name ∉ mt.formal_params → args.find name = none))) := by
  constructor
  · constructor
    · intro h
      cases hm : (env.classes class_).GetMethod env method with
      | none => exact Or.inl rfl
      | some mt =>
        right
        refine ⟨mt, rfl, ?_⟩
        intro hlen
        have h1 := h (fun _ _ s => (.ok none, [], s))
        simp [Call, hm, hlen] at h1
    · intro h exec
      rcases h with hm | ⟨mt, hm, hlen⟩
      · simp [Call, hm]
      · simp [Call, hm, hlen]
  · intro mt hm hlen
    refine ⟨_, rfl, ?_, ?_⟩
    · intro exec
      simp [Call, hm, hlen]
    · intro hnd hself
      refine ⟨?_, ?_, ?_⟩
      · rw [bindParams_find_other "self" _ _ _ hself, find_set_same]
      · intro i p a hp ha
        exact bindParams_find_param _ _ _ hnd i p a hp ha
      · intro name hne hnp
        rw [bindParams_find_other name _ _ _ hnp, find_set_other _ _ _ _ hne]
        rfl

/-- Calls on an instance of `Same`: a method the class does not have and a call of `__eq__`
without argument are refused; a call of `__eq__` with the argument 5 runs the body in a
closure that binds `self` to the receiver and `other` to 5 and nothing else. -/
theorem Call_contract_witness :
    (∀ exec, Call sameEnv exec 1 0 "size" [] ⟨[], ""⟩
      = (.error (.runtime_error "Not implemented"), ⟨[], ""⟩)) ∧
    (∀ exec, Call sameEnv exec 1 0 EQ_METHOD [] ⟨[], ""⟩
      = (.error (.runtime_error "Not implemented"), ⟨[], ""⟩)) ∧
    (∃ args : Closure,
      args = [("self", some (.ClassInstance 1 0)), ("other", some (.Number 5))] ∧
      (∀ exec, Call sameEnv exec 1 0 EQ_METHOD [some (.Number 5)] ⟨[], ""⟩
        = ((exec (.MethodBody (.Return (.BoolConst true))) args ⟨[], ""⟩).1,
           (exec (.MethodBody (.Return (.BoolConst true))) args ⟨[], ""⟩).2.2)) ∧
      args.find "self" = some (some (.ClassInstance 1 0)) ∧
      args.find "other" = some (some (.Number 5)) ∧
      args.find "x" = none) := by
  refine ⟨(Call_contract sameEnv 1 0 "size" [] ⟨[], ""⟩).1.2 (Or.inl rfl),
    (Call_contract sameEnv 1 0 EQ_METHOD [] ⟨[], ""⟩).1.2 (Or.inr ⟨_, rfl, by decide⟩), ?_⟩
  obtain ⟨args, hargs, hcall, hfind⟩ :=
    (Call_contract sameEnv 1 0 EQ_METHOD [some (.Number 5)] ⟨[], ""⟩).2
      ⟨EQ_METHOD, ["other"], .MethodBody (.Return (.BoolConst true))⟩ rfl rfl
  obtain ⟨hself, hparam, hother⟩ := hfind (by decide) (by decide)
  exact ⟨args, hargs, hcall, hself, hparam 0 "other" _ rfl rfl, hother "x" (by decide) (by decide)⟩

end runtime

/-! ## The closure of the caller (`statement.cpp`) -/

namespace ast

open runtime

theorem closure_of_eq {α : Type} {a res : α} {c c1 : Closure} {st st1 : State}
    (h : (a, c, st) = (res, c1, st1)) : c = c1 := by
  cases h
  rfl

theorem StringifyValue_closure (env : Env) (rt : Runtime) (obj : ObjectHolder) (c : Closure)
    (st : State) : (StringifyValue env rt obj c st).2.1 = c := by
  unfold StringifyValue
  cases obj with
  | none => rfl
  | some object =>
    simp only
    rcases PrintObject env rt object st with ⟨r, st1⟩
    cases r <;> rfl

theorem AddValues_closure (rt : Runtime) (lhs rhs : ObjectHolder) (c : Closure) (st : State) :
    (AddValues rt lhs rhs c st).2.1 = c := by
  unfold AddValues
  cases TryAsClassInstance lhs <;> rfl

mutual

/-- A statement without a binding node leaves the closure it is executed in as it was,
whatever it yields and whatever the methods it calls do. -/
theorem Execute_closure (env : Env) (rt : Runtime) :
    ∀ (s : Statement) (c : Closure) (st : State) (res : Except Exc ObjectHolder)
      (c' : Closure) (st' : State),
      NoAssignment s = true → Execute env rt s c st = (res, c', st') → c = c'
  | .NumericConst _, c, st, res, c', st', _, h => by
    rw [Execute] at h
    exact closure_of_eq h
  | .StringConst _, c, st, res, c', st', _, h => by
    rw [Execute] at h
    exact closure_of_eq h
  | .BoolConst _, c, st, res, c', st', _, h => by
    rw [Execute] at h
    exact closure_of_eq h
  | .None, c, st, res, c', st', _, h => by
    rw [Execute] at h
    exact closure_of_eq h
  | .Assignment _ _, _, _, _, _, _, hf, _ => by
    simp [NoAssignment] at hf
  | .VariableValue _ _, c, st, res, c', st', _, h => by
    rw [Execute] at h
    exact closure_of_eq h
  | .Print args_, c, st, res, c', st', hf, h => by
    rw [NoAssignment] at hf
    rw [Execute] at h
    exact PrintArgs_closure env rt true args_ c st res c' st' hf h
  | .MethodCall object_ method_ args_, c, st, res, c', st', hf, h => by
    rw [NoAssignment, Bool.and_eq_true] at hf
    rw [Execute] at h
    rcases ho : Execute env rt object_ c st with ⟨r1, c1, st1⟩
    obtain rfl := Execute_closure env rt object_ c st r1 c1 st1 hf.1 ho
    rw [ho] at h
    cases r1 with
    | error e => exact closure_of_eq h
    | ok object =>
      dsimp only at h
      cases hi : TryAsClassInstance object with
      | none =>
        rw [hi] at h
        exact closure_of_eq h
      | some clsInst =>
        rw [hi] at h
        dsimp only at h
        split at h
        · rcases ha : ExecuteArgs env rt args_ c st1 with ⟨r2, c2, st2⟩
          obtain rfl := ExecuteArgs_closure env rt args_ c st1 r2 c2 st2 hf.2 ha
          rw [ha] at h
          cases r2 <;> exact closure_of_eq h
        · exact closure_of_eq h
  | .Stringify arg_, c, st, res, c', st', hf, h => by
    rw [NoAssignment] at hf
    rw [Execute] at h
    rcases ha : Execute env rt arg_ c st with ⟨r1, c1, st1⟩
    obtain rfl := Execute_closure env rt arg_ c st r1 c1 st1 hf ha
    rw [ha] at h
    cases r1 with
    | error e => exact closure_of_eq h
    | ok obj =>
      dsimp only at h
      have hs := StringifyValue_closure env rt obj c st1
      rw [h] at hs
      exact hs.symm
  | .Add lhs_ rhs_, c, st, res, c', st', hf, h => by
    rw [NoAssignment, Bool.and_eq_true] at hf
    rw [Execute] at h
    rcases hl : Execute env rt lhs_ c st with ⟨r1, c1, st1⟩
    obtain rfl := Execute_closure env rt lhs_ c st r1 c1 st1 hf.1 hl
    rw [hl] at h
    cases r1 with
    | error e => exact closure_of_eq h
    | ok lhs =>
      dsimp only at h
      rcases hr : Execute env rt rhs_ c st1 with ⟨r2, c2, st2⟩
      obtain rfl := Execute_closure env rt rhs_ c st1 r2 c2 st2 hf.2 hr
      rw [hr] at h
      cases r2 with
      | error e => exact closure_of_eq h
      | ok rhs =>
        dsimp only at h
        have hs := AddValues_closure rt lhs rhs c st2
        rw [h] at hs
        exact hs.symm
  | .Sub lhs_ rhs_, c, st, res, c', st', hf, h => by
    rw [NoAssignment, Bool.and_eq_true] at hf
    rw [Execute] at h
    rcases hl : Execute env rt lhs_ c st with ⟨r1, c1, st1⟩
    obtain rfl := Execute_closure env rt lhs_ c st r1 c1 st1 hf.1 hl
    rw [hl] at h
    cases r1 with
    | error e => exact closure_of_eq h
    | ok lhs =>
      dsimp only at h
      rcases hr : Execute env rt rhs_ c st1 with ⟨r2, c2, st2⟩
      obtain rfl := Execute_closure env rt rhs_ c st1 r2 c2 st2 hf.2 hr
      rw [hr] at h
      cases r2 with
      | error e => exact closure_of_eq h
      | ok rhs =>
        dsimp only at h
        exact closure_of_eq h
  | .Mult lhs_ rhs_, c, st, res, c', st', hf, h => by
    rw [NoAssignment, Bool.and_eq_true] at hf
    rw [Execute] at h
    rcases hl : Execute env rt lhs_ c st with ⟨r1, c1, st1⟩
    obtain rfl := Execute_closure env rt lhs_ c st r1 c1 st1 hf.1 hl
    rw [hl] at h
    cases r1 with
    | error e => exact closure_of_eq h
    | ok lhs =>
      dsimp only at h
      rcases hr : Execute env rt rhs_ c st1 with ⟨r2, c2, st2⟩
      obtain rfl := Execute_closure env rt rhs_ c st1 r2 c2 st2 hf.2 hr
      rw [hr] at h
      cases r2 with
      | error e => exact closure_of_eq h
      | ok rhs =>
        dsimp only at h
        exact closure_of_eq h
  | .Div lhs_ rhs_, c, st, res, c', st', hf, h => by
    rw [NoAssignment, Bool.and_eq_true] at hf
    rw [Execute] at h
    rcases hl : Execute env rt lhs_ c st with ⟨r1, c1, st1⟩
    obtain rfl := Execute_closure env rt lhs_ c st r1 c1 st1 hf.1 hl
    rw [hl] at h
    cases r1 with
    | error e => exact closure_of_eq h
    | ok lhs =>
      dsimp only at h
      rcases hr : Execute env rt rhs_ c st1 with ⟨r2, c2, st2⟩
      obtain rfl := Execute_closure env rt rhs_ c st1 r2 c2 st2 hf.2 hr
      rw [hr] at h
      cases r2 with
      | error e => exact closure_of_eq h
      | ok rhs =>
        dsimp only at h
        exact closure_of_eq h
  | .Compound args_, c, st, res, c', st', hf, h => by
    rw [NoAssignment] at hf
    rw [Execute] at h
    exact ExecuteEach_closure env rt args_ c st res c' st' hf h
  | .Return stmt_, c, st, res, c', st', hf, h => by
    rw [NoAssignment] at hf
    rw [Execute] at h
    rcases ha : Execute env rt stmt_ c st with ⟨r1, c1, st1⟩
    obtain rfl := Execute_closure env rt stmt_ c st r1 c1 st1 hf ha
    rw [ha] at h
    cases r1 <;> exact closure_of_eq h
  | .ClassDefinition _, _, _, _, _, _, hf, _ => by
    simp [NoAssignment] at hf
  | .FieldAssignment object_var_name_ object_dotted_ids_ field_name_ rv_, c, st, res, c', st',
      hf, h => by
    rw [NoAssignment] at hf
    rw [Execute] at h
    cases hv : VariableValueExecute st c object_var_name_ object_dotted_ids_ with
    | error e =>
      rw [hv] at h
      exact closure_of_eq h
    | ok object =>
      rw [hv] at h
      dsimp only at h
      cases hi : TryAsClassInstance object with
      | none =>
        rw [hi] at h
        exact closure_of_eq h
      | some obj =>
        rw [hi] at h
        dsimp only at h
        rcases hr : Execute env rt rv_ c st with ⟨r1, c1, st1⟩
        obtain rfl := Execute_closure env rt rv_ c st r1 c1 st1 hf hr
        rw [hr] at h
        cases r1 <;> exact closure_of_eq h
  | .IfElse condition_ if_body_ else_body_, c, st, res, c', st', hf, h => by
    rw [NoAssignment, Bool.and_eq_true, Bool.and_eq_true] at hf
    rw [Execute] at h
    rcases hc : Execute env rt condition_ c st with ⟨r1, c1, st1⟩
    obtain rfl := Execute_closure env rt condition_ c st r1 c1 st1 hf.1.1 hc
    rw [hc] at h
    cases r1 with
    | error e => exact closure_of_eq h
    | ok if_cnd =>
      dsimp only at h
      rcases hb : TryAsBool if_cnd with _ | b
      · rw [hb] at h
        exact closure_of_eq h
      · rw [hb] at h
        cases b with
        | true =>
          dsimp only at h
          rcases ht : Execute env rt if_body_ c st1 with ⟨r2, c2, st2⟩
          obtain rfl := Execute_closure env rt if_body_ c st1 r2 c2 st2 hf.1.2 ht
          rw [ht] at h
          cases r2 <;> exact closure_of_eq h
        | false =>
          dsimp only at h
          rcases he : ExecuteIfPresent env rt else_body_ c st1 with ⟨r2, c2, st2⟩
          obtain rfl := ExecuteIfPresent_closure env rt else_body_ c st1 r2 c2 st2 hf.2 he
          rw [he] at h
          cases r2 <;> exact closure_of_eq h
  | .Or lhs_ rhs_, c, st, res, c', st', hf, h => by
    rw [NoAssignment, Bool.and_eq_true] at hf
    rw [Execute] at h
    rcases hl : Execute env rt lhs_ c st with ⟨r1, c1, st1⟩
    obtain rfl := Execute_closure env rt lhs_ c st r1 c1 st1 hf.1 hl
    rw [hl] at h
    cases r1 with
    | error e => exact closure_of_eq h
    | ok lhs =>
      dsimp only at h
      rcases hb : TryAsBool lhs with _ | b
      · rw [hb] at h
        exact closure_of_eq h
      · rw [hb] at h
        cases b with
        | true => exact closure_of_eq h
        | false =>
          dsimp only at h
          rcases hr : Execute env rt rhs_ c st1 with ⟨r2, c2, st2⟩
          obtain rfl := Execute_closure env rt rhs_ c st1 r2 c2 st2 hf.2 hr
          rw [hr] at h
          cases r2 <;> exact closure_of_eq h
  | .And lhs_ rhs_, c, st, res, c', st', hf, h => by
    rw [NoAssignment, Bool.and_eq_true] at hf
    rw [Execute] at h
    rcases hl : Execute env rt lhs_ c st with ⟨r1, c1, st1⟩
    obtain rfl := Execute_closure env rt lhs_ c st r1 c1 st1 hf.1 hl
    rw [hl] at h
    cases r1 with
    | error e => exact closure_of_eq h
    | ok lhs =>
      dsimp only at h
      rcases hb : TryAsBool lhs with _ | b
      · rw [hb] at h
        exact closure_of_eq h
      · rw [hb] at h
        cases b with
        | false => exact closure_of_eq h
        | true =>
          dsimp only at h
          rcases hr : Execute env rt rhs_ c st1 with ⟨r2, c2, st2⟩
          obtain rfl := Execute_closure env rt rhs_ c st1 r2 c2 st2 hf.2 hr
          rw [hr] at h
          cases r2 <;> exact closure_of_eq h
  | .Not arg_, c, st, res, c', st', hf, h => by
    rw [NoAssignment] at hf
    rw [Execute] at h
    rcases ha : Execute env rt arg_ c st with ⟨r1, c1, st1⟩
    obtain rfl := Execute_closure env rt arg_ c st r1 c1 st1 hf ha
    rw [ha] at h
    cases r1 with
    | error e => exact closure_of_eq h
    | ok arg =>
      dsimp only at h
      cases hb : TryAsBool arg <;> rw [hb] at h <;> exact closure_of_eq h
  | .Comparison cmp_ lhs_ rhs_, c, st, res, c', st', hf, h => by
    rw [NoAssignment, Bool.and_eq_true] at hf
    rw [Execute] at h
    rcases hr : Execute env rt rhs_ c st with ⟨r1, c1, st1⟩
    obtain rfl := Execute_closure env rt rhs_ c st r1 c1 st1 hf.2 hr
    rw [hr] at h
    cases r1 with
    | error e => exact closure_of_eq h
    | ok rhs =>
      dsimp only at h
      rcases hl : Execute env rt lhs_ c st1 with ⟨r2, c2, st2⟩
      obtain rfl := Execute_closure env rt lhs_ c st1 r2 c2 st2 hf.1 hl
      rw [hl] at h
      cases r2 with
      | error e => exact closure_of_eq h
      | ok lhs =>
        dsimp only at h
        rcases hcmp : cmp_.apply rt lhs rhs st2 with ⟨r3, st3⟩
        rw [hcmp] at h
        cases r3 <;> exact closure_of_eq h
  | .NewInstance class__ class_ args_, c, st, res, c', st', hf, h => by
    rw [NoAssignment] at hf
    rw [Execute] at h
    split at h
    · rcases ha : ExecuteArgs env rt args_ c st with ⟨r1, c1, st1⟩
      obtain rfl := ExecuteArgs_closure env rt args_ c st r1 c1 st1 hf ha
      rw [ha] at h
      cases r1 with
      | error e => exact closure_of_eq h
      | ok args =>
        dsimp only at h
        rcases hcall : rt.call class__ class_ INIT_METHOD args st1 with ⟨r2, st2⟩
        rw [hcall] at h
        cases r2 <;> exact closure_of_eq h
    · exact closure_of_eq h
  | .MethodBody body_, c, st, res, c', st', hf, h => by
    rw [NoAssignment] at hf
    rw [Execute] at h
    rcases ha : Execute env rt body_ c st with ⟨r1, c1, st1⟩
    obtain rfl := Execute_closure env rt body_ c st r1 c1 st1 hf ha
    rw [ha] at h
    cases r1 <;> exact closure_of_eq h

theorem ExecuteIfPresent_closure (env : Env) (rt : Runtime) :
    ∀ (s : Option Statement) (c : Closure) (st : State) (res : Except Exc ObjectHolder)
      (c' : Closure) (st' : State),
      NoAssignmentIfPresent s = true → ExecuteIfPresent env rt s c st = (res, c', st') → c = c'
  | none, c, st, res, c', st', _, h => by
    rw [ExecuteIfPresent] at h
    exact closure_of_eq h
  | some else_body, c, st, res, c', st', hf, h => by
    rw [NoAssignmentIfPresent] at hf
    rw [ExecuteIfPresent] at h
    exact Execute_closure env rt else_body c st res c' st' hf h

theorem ExecuteEach_closure (env : Env) (rt : Runtime) :
    ∀ (args_ : List Statement) (c : Closure) (st : State) (res : Except Exc ObjectHolder)
      (c' : Closure) (st' : State),
      NoAssignmentEach args_ = true → ExecuteEach env rt args_ c st = (res, c', st') → c = c'
  | [], c, st, res, c', st', _, h => by
    rw [ExecuteEach] at h
    exact closure_of_eq h
  | arg :: rest, c, st, res, c', st', hf, h => by
    rw [NoAssignmentEach, Bool.and_eq_true] at hf
    rw [ExecuteEach] at h
    rcases ha : Execute env rt arg c st with ⟨r1, c1, st1⟩
    obtain rfl := Execute_closure env rt arg c st r1 c1 st1 hf.1 ha
    rw [ha] at h
    cases r1 with
    | error e => exact closure_of_eq h
    | ok v =>
      dsimp only at h
      exact ExecuteEach_closure env rt rest c st1 res c' st' hf.2 h

theorem ExecuteArgs_closure (env : Env) (rt : Runtime) :
    ∀ (args_ : List Statement) (c : Closure) (st : State)
      (res : Except Exc (List ObjectHolder)) (c' : Closure) (st' : State),
      NoAssignmentEach args_ = true → ExecuteArgs env rt args_ c st = (res, c', st') → c = c'
  | [], c, st, res, c', st', _, h => by
    rw [ExecuteArgs] at h
    exact closure_of_eq h
  | arg :: rest, c, st, res, c', st', hf, h => by
    rw [NoAssignmentEach, Bool.and_eq_true] at hf
    rw [ExecuteArgs] at h
    rcases ha : Execute env rt arg c st with ⟨r1, c1, st1⟩
    obtain rfl := Execute_closure env rt arg c st r1 c1 st1 hf.1 ha
    rw [ha] at h
    cases r1 with
    | error e => exact closure_of_eq h
    | ok v =>
      dsimp only at h
      rcases hr : ExecuteArgs env rt rest c st1 with ⟨r2, c2, st2⟩
      obtain rfl := ExecuteArgs_closure env rt rest c st1 r2 c2 st2 hf.2 hr
      rw [hr] at h
      cases r2 <;> exact closure_of_eq h

theorem PrintArgs_closure (env : Env) (rt : Runtime) :
    ∀ (first : Bool) (args_ : List Statement) (c : Closure) (st : State)
      (res : Except Exc ObjectHolder) (c' : Closure) (st' : State),
      NoAssignmentEach args_ = true → PrintArgs env rt first args_ c st = (res, c', st') →
      c = c'
  | first, [], c, st, res, c', st', _, h => by
    rw [PrintArgs] at h
    exact closure_of_eq h
  | first, arg :: rest, c, st, res, c', st', hf, h => by
    rw [NoAssignmentEach, Bool.and_eq_true] at hf
    rw [PrintArgs] at h
    rcases ha : Execute env rt arg c st with ⟨r1, c1, st1⟩
    obtain rfl := Execute_closure env rt arg c st r1 c1 st1 hf.1 ha
    rw [ha] at h
    cases r1 with
    | error e => exact closure_of_eq h
    | ok result =>
      dsimp only at h
      cases result with
      | none =>
        dsimp only at h
        exact PrintArgs_closure env rt false rest c _ res c' st' hf.2 h
      | some obj =>
        dsimp only at h
        rcases hp : PrintObject env rt obj (st1.write (if first then "" else " "))
          with ⟨r2, st3⟩
        rw [hp] at h
        cases r2 with
        | error e => exact closure_of_eq h
        | ok text =>
          dsimp only at h
          exact PrintArgs_closure env rt false rest c _ res c' st' hf.2 h

end

/-- C20: a method call leaves the closure of the caller as it was. When the receiver and
the argument expressions hold no node that binds a name (or, more generally, when executing
them leaves the closure as it was), the closure behind the call is the closure before it,
with the same names bound to the same holders: for every class and method body of the
program, every depth of calls, and whether the call yields a value or throws. -/
theorem method_call_keeps_closure (env : Env) (rt : Runtime) (object_ : Statement)
    (method_ : String) (args_ : List Statement) (c : Closure) (st : State) :
    (NoAssignment object_ = true → NoAssignmentEach args_ = true →
      (Execute env rt (.MethodCall object_ method_ args_) c st).2.1 = c) ∧
    ((Execute env rt object_ c st).2.1 = c →
      (∀ st1, (ExecuteArgs env rt args_ c st1).2.1 = c) →
      (Execute env rt (.MethodCall object_ method_ args_) c st).2.1 = c) := by
  constructor
  · intro ho ha
    have hf : NoAssignment (.MethodCall object_ method_ args_) = true := by
      rw [NoAssignment, ho, ha]
      rfl
    exact (Execute_closure env rt _ c st _ _ _ hf rfl).symm
  · intro ho ha
    rw [Execute]
    rcases hx : Execute env rt object_ c st with ⟨r1, c1, st1⟩
    rw [hx] at ho
    simp only at ho
    subst ho
    cases r1 with
    | error e => rfl
    | ok object =>
      dsimp only
      cases TryAsClassInstance object with
      | none => rfl
      | some clsInst =>
        dsimp only
        split
        · have h2 := ha st1
          rcases hy : ExecuteArgs env rt args_ c1 st1 with ⟨r2, c2, st2⟩
          rw [hy] at h2
          simp only at h2
          subst h2
          cases r2 <;> rfl
        · rfl

/-- A call of `bump(5)` on a `Box` from a closure that binds `x` to 1 and `b` to the box:
the method assigns 5 to its own `x` and 9 to its own `y` and returns 5; the closure of the
caller still binds `x` to 1 and has no `y`. -/
theorem method_call_keeps_closure_witness :
    NoAssignment (.VariableValue "b" []) = true ∧ NoAssignmentEach [.NumericConst 5] = true ∧
    (Execute boxEnv (runtimeAt boxEnv 1)
      (.MethodCall (.VariableValue "b" []) "bump" [.NumericConst 5])
      [("x", some (.Number 1)), ("b", some (.ClassInstance 1 0))] ⟨[], ""⟩).2.1
      = [("x", some (.Number 1)), ("b", some (.ClassInstance 1 0))] ∧
    Execute boxEnv (runtimeAt boxEnv 1)
      (.MethodCall (.VariableValue "b" []) "bump" [.NumericConst 5])
      [("x", some (.Number 1)), ("b", some (.ClassInstance 1 0))] ⟨[], ""⟩
      = (.ok (some (.Number 5)), [("x", some (.Number 1)), ("b", some (.ClassInstance 1 0))],
         ⟨[], ""⟩) :=
  ⟨rfl, rfl,
   (method_call_keeps_closure boxEnv (runtimeAt boxEnv 1) (.VariableValue "b" []) "bump"
      [.NumericConst 5] [("x", some (.Number 1)), ("b", some (.ClassInstance 1 0))]
      ⟨[], ""⟩).1 rfl rfl,
   rfl⟩

end ast

/-! ## Single nodes: `NewInstance`, `MethodBody`, `IfElse`, `Or` (`statement.cpp`) -/

namespace ast

open runtime

/-- C21, the code at two executions of one `NewInstance` node: `make()` is called twice, the
field `v` is set to 5 on the instance the first call returned, and `v` read from the instance
the second call returned is 5. Both are the instance at address 10, and the second, of a
class without `__init__`, comes back with the field `v`. -/
theorem two_executions_share_instance :
    Execute factoryEnv (runtimeAt factoryEnv 2) twoCounters
      [("f", some (.ClassInstance 20 1))] ⟨[], ""⟩
      = (.ok (some (.Number 5)),
         [("f", some (.ClassInstance 20 1)), ("a", some (.ClassInstance 10 0)),
          ("b", some (.ClassInstance 10 0))],
         ⟨[(10, [("v", some (.Number 5))])], ""⟩) ∧
    HasMethod factoryEnv 0 INIT_METHOD 0 = false := by
  constructor
  · rfl
  · rfl

/-- C21 as the code has it: a `NewInstance` node yields the instance it holds itself. Every
execution that returns, returns that one instance, whatever the closure and the state; for a
class without a matching `__init__` nothing else happens, so the instance has the fields it
had before; with a matching `__init__` the arguments are evaluated and `__init__` is called
on that instance, its value being discarded. -/
theorem NewInstance_returns_node_instance (env : Env) (rt : Runtime) (class__ : Nat)
    (class_ : ClassId) (args_ : List Statement) (c : Closure) (st : State) :
    (∀ v c1 st1, Execute env rt (.NewInstance class__ class_ args_) c st = (.ok v, c1, st1) →
      v = some (.ClassInstance class__ class_)) ∧
    (HasMethod env class_ INIT_METHOD args_.length = false →
      Execute env rt (.NewInstance class__ class_ args_) c st
        = (.ok (some (.ClassInstance class__ class_)), c, st)) ∧
    (HasMethod env class_ INIT_METHOD args_.length = true →
      ∀ args c1 st1 r st2, ExecuteArgs env rt args_ c st = (.ok args, c1, st1) →
        rt.call class__ class_ INIT_METHOD args st1 = (.ok r, st2) →
        Execute env rt (.NewInstance class__ class_ args_) c st
          = (.ok (some (.ClassInstance class__ class_)), c1, st2)) := by
  refine ⟨?_, ?_, ?_⟩
  · intro v c1 st1 h
    rw [Execute] at h
    split at h
    · rcases ha : ExecuteArgs env rt args_ c st with ⟨r1, c2, st2⟩
      rw [ha] at h
      cases r1 with
      | error e => cases h
      | ok args =>
        dsimp only at h
        rcases hcall : rt.call class__ class_ INIT_METHOD args st2 with ⟨r2, st3⟩
        rw [hcall] at h
        cases r2 with
        | error e => cases h
        | ok r =>
          cases h
          rfl
    · cases h
      rfl
  · intro hm
    rw [Execute]
    simp [hm]
  · intro hm args c1 st1 r st2 ha hcall
    rw [Execute]
    simp [hm, ha, hcall]

/-- Two executions of the node of the class `Counter`, which has no `__init__`, in different
closures and states: the same instance both times, the state untouched. -/
theorem NewInstance_returns_node_instance_witness :
    Execute factoryEnv (runtimeAt factoryEnv 1) (.NewInstance 10 0 []) [] ⟨[], ""⟩
      = (.ok (some (.ClassInstance 10 0)), [], ⟨[], ""⟩) ∧
    Execute factoryEnv (runtimeAt factoryEnv 1) (.NewInstance 10 0 [])
        [("a", some (.ClassInstance 10 0))] ⟨[(10, [("v", some (.Number 5))])], ""⟩
      = (.ok (some (.ClassInstance 10 0)), [("a", some (.ClassInstance 10 0))],
         ⟨[(10, [("v", some (.Number 5))])], ""⟩) :=
  ⟨(NewInstance_returns_node_instance factoryEnv (runtimeAt factoryEnv 1) 10 0 [] [] ⟨[], ""⟩).2.1
      rfl,
   (NewInstance_returns_node_instance factoryEnv (runtimeAt factoryEnv 1) 10 0 []
      [("a", some (.ClassInstance 10 0))] ⟨[(10, [("v", some (.Number 5))])], ""⟩).2.1 rfl⟩

/-- C22: `MethodBody` yields the empty holder when its body completes, the holder carried by
a `Return` when the body throws one, and throws on whatever else the body throws, a runtime
error among it, as it is; closure and state are those the body left. -/
theorem MethodBody_outcomes (env : Env) (rt : Runtime) (body_ : Statement) (c c1 : Closure)
    (st st1 : State) :
    (∀ v, Execute env rt body_ c st = (.ok v, c1, st1) →
      Execute env rt (.MethodBody body_) c st = (.ok none, c1, st1)) ∧
    (∀ v, Execute env rt body_ c st = (.error (.Return v), c1, st1) →
      Execute env rt (.MethodBody body_) c st = (.ok v, c1, st1)) ∧
    (∀ what, Execute env rt body_ c st = (.error (.runtime_error what), c1, st1) →
      Execute env rt (.MethodBody body_) c st = (.error (.runtime_error what), c1, st1)) ∧
    (∀ e, (∀ v, e ≠ .Return v) → Execute env rt body_ c st = (.error e, c1, st1) →
      Execute env rt (.MethodBody body_) c st = (.error e, c1, st1)) := by
  refine ⟨?_, ?_, ?_, ?_⟩
  · intro v h
    rw [Execute, h]
  · intro v h
    rw [Execute, h]
    rfl
  · intro what h
    rw [Execute, h]
    rfl
  · intro e hne h
    rw [Execute, h]
    cases e with
    | Return v => exact absurd rfl (hne v)
    | runtime_error w => rfl
    | fault => rfl
    | outOfFuel => rfl

/-- Three bodies: `x = 1` completes and gives the empty holder; `return 7` gives 7; the read
of the unbound `y` is a runtime error, and stays one. -/
theorem MethodBody_outcomes_witness :
    Execute sameEnv (runtimeAt sameEnv 0) (.MethodBody (.Assignment "x" (.NumericConst 1))) []
      ⟨[], ""⟩ = (.ok none, [("x", some (.Number 1))], ⟨[], ""⟩) ∧
    Execute sameEnv (runtimeAt sameEnv 0) (.MethodBody (.Return (.NumericConst 7))) []
      ⟨[], ""⟩ = (.ok (some (.Number 7)), [], ⟨[], ""⟩) ∧
    Execute sameEnv (runtimeAt sameEnv 0) (.MethodBody (.VariableValue "y" [])) []
      ⟨[], ""⟩ = (.error (.runtime_error "Variable y not found"), [], ⟨[], ""⟩) :=
  ⟨(MethodBody_outcomes sameEnv (runtimeAt sameEnv 0) _ [] _ ⟨[], ""⟩ _).1 _ rfl,
   (MethodBody_outcomes sameEnv (runtimeAt sameEnv 0) _ [] _ ⟨[], ""⟩ _).2.1 _ rfl,
   (MethodBody_outcomes sameEnv (runtimeAt sameEnv 0) _ [] _ ⟨[], ""⟩ _).2.2.1 _ rfl⟩

/-- C24, the code at operands that are no `Bool`: `"" or 0` and `0 or 5` are runtime errors,
not `False` and `True`. -/
theorem or_on_non_bool_fails :
    Execute sameEnv (runtimeAt sameEnv 0) (.Or (.StringConst "") (.NumericConst 0)) []
      ⟨[], ""⟩
      = (.error (.runtime_error "Cannot execute logic binary operation"), [], ⟨[], ""⟩) ∧
    Execute sameEnv (runtimeAt sameEnv 0) (.Or (.NumericConst 0) (.NumericConst 5)) []
      ⟨[], ""⟩
      = (.error (.runtime_error "Cannot execute logic binary operation"), [], ⟨[], ""⟩) ∧
    IsTrue (some (.Number 0)) = false ∧ IsTrue (some (.Number 5)) = true :=
  ⟨rfl, rfl, rfl, rfl⟩

/-- C24 as the code has it: `Or` works on `Bool` operands. With the left value `True` it
yields `True` and does not evaluate the right operand; with the left value `False` it
evaluates the right operand and yields its value when that is a `Bool`. A left value that is
no `Bool` is a runtime error (the right operand is not evaluated), and so is a right value
that is no `Bool` behind a left `False`. -/
theorem Or_on_Bool (env : Env) (rt : Runtime) (lhs_ rhs_ : Statement) (c c1 : Closure)
    (st st1 : State) (lhs : ObjectHolder)
    (h : Execute env rt lhs_ c st = (.ok lhs, c1, st1)) :
    (lhs = some (.Bool true) →
      Execute env rt (.Or lhs_ rhs_) c st = (.ok (some (.Bool true)), c1, st1)) ∧
    (lhs = some (.Bool false) → ∀ r c2 st2,
      Execute env rt rhs_ c1 st1 = (.ok (some (.Bool r)), c2, st2) →
      Execute env rt (.Or lhs_ rhs_) c st = (.ok (some (.Bool r)), c2, st2)) ∧
    (TryAsBool lhs = none →
      Execute env rt (.Or lhs_ rhs_) c st
        = (.error (.runtime_error "Cannot execute logic binary operation"), c1, st1)) ∧
    (lhs = some (.Bool false) → ∀ rhs c2 st2,
      Execute env rt rhs_ c1 st1 = (.ok rhs, c2, st2) → TryAsBool rhs = none →
      Execute env rt (.Or lhs_ rhs_) c st
        = (.error (.runtime_error "Cannot execute logic binary operation"), c2, st2)) := by
  refine ⟨?_, ?_, ?_, ?_⟩
  · intro hl
    subst hl
    rw [Execute, h]
    simp only [TryAsBool]
  · intro hl r c2 st2 hr
    subst hl
    rw [Execute, h]
    simp only [TryAsBool, hr, LogicOperand]
  · intro hl
    rw [Execute, h]
    simp only [hl]
  · intro hl rhs c2 st2 hr hn
    subst hl
    rw [Execute, h]
    have hl : TryAsBool (some (.Bool false)) = some false := rfl
    simp only [hl, hr, LogicOperand, hn]

/-- Evaluations of `Or`: `True or x` is `True` although `x` is unbound; `False or True` is
`True` and `False or False` is `False`; `0 or True` and `False or 5` are errors. -/
theorem Or_on_Bool_witness :
    Execute sameEnv (runtimeAt sameEnv 0) (.Or (.BoolConst true) (.VariableValue "x" [])) []
      ⟨[], ""⟩ = (.ok (some (.Bool true)), [], ⟨[], ""⟩) ∧
    Execute sameEnv (runtimeAt sameEnv 0) (.Or (.BoolConst false) (.BoolConst true)) []
      ⟨[], ""⟩ = (.ok (some (.Bool true)), [], ⟨[], ""⟩) ∧
    Execute sameEnv (runtimeAt sameEnv 0) (.Or (.BoolConst false) (.BoolConst false)) []
      ⟨[], ""⟩ = (.ok (some (.Bool false)), [], ⟨[], ""⟩) ∧
    Execute sameEnv (runtimeAt sameEnv 0) (.Or (.NumericConst 0) (.BoolConst true)) []
      ⟨[], ""⟩
      = (.error (.runtime_error "Cannot execute logic binary operation"), [], ⟨[], ""⟩) ∧
    Execute sameEnv (runtimeAt sameEnv 0) (.Or (.BoolConst false) (.NumericConst 5)) []
      ⟨[], ""⟩
      = (.error (.runtime_error "Cannot execute logic binary operation"), [], ⟨[], ""⟩) :=
  ⟨(Or_on_Bool sameEnv (runtimeAt sameEnv 0) (.BoolConst true) _ [] [] ⟨[], ""⟩ ⟨[], ""⟩ _
      rfl).1 rfl,
   (Or_on_Bool sameEnv (runtimeAt sameEnv 0) (.BoolConst false) _ [] [] ⟨[], ""⟩ ⟨[], ""⟩ _
      rfl).2.1 rfl true _ _ rfl,
   (Or_on_Bool sameEnv (runtimeAt sameEnv 0) (.BoolConst false) _ [] [] ⟨[], ""⟩ ⟨[], ""⟩ _
      rfl).2.1 rfl false _ _ rfl,
   (Or_on_Bool sameEnv (runtimeAt sameEnv 0) (.NumericConst 0) _ [] [] ⟨[], ""⟩ ⟨[], ""⟩ _
      rfl).2.2.1 rfl,
   (Or_on_Bool sameEnv (runtimeAt sameEnv 0) (.BoolConst false) _ [] [] ⟨[], ""⟩ ⟨[], ""⟩ _
      rfl).2.2.2 rfl _ _ _ rfl rfl⟩

end ast

/-! ## `Print` (`statement.cpp`, `runtime.cpp`) -/

namespace ast

open runtime

/-- What `os << value_` writes for an `int` is the decimal numeral. -/
theorem toString_eq_decimal (n : Int) : toString n = decimal n := by
  cases n with
  | ofNat m =>
    have h : ¬ ((Int.ofNat m) < 0) := by simp
    simp only [decimal, h, if_false]
    rfl
  | negSucc m =>
    have h : (Int.negSucc m) < 0 := Int.negSucc_lt_zero m
    simp only [decimal, h, if_true]
    rfl

theorem intercalate_go_eq (ts : List String) :
    ∀ acc : String, String.intercalate.go acc " " ts = acc ++ spaced ts := by
  induction ts with
  | nil =>
    intro acc
    simp [String.intercalate.go, spaced]
  | cons t ts ih =>
    intro acc
    simp [String.intercalate.go, spaced, ih, String.append_assoc]

/-- A holder that is shown without a call is printed as its text, and nothing else
happens. -/
theorem PrintObject_rendering (env : Env) (rt : Runtime) (obj : Object) (text : String)
    (st : State) (h : rendering env (some obj) = some text) :
    PrintObject env rt obj st = (.ok text, st) := by
  cases obj with
  | Number n =>
    simp only [rendering, Option.some.injEq] at h
    rw [← h, ← toString_eq_decimal]
    rfl
  | String s =>
    simp only [rendering, Option.some.injEq] at h
    rw [← h]
    rfl
  | Bool b =>
    simp only [rendering, Option.some.injEq] at h
    rw [← h]
    rfl
  | Class id =>
    simp only [rendering, Option.some.injEq] at h
    rw [← h]
    rfl
  | ClassInstance addr class_ => simp [rendering] at h

/-- The loop of `Print` behind the first argument: every text with a space in front, then
the newline. -/
theorem PrintArgs_rest (env : Env) (rt : Runtime) (args : List Statement) (c c2 : Closure)
    (f f2 : List (Nat × Closure)) (texts : List String)
    (h : ArgsShown env rt args c f texts c2 f2) :
    ∀ out, PrintArgs env rt false args c ⟨f, out⟩
      = (.ok none, c2, ⟨f2, out ++ spaced texts ++ "\n"⟩) := by
  induction h with
  | nil c f =>
    intro out
    simp [PrintArgs, State.write, spaced]
  | cons arg rest c c1 c2 f f1 f2 v text texts hv hr _ ih =>
    intro out
    rw [PrintArgs, hv out]
    cases v with
    | none =>
      simp only [rendering, Option.some.injEq] at hr
      subst hr
      simp only [State.write, Bool.false_eq_true, if_false, NONE_OBJECT]
      rw [ih]
      simp [spaced, String.append_assoc]
    | some obj =>
      simp only [State.write, Bool.false_eq_true, if_false]
      rw [PrintObject_rendering env rt obj text _ hr]
      simp only [State.write]
      rw [ih]
      simp [spaced, String.append_assoc]

/-- C25: `Print` evaluates its arguments from left to right, each in the closure and with the
fields the one before left, and appends to the output the texts of their values with one
space between two of them and one newline at the end; the empty holder is shown as `None`,
a `Bool` as `True` or `False`, a `Number` as its decimal numeral, a `String` as it is and a
`Class` as `Class` and its name. Without arguments it appends the newline alone. It yields
the empty holder. (The arguments are taken to write nothing themselves and to have values
that are shown without a call of `__str__`.) -/
theorem Print_output (env : Env) (rt : Runtime) (args_ : List Statement) (c c2 : Closure)
    (st : State) (f2 : List (Nat × Closure)) (texts : List String)
    (h : ArgsShown env rt args_ c st.fields texts c2 f2) :
    Execute env rt (.Print args_) c st
      = (.ok none, c2, ⟨f2, st.output ++ " ".intercalate texts ++ "\n"⟩) := by
  obtain ⟨f, out⟩ := st
  rw [Execute]
  cases h with
  | nil =>
    simp [PrintArgs, State.write, String.intercalate]
  | cons arg rest c c1 c2 f f1 f2 v text texts hv hr hrest =>
    rw [PrintArgs, hv out]
    have hi : " ".intercalate (text :: texts) = text ++ spaced texts := by
      simp [String.intercalate, intercalate_go_eq]
    cases v with
    | none =>
      simp only [rendering, Option.some.injEq] at hr
      subst hr
      simp only [State.write, if_true, NONE_OBJECT]
      rw [PrintArgs_rest env rt rest c1 c2 f1 f2 texts hrest, hi]
      simp [String.append_assoc]
    | some obj =>
      simp only [State.write, if_true]
      rw [PrintObject_rendering env rt obj text _ hr]
      simp only [State.write]
      rw [PrintArgs_rest env rt rest c1 c2 f1 f2 texts hrest, hi]
      simp [String.append_assoc]

/-- The statement `print x = -15, x, "a", None, True, Same` writes
`-15 -15 a None True Class Same` and a newline behind what the output held, the second
argument seeing the binding the first made; `print` without arguments writes a newline. -/
theorem Print_output_witness :
    Execute sameEnv (runtimeAt sameEnv 0)
      (.Print [.Assignment "x" (.NumericConst (-15)), .VariableValue "x" [], .StringConst "a",
               .None, .BoolConst true, .VariableValue "Same" []])
      [("Same", some (.Class 0))] ⟨[], ">"⟩
      = (.ok none, [("Same", some (.Class 0)), ("x", some (.Number (-15)))],
         ⟨[], ">-15 -15 a None True Class Same\n"⟩) ∧
    Execute sameEnv (runtimeAt sameEnv 0) (.Print []) [] ⟨[], ""⟩
      = (.ok none, [], ⟨[], "\n"⟩) :=
  ⟨Print_output sameEnv (runtimeAt sameEnv 0) _ [("Same", some (.Class 0))]
      [("Same", some (.Class 0)), ("x", some (.Number (-15)))] ⟨[], ">"⟩ []
      ["-15", "-15", "a", "None", "True", "Class Same"]
      (.cons _ _ _ _ _ _ _ _ _ _ _ (fun _ => rfl) rfl
        (.cons _ _ _ _ _ _ _ _ _ _ _ (fun _ => rfl) rfl
          (.cons _ _ _ _ _ _ _ _ _ _ _ (fun _ => rfl) rfl
            (.cons _ _ _ _ _ _ _ _ _ _ _ (fun _ => rfl) rfl
              (.cons _ _ _ _ _ _ _ _ _ _ _ (fun _ => rfl) rfl
                (.cons _ _ _ _ _ _ _ _ _ _ _ (fun _ => rfl) rfl (.nil _ _))))))),
   Print_output sameEnv (runtimeAt sameEnv 0) [] [] [] ⟨[], ""⟩ [] [] (.nil _ _)⟩

end ast

/-! ## `Add`, `Div`, `VariableValue`, `Assignment` (`statement.cpp`) -/

namespace ast

open runtime

/-- A value of the range of `int` is its own wrapped value. -/
theorem wrapInt_of_int (x : Int) (h1 : -2147483648 ≤ x) (h2 : x < 2147483648) :
    wrapInt x = x := by
  unfold wrapInt
  omega

/-- A call is refused when `HasMethod` denies the method for the number of arguments. -/
theorem Call_refused (env : Env)
    (exec : Statement → Closure → State → Except Exc ObjectHolder × Closure × State)
    (addr : Nat) (class_ : ClassId) (method : String) (actual_args : List ObjectHolder)
    (st : State) (h : HasMethod env class_ method actual_args.length = false) :
    Call env exec addr class_ method actual_args st
      = (.error (.runtime_error "Not implemented"), st) := by
  unfold HasMethod at h
  unfold Call
  cases hm : (env.classes class_).GetMethod env method with
  | none => rfl
  | some mt =>
    rw [hm] at h
    have hne : mt.formal_params.length ≠ actual_args.length := by simpa using h
    simp [hne]

/-- C26: `Add` on the values of its operands. Two numbers give their sum (as an `int`: the
sum itself whenever it is in the range of `int`), two strings their concatenation. With a
class instance on the left the result is what the call `lhs.__add__(rhs)` yields: the body of
`__add__` is run when the class has it with one parameter, and the call is refused with a
runtime error when it has not. Every other pair of values is a runtime error. -/
theorem Add_outcomes (env : Env) (fuel : Nat) (lhs_ rhs_ : Statement) (c c1 c2 : Closure)
    (st st1 st2 : State) (lhs rhs : ObjectHolder)
    (hl : Execute env (runtimeAt env (fuel + 1)) lhs_ c st = (.ok lhs, c1, st1))
    (hr : Execute env (runtimeAt env (fuel + 1)) rhs_ c1 st1 = (.ok rhs, c2, st2)) :
    (∀ a b : Int, lhs = some (.Number a) → rhs = some (.Number b) →
      Execute env (runtimeAt env (fuel + 1)) (.Add lhs_ rhs_) c st
        = (.ok (some (.Number (wrapInt (a + b)))), c2, st2) ∧
      (-2147483648 ≤ a + b → a + b < 2147483648 →
        Execute env (runtimeAt env (fuel + 1)) (.Add lhs_ rhs_) c st
          = (.ok (some (.Number (a + b))), c2, st2))) ∧
    (∀ a b : String, lhs = some (.String a) → rhs = some (.String b) →
      Execute env (runtimeAt env (fuel + 1)) (.Add lhs_ rhs_) c st
        = (.ok (some (.String (a ++ b))), c2, st2)) ∧
    (∀ addr class_, lhs = some (.ClassInstance addr class_) →
      Execute env (runtimeAt env (fuel + 1)) (.Add lhs_ rhs_) c st
        = ((Call env (Execute env (runtimeAt env fuel)) addr class_ ADD_METHOD [rhs] st2).1, c2,
           (Call env (Execute env (runtimeAt env fuel)) addr class_ ADD_METHOD [rhs] st2).2) ∧
      (HasMethod env class_ ADD_METHOD 1 = true →
        ∃ mt p, (env.classes class_).GetMethod env ADD_METHOD = some mt ∧
          mt.formal_params = [p] ∧
          Execute env (runtimeAt env (fuel + 1)) (.Add lhs_ rhs_) c st
            = ((Execute env (runtimeAt env fuel) mt.body
                  (Closure.set (Closure.set [] "self" (some (.ClassInstance addr class_))) p rhs)
                  st2).1, c2,
               (Execute env (runtimeAt env fuel) mt.body
                  (Closure.set (Closure.set [] "self" (some (.ClassInstance addr class_))) p rhs)
                  st2).2.2)) ∧
      (HasMethod env class_ ADD_METHOD 1 = false →
        Execute env (runtimeAt env (fuel + 1)) (.Add lhs_ rhs_) c st
          = (.error (.runtime_error "Not implemented"), c2, st2))) ∧
    (TryAsClassInstance lhs = none →
      (∀ a b : Int, ¬ (lhs = some (.Number a) ∧ rhs = some (.Number b))) →
      (∀ a b : String, ¬ (lhs = some (.String a) ∧ rhs = some (.String b))) →
      Execute env (runtimeAt env (fuel + 1)) (.Add lhs_ rhs_) c st
        = (.error (.runtime_error "Cannot execute binary operation"), c2, st2)) := by
  have hE : Execute env (runtimeAt env (fuel + 1)) (.Add lhs_ rhs_) c st
      = AddValues (runtimeAt env (fuel + 1)) lhs rhs c2 st2 := by
    rw [Execute, hl]
    simp only [hr]
  refine ⟨?_, ?_, ?_, ?_⟩
  · intro a b ha hb
    subst ha
    subst hb
    have h1 : Execute env (runtimeAt env (fuel + 1)) (.Add lhs_ rhs_) c st
        = (.ok (some (.Number (wrapInt (a + b)))), c2, st2) := by
      rw [hE]
      rfl
    refine ⟨h1, ?_⟩
    intro hlo hhi
    rw [h1, wrapInt_of_int _ hlo hhi]
  · intro a b ha hb
    subst ha
    subst hb
    rw [hE]
    rfl
  · intro addr class_ ha
    subst ha
    have h1 : Execute env (runtimeAt env (fuel + 1)) (.Add lhs_ rhs_) c st
        = ((Call env (Execute env (runtimeAt env fuel)) addr class_ ADD_METHOD [rhs] st2).1, c2,
           (Call env (Execute env (runtimeAt env fuel)) addr class_ ADD_METHOD [rhs] st2).2) := by
      rw [hE]
      rfl
    refine ⟨h1, ?_, ?_⟩
    · intro hm
      obtain ⟨mt, p, hg, hp, hcall⟩ :=
        Call_unary env (Execute env (runtimeAt env fuel)) addr class_ ADD_METHOD hm
      refine ⟨mt, p, hg, hp, ?_⟩
      rw [h1, hcall rhs st2]
    · intro hm
      rw [h1, Call_refused env _ addr class_ ADD_METHOD [rhs] st2 hm]
  · intro hi hn hs
    rw [hE]
    unfold AddValues
    rw [hi]
    simp only
    cases lhs with
    | none => rfl
    | some l =>
      cases rhs with
      | none => cases l <;> rfl
      | some r =>
        cases l <;> cases r <;> first
          | rfl
          | exact absurd ⟨rfl, rfl⟩ (hn _ _)
          | exact absurd ⟨rfl, rfl⟩ (hs _ _)

/-- Sums: `2 + 3` is 5 and `"a" + "b"` is `ab`; an instance of `Vec`, whose `__add__` returns
its argument, plus 7 is 7; an instance of `Same`, which has no `__add__`, plus 7 is refused;
`1 + "a"`, `None + 1` and `True + True` are errors. -/
theorem Add_outcomes_witness :
    Execute vecEnv (runtimeAt vecEnv 1) (.Add (.NumericConst 2) (.NumericConst 3)) [] ⟨[], ""⟩
      = (.ok (some (.Number 5)), [], ⟨[], ""⟩) ∧
    Execute vecEnv (runtimeAt vecEnv 1) (.Add (.StringConst "a") (.StringConst "b")) []
      ⟨[], ""⟩ = (.ok (some (.String "ab")), [], ⟨[], ""⟩) ∧
    Execute vecEnv (runtimeAt vecEnv 1) (.Add (.VariableValue "v" []) (.NumericConst 7))
      [("v", some (.ClassInstance 1 0))] ⟨[], ""⟩
      = (.ok (some (.Number 7)), [("v", some (.ClassInstance 1 0))], ⟨[], ""⟩) ∧
    Execute sameEnv (runtimeAt sameEnv 1) (.Add (.VariableValue "v" []) (.NumericConst 7))
      [("v", some (.ClassInstance 1 0))] ⟨[], ""⟩
      = (.error (.runtime_error "Not implemented"), [("v", some (.ClassInstance 1 0))],
         ⟨[], ""⟩) ∧
    Execute vecEnv (runtimeAt vecEnv 1) (.Add (.NumericConst 1) (.StringConst "a")) []
      ⟨[], ""⟩ = (.error (.runtime_error "Cannot execute binary operation"), [], ⟨[], ""⟩) ∧
    Execute vecEnv (runtimeAt vecEnv 1) (.Add .None (.NumericConst 1)) []
      ⟨[], ""⟩ = (.error (.runtime_error "Cannot execute binary operation"), [], ⟨[], ""⟩) ∧
    Execute vecEnv (runtimeAt vecEnv 1) (.Add (.BoolConst true) (.BoolConst true)) []
      ⟨[], ""⟩ = (.error (.runtime_error "Cannot execute binary operation"), [], ⟨[], ""⟩) :=
  ⟨((Add_outcomes vecEnv 0 (.NumericConst 2) (.NumericConst 3) [] [] [] ⟨[], ""⟩ ⟨[], ""⟩
      ⟨[], ""⟩ _ _ rfl rfl).1 2 3 rfl rfl).2 (by decide) (by decide),
   (Add_outcomes vecEnv 0 (.StringConst "a") (.StringConst "b") [] [] [] ⟨[], ""⟩ ⟨[], ""⟩
      ⟨[], ""⟩ _ _ rfl rfl).2.1 "a" "b" rfl rfl,
   ((Add_outcomes vecEnv 0 (.VariableValue "v" []) (.NumericConst 7)
      [("v", some (.ClassInstance 1 0))] [("v", some (.ClassInstance 1 0))]
      [("v", some (.ClassInstance 1 0))] ⟨[], ""⟩ ⟨[], ""⟩ ⟨[], ""⟩ _ _ rfl rfl).2.2.1 1 0
      rfl).1,
   ((Add_outcomes sameEnv 0 (.VariableValue "v" []) (.NumericConst 7)
      [("v", some (.ClassInstance 1 0))] [("v", some (.ClassInstance 1 0))]
      [("v", some (.ClassInstance 1 0))] ⟨[], ""⟩ ⟨[], ""⟩ ⟨[], ""⟩ _ _ rfl rfl).2.2.1 1 0
      rfl).2.2 rfl,
   (Add_outcomes vecEnv 0 (.NumericConst 1) (.StringConst "a") [] [] [] ⟨[], ""⟩ ⟨[], ""⟩
      ⟨[], ""⟩ _ _ rfl rfl).2.2.2 rfl (by simp) (by simp),
   (Add_outcomes vecEnv 0 .None (.NumericConst 1) [] [] [] ⟨[], ""⟩ ⟨[], ""⟩
      ⟨[], ""⟩ _ _ rfl rfl).2.2.2 rfl (by simp) (by simp),
   (Add_outcomes vecEnv 0 (.BoolConst true) (.BoolConst true) [] [] [] ⟨[], ""⟩ ⟨[], ""⟩
      ⟨[], ""⟩ _ _ rfl rfl).2.2.2 rfl (by simp) (by simp)⟩

/-- The quotient `Int.tdiv` is the quotient truncated toward zero. -/
theorem tdiv_eq_truncatedQuotient (a b : Int) : Int.tdiv a b = truncatedQuotient a b := by
  unfold truncatedQuotient
  have key : ∀ m n : Nat,
      Int.tdiv (m : Int) (n : Int) = Int.sign m * Int.sign n * ((m / n : Nat) : Int) := by
    intro m n
    rcases Nat.eq_zero_or_pos m with rfl | hm
    · simp
    rcases Nat.eq_zero_or_pos n with rfl | hn
    · simp
    have h1 : Int.sign (m : Int) = 1 := Int.sign_eq_one_of_pos (by exact_mod_cast hm)
    have h2 : Int.sign (n : Int) = 1 := Int.sign_eq_one_of_pos (by exact_mod_cast hn)
    rw [h1, h2]
    simp [Int.tdiv]
  rcases Int.natAbs_eq a with ha | ha <;> rcases Int.natAbs_eq b with hb | hb
  · rw [ha, hb, key]; simp
  · rw [ha, hb, Int.tdiv_neg, key]; simp
  · rw [ha, hb, Int.neg_tdiv, key]; simp
  · rw [ha, hb, Int.neg_tdiv, Int.tdiv_neg, key]; simp

/-- The truncated quotient of an `int` by a non-zero `int` is in the range of `int`, the
quotient of the least `int` by -1 excepted. -/
theorem tdiv_range (a b : Int) (hb : b ≠ 0) (h1 : -2147483648 ≤ a) (h2 : a < 2147483648)
    (hn : ¬ (a = -2147483648 ∧ b = -1)) :
    -2147483648 ≤ Int.tdiv a b ∧ Int.tdiv a b < 2147483648 := by
  have hq : (Int.tdiv a b).natAbs = a.natAbs / b.natAbs := Int.natAbs_tdiv a b
  by_cases hb1 : b.natAbs = 1
  · have : b = 1 ∨ b = -1 := by omega
    rcases this with rfl | rfl
    · rw [Int.tdiv_one]; omega
    · rw [Int.tdiv_neg, Int.tdiv_one]; omega
  · have hb2 : 2 ≤ b.natAbs := by omega
    have : a.natAbs / b.natAbs ≤ a.natAbs / 2 := Nat.div_le_div_left hb2 (by norm_num)
    omega

/-- C27, the code at a division: with two numbers as operands and the right one 0, `Div`
raises no runtime error. The lambda handed to `NumberBynaryOperation` is the bare `a / b`,
so the division by 0 is carried out, which C++ leaves undefined. With a right operand other
than 0 the result is the number whose value is the quotient truncated toward zero (for a
left operand in the range of `int`, the least `int` divided by -1 excepted, where the
division is undefined as well). -/
theorem Div_outcomes (env : Env) (rt : Runtime) (lhs_ rhs_ : Statement) (c c1 c2 : Closure)
    (st st1 st2 : State) (a b : Int)
    (hl : Execute env rt lhs_ c st = (.ok (some (.Number a)), c1, st1))
    (hr : Execute env rt rhs_ c1 st1 = (.ok (some (.Number b)), c2, st2)) :
    (b = 0 → Execute env rt (.Div lhs_ rhs_) c st = (.error .fault, c2, st2)) ∧
    (b ≠ 0 → -2147483648 ≤ a → a < 2147483648 → ¬ (a = -2147483648 ∧ b = -1) →
      Execute env rt (.Div lhs_ rhs_) c st
        = (.ok (some (.Number (truncatedQuotient a b))), c2, st2)) := by
  have hE : Execute env rt (.Div lhs_ rhs_) c st
      = (NumberBynaryOperation (some (.Number a)) (some (.Number b)) intDiv, c2, st2) := by
    rw [Execute, hl]
    simp only [hr]
  constructor
  · intro hb
    subst hb
    rw [hE]
    simp [NumberBynaryOperation, intDiv]
  · intro hb h1 h2 hn
    obtain ⟨hlo, hhi⟩ := tdiv_range a b hb h1 h2 hn
    have hd : intDiv a b = some (Int.tdiv a b) := by
      unfold intDiv
      rw [if_neg]
      rintro (h | h)
      · exact hb h
      · exact hn h
    rw [hE]
    simp only [NumberBynaryOperation, hd]
    rw [wrapInt_of_int _ hlo hhi, tdiv_eq_truncatedQuotient]

/-- Quotients: `7 / 0` raises no runtime error, the division by 0 is carried out; `7 / 2` is
3, `-7 / 2` is -3 and `7 / -2` is -3. -/
theorem Div_outcomes_witness :
    Execute sameEnv (runtimeAt sameEnv 0) (.Div (.NumericConst 7) (.NumericConst 0)) []
      ⟨[], ""⟩ = (.error .fault, [], ⟨[], ""⟩) ∧
    Execute sameEnv (runtimeAt sameEnv 0) (.Div (.NumericConst 7) (.NumericConst 2)) []
      ⟨[], ""⟩ = (.ok (some (.Number 3)), [], ⟨[], ""⟩) ∧
    Execute sameEnv (runtimeAt sameEnv 0) (.Div (.NumericConst (-7)) (.NumericConst 2)) []
      ⟨[], ""⟩ = (.ok (some (.Number (-3))), [], ⟨[], ""⟩) ∧
    Execute sameEnv (runtimeAt sameEnv 0) (.Div (.NumericConst 7) (.NumericConst (-2))) []
      ⟨[], ""⟩ = (.ok (some (.Number (-3))), [], ⟨[], ""⟩) :=
  ⟨(Div_outcomes sameEnv (runtimeAt sameEnv 0) (.NumericConst 7) (.NumericConst 0) [] [] []
      ⟨[], ""⟩ ⟨[], ""⟩ ⟨[], ""⟩ 7 0 rfl rfl).1 rfl,
   (Div_outcomes sameEnv (runtimeAt sameEnv 0) (.NumericConst 7) (.NumericConst 2) [] [] []
      ⟨[], ""⟩ ⟨[], ""⟩ ⟨[], ""⟩ 7 2 rfl rfl).2 (by decide) (by decide) (by decide)
      (by decide),
   (Div_outcomes sameEnv (runtimeAt sameEnv 0) (.NumericConst (-7)) (.NumericConst 2) [] [] []
      ⟨[], ""⟩ ⟨[], ""⟩ ⟨[], ""⟩ (-7) 2 rfl rfl).2 (by decide) (by decide) (by decide)
      (by decide),
   (Div_outcomes sameEnv (runtimeAt sameEnv 0) (.NumericConst 7) (.NumericConst (-2)) [] [] []
      ⟨[], ""⟩ ⟨[], ""⟩ ⟨[], ""⟩ 7 (-2) rfl rfl).2 (by decide) (by decide) (by decide)
      (by decide)⟩

/-- C28: the read of `name` followed by a dotted path. An unbound `name` is a runtime error;
without a path the result is the holder bound to `name`; with a path the holder bound to
`name` has to be a class instance, a runtime error if it is not, and the result is that of
reading the path (its first segment as the name, the rest as the path) in the fields of that
instance, so a segment that is no field of the instance reached is a runtime error. Closure
and state, and with it all fields, are left as they were. -/
theorem VariableValue_read (env : Env) (rt : Runtime) (var_name_ : String) (c : Closure)
    (st : State) :
    (c.find var_name_ = none → ∀ ids,
      Execute env rt (.VariableValue var_name_ ids) c st
        = (.error (.runtime_error ("Variable " ++ var_name_ ++ " not found")), c, st)) ∧
    (∀ v, c.find var_name_ = some v →
      Execute env rt (.VariableValue var_name_ []) c st = (.ok v, c, st)) ∧
    (∀ v id ids, c.find var_name_ = some v → TryAsClassInstance v = none →
      Execute env rt (.VariableValue var_name_ (id :: ids)) c st
        = (.error (.runtime_error ("Variable " ++ var_name_ ++ " is not class")), c, st)) ∧
    (∀ addr class_ id ids, c.find var_name_ = some (some (.ClassInstance addr class_)) →
      Execute env rt (.VariableValue var_name_ (id :: ids)) c st
        = ((Execute env rt (.VariableValue id ids) (st.fieldsOf addr) st).1, c, st) ∧
      ((st.fieldsOf addr).find id = none →
        Execute env rt (.VariableValue var_name_ (id :: ids)) c st
          = (.error (.runtime_error ("Variable " ++ id ++ " not found")), c, st))) ∧
    (∀ ids, (Execute env rt (.VariableValue var_name_ ids) c st).2 = (c, st)) := by
  refine ⟨?_, ?_, ?_, ?_, ?_⟩
  · intro h ids
    rw [Execute]
    cases ids <;> simp [VariableValueExecute, h]
  · intro v h
    rw [Execute]
    simp [VariableValueExecute, h]
  · intro v id ids h hi
    rw [Execute]
    cases v with
    | none => simp [VariableValueExecute, h]
    | some obj =>
      cases obj <;> first
        | (simp [TryAsClassInstance] at hi; done)
        | simp [VariableValueExecute, h]
  · intro addr class_ id ids h
    have h1 : Execute env rt (.VariableValue var_name_ (id :: ids)) c st
        = ((Execute env rt (.VariableValue id ids) (st.fieldsOf addr) st).1, c, st) := by
      rw [Execute, Execute]
      simp [VariableValueExecute, h]
    refine ⟨h1, ?_⟩
    intro hf
    rw [h1, Execute]
    cases ids <;> simp [VariableValueExecute, hf]
  · intro ids
    rw [Execute]

/-- Reads with `a` bound to an instance whose field `b` is an instance whose field `c` is 7,
and `n` bound to 1: `a.b.c` is 7; `z` is unbound; `n.b` fails because `n` is no instance;
`a.x` fails because `x` is no field. -/
theorem VariableValue_read_witness :
    Execute sameEnv (runtimeAt sameEnv 0) (.VariableValue "a" ["b", "c"]) pathClosure pathState
      = (.ok (some (.Number 7)), pathClosure, pathState) ∧
    Execute sameEnv (runtimeAt sameEnv 0) (.VariableValue "z" ["b"]) pathClosure pathState
      = (.error (.runtime_error "Variable z not found"), pathClosure, pathState) ∧
    Execute sameEnv (runtimeAt sameEnv 0) (.VariableValue "n" ["b"]) pathClosure pathState
      = (.error (.runtime_error "Variable n is not class"), pathClosure, pathState) ∧
    Execute sameEnv (runtimeAt sameEnv 0) (.VariableValue "a" ["x"]) pathClosure pathState
      = (.error (.runtime_error "Variable x not found"), pathClosure, pathState) :=
  ⟨((VariableValue_read sameEnv (runtimeAt sameEnv 0) "a" pathClosure pathState).2.2.2.1 1 0
      "b" ["c"] rfl).1,
   (VariableValue_read sameEnv (runtimeAt sameEnv 0) "z" pathClosure pathState).1 rfl ["b"],
   (VariableValue_read sameEnv (runtimeAt sameEnv 0) "n" pathClosure pathState).2.2.1 _ "b" []
      rfl rfl,
   ((VariableValue_read sameEnv (runtimeAt sameEnv 0) "a" pathClosure pathState).2.2.2.1 1 0
      "x" [] rfl).2 rfl⟩

/-- C30: `Assignment` evaluates its right-hand side once, binds the name to the holder that
gave in the closure the evaluation left, and yields that holder: afterwards the name is bound
to it, whether it was bound before or not, and every other name is bound as the evaluation
left it. The state is the one the evaluation left. When the evaluation throws, nothing is
bound. -/
theorem Assignment_binds (env : Env) (rt : Runtime) (var_name_ : String) (rv_ : Statement)
    (c c1 : Closure) (st st1 : State) :
    (∀ v, Execute env rt rv_ c st = (.ok v, c1, st1) →
      Execute env rt (.Assignment var_name_ rv_) c st = (.ok v, Closure.set c1 var_name_ v, st1) ∧
      (Closure.set c1 var_name_ v).find var_name_ = some v ∧
      (∀ other, other ≠ var_name_ →
        (Closure.set c1 var_name_ v).find other = c1.find other)) ∧
    (∀ e, Execute env rt rv_ c st = (.error e, c1, st1) →
      Execute env rt (.Assignment var_name_ rv_) c st = (.error e, c1, st1)) := by
  constructor
  · intro v h
    refine ⟨?_, find_set_same c1 var_name_ v, ?_⟩
    · rw [Execute, h]
    · intro other hne
      exact find_set_other c1 var_name_ other v hne
  · intro e h
    rw [Execute, h]

/-- Two assignments in the closure that binds `x` to 1 and `y` to 2: `x = 5` replaces the
holder of `x`, `z = 5` inserts `z`; both yield 5 and leave the other names alone. The
assignment `x = w` with `w` unbound throws and binds nothing. -/
theorem Assignment_binds_witness :
    Execute sameEnv (runtimeAt sameEnv 0) (.Assignment "x" (.NumericConst 5))
      [("x", some (.Number 1)), ("y", some (.Number 2))] ⟨[], ""⟩
      = (.ok (some (.Number 5)), [("x", some (.Number 5)), ("y", some (.Number 2))],
         ⟨[], ""⟩) ∧
    Execute sameEnv (runtimeAt sameEnv 0) (.Assignment "z" (.NumericConst 5))
      [("x", some (.Number 1)), ("y", some (.Number 2))] ⟨[], ""⟩
      = (.ok (some (.Number 5)),
         [("x", some (.Number 1)), ("y", some (.Number 2)), ("z", some (.Number 5))],
         ⟨[], ""⟩) ∧
    Execute sameEnv (runtimeAt sameEnv 0) (.Assignment "x" (.VariableValue "w" []))
      [("x", some (.Number 1)), ("y", some (.Number 2))] ⟨[], ""⟩
      = (.error (.runtime_error "Variable w not found"),
         [("x", some (.Number 1)), ("y", some (.Number 2))], ⟨[], ""⟩) :=
  ⟨((Assignment_binds sameEnv (runtimeAt sameEnv 0) "x" (.NumericConst 5)
      [("x", some (.Number 1)), ("y", some (.Number 2))] _ ⟨[], ""⟩ _).1 _ rfl).1,
   ((Assignment_binds sameEnv (runtimeAt sameEnv 0) "z" (.NumericConst 5)
      [("x", some (.Number 1)), ("y", some (.Number 2))] _ ⟨[], ""⟩ _).1 _ rfl).1,
   (Assignment_binds sameEnv (runtimeAt sameEnv 0) "x" (.VariableValue "w" [])
      [("x", some (.Number 1)), ("y", some (.Number 2))] _ ⟨[], ""⟩ _).2 _ rfl⟩

end ast
